import Mathlib

/-!
Verification of the buddy-allocator workshop (Restioson/buddy-allocator-workshop).

The development shallowly embeds the three allocator variants of the repository:

* `BuddyBitmap` — `src/buddy_allocator_bitmap.rs`, the flat implicit-binary-tree
  bitmap allocator (`Tree`, `Tree::new`, `Tree::alloc_exact`);
* `BuddyLists`  — `src/buddy_allocator_lists.rs`, the per-order free-list
  allocator (`BuddyAllocator<L: BlockList>`);
* `BuddyRbTree` — `src/buddy_allocator_tree.rs`, the address-keyed ordered tree
  of block records with per-order free stacks.

Machine integers of the source are modelled by `Nat`.  Every arithmetic
operation performed by the source on the modelled paths stays far below the
corresponding machine bounds (`order_free : u8` only ever holds values
`0 ..= MAX_ORDER + 1 = 19`; the bitmap address accumulator `addr : u32` is a sum
of distinct powers `2^12 ..= 2^29 < 2^32`; list/tree addresses are sums of block
offsets below `2^56`), so `Nat` agrees with the wrapped machine semantics at
every evaluated expression; the one place where a `u8` subtraction could
underflow (`MAX_ORDER - desired_order` for `desired_order > MAX_ORDER`) is
unreachable in the source for any tree reachable from `Tree::new` because the
feasibility check returns first, and the theorems below only use it under that
guard.
-/

namespace BuddyWorkshop

/-- `lib.rs`: `pub const LEVEL_COUNT: u8 = 19;` (aka `ORDERS` in other revisions). -/
def LEVEL_COUNT : Nat := 19

/-- `lib.rs`: `pub const MAX_ORDER: u8 = LEVEL_COUNT - 1;` -/
def MAX_ORDER : Nat := LEVEL_COUNT - 1

/-- `lib.rs`: `pub const BASE_ORDER: u8 = 12;` (aka `MIN_ORDER` in other revisions). -/
def BASE_ORDER : Nat := 12

/-- `lib.rs`: `pub const MAX_ORDER_SIZE: u8 = BASE_ORDER + MAX_ORDER;`
(imported as `TOP_ORDER` by `buddy_allocator_bitmap.rs`). -/
def MAX_ORDER_SIZE : Nat := BASE_ORDER + MAX_ORDER

/-- A pointwise write into a flat array modelled as a function. -/
def upd (f : Nat → Nat) (i v : Nat) : Nat → Nat := fun j => if j = i then v else f j

namespace BuddyBitmap

/-- `Tree::blocks_in_tree(levels) = (1 << levels) - 1`. -/
def blocks_in_tree (levels : Nat) : Nat := 2 ^ levels - 1

/-- `Tree::blocks_in_level(order)`: number of blocks of the given order in one tree. -/
def blocks_in_level (order : Nat) : Nat := 2 ^ (BASE_ORDER + order) / 2 ^ BASE_ORDER

/-- The bitmap tree.  `flat b` is the `order_free` byte of the block at 0-based flat
index `b` (the node with 1-based tree index `b + 1`).  The source stores the
array `flat_blocks : Box<[Block; blocks_in_tree(LEVEL_COUNT)]>`; we model it as a
total function which is `0` beyond the array (no evaluated path reads there,
which theorem `C9` below establishes). -/
@[ext]
structure Tree where
  flat : Nat → Nat

/-- The initialisation loop of `Tree::new()`: for `level in 0..levels`, every flat
index in `[start, start + 2^level)` with `start = 2^0 + ... + 2^(level-1) = 2^level - 1`
is set to `Block::new_free(MAX_ORDER - level).order_free = (MAX_ORDER - level) + 1`.
The written ranges of distinct levels are disjoint, so testing the ranges from the
highest level down (as this recursion does) writes the same array as the source's
ascending loop.  Cells never written (there are none inside the array) are `0`. -/
def newLevels : Nat → Nat → Nat
  | 0, _ => 0
  | level + 1, b =>
    if 2 ^ level - 1 ≤ b ∧ b < 2 ^ level - 1 + 2 ^ level then (MAX_ORDER - level) + 1
    else newLevels level b

/-- `Tree::new()`. -/
def Tree.new : Tree := ⟨newLevels LEVEL_COUNT⟩

/-- The descent loop of `Tree::alloc_exact` (step 2 of the algorithm): starting at
1-based `node_index` with the given `level` and address accumulator `addr`, run
`steps` iterations.  Each iteration reads the left child's `order_free`
(`self.block(left_child_index - 1)`), descends left when `o != 0 && o > desired`,
otherwise adds `1 << (MAX_ORDER_SIZE - level - 1)` to `addr` and descends right. -/
def descend (t : Tree) (desired : Nat) : Nat → Nat → Nat → Nat → Nat × Nat
  | 0, _, addr, ni => (addr, ni)
  | steps + 1, level, addr, ni =>
    if t.flat (2 * ni - 1) ≠ 0 ∧ desired < t.flat (2 * ni - 1) then
      descend t desired steps (level + 1) addr (2 * ni)
    else
      descend t desired steps (level + 1) (addr + 2 ^ (MAX_ORDER_SIZE - level - 1)) (2 * ni + 1)

/-- The upward propagation loop of `Tree::alloc_exact` (step 4): `steps` times,
compute `right_index = node_index & !1 = 2 * (node_index / 2)`, move
`node_index` to its parent, and store `max(left, right)` of the two children
(flat indices `right_index - 1` and `right_index`) into the parent
(flat index `node_index - 1`).  Returns the final array and node index. -/
def propagate : (Nat → Nat) → Nat → Nat → (Nat → Nat) × Nat
  | f, 0, ni => (f, ni)
  | f, steps + 1, ni =>
    propagate
      (upd f (ni / 2 - 1) (Nat.max (f (2 * (ni / 2) - 1)) (f (2 * (ni / 2)))))
      steps (ni / 2)

/-- `Tree::alloc_exact(desired_order)`.  Returns the allocated address together
with the updated tree (the source mutates in place and returns
`Some(addr as *const u8)`). -/
def Tree.alloc_exact (t : Tree) (desired : Nat) : Option (Nat × Tree) :=
  if t.flat 0 = 0 ∨ t.flat 0 - 1 < desired then none
  else
    let r := descend t desired (MAX_ORDER - desired) 0 0 1
    let f1 := upd t.flat (r.2 - 1) 0
    some (r.1, ⟨(propagate f1 (MAX_ORDER - desired) r.2).1⟩)

/-- Run one `alloc_exact` call, keeping the old tree when the call fails. -/
def allocTree (t : Tree) (k : Nat) : Tree :=
  match t.alloc_exact k with
  | some (_, t') => t'
  | none => t

/-- The results of a sequence of `alloc_exact` calls from a given tree. -/
def allocs (t : Tree) : List Nat → List (Option Nat)
  | [] => []
  | k :: ks =>
    match t.alloc_exact k with
    | some (a, t') => some a :: allocs t' ks
    | none => none :: allocs t ks

/-- Trees reachable from `Tree::new()` by a sequence of `alloc_exact` calls. -/
def Reach (t : Tree) : Prop := ∃ ks : List Nat, t = ks.foldl allocTree Tree.new

/-! ### Geometry of the implicit flat tree

The node with 1-based index `i` sits at depth `lvl i = floor (log2 i)`; it
represents a block of order `MAX_ORDER - lvl i` covering the order-0 slots
(`2^BASE_ORDER`-byte pages) numbered `lo i, lo i + 1, …, hi i - 1`. -/
/-- Depth of the node with 1-based index `i`. -/
def lvl (i : Nat) : Nat := Nat.log 2 i

/-- First order-0 slot covered by node `i`. -/
def lo (i : Nat) : Nat := (i - 2 ^ lvl i) * 2 ^ (MAX_ORDER - lvl i)

/-- One past the last order-0 slot covered by node `i`. -/
def hi (i : Nat) : Nat := lo i + 2 ^ (MAX_ORDER - lvl i)

/-! ### The invariant of `alloc_exact`

The spec's P5 (`node[i].order_free == max(children)`) does not hold on the
initial tree: `Tree::new` seeds every node with `(own order) + 1`, which is the
max of its children's seeds *plus one*.  The invariant actually maintained is
`GoodNode`: every internal node either holds the max of its children (it has
been recomputed by the propagation loop), or holds `0` (it was marked used),
or still holds its initial fully-free seed together with both children. -/
def GoodNode (t : Tree) (i : Nat) : Prop :=
  t.flat (i - 1) = Nat.max (t.flat (2 * i - 1)) (t.flat (2 * i)) ∨
  t.flat (i - 1) = 0 ∨
  (t.flat (i - 1) = (MAX_ORDER - lvl i) + 1 ∧
    t.flat (2 * i - 1) = MAX_ORDER - lvl i ∧ t.flat (2 * i) = MAX_ORDER - lvl i)

/-- Every internal node of the tree satisfies `GoodNode`. -/
def Good (t : Tree) : Prop := ∀ i, 1 ≤ i → i < 2 ^ MAX_ORDER → GoodNode t i

/-- Every node's `order_free` is at most `(its own order) + 1`. -/
def Bound (t : Tree) : Prop := ∀ i, 1 ≤ i → t.flat (i - 1) ≤ (MAX_ORDER + 1) - lvl i

/-! ### Exact state after `k` order-0 allocations

After allocating the first `k` order-0 slots, a node `i` whose slot range is
untouched (`k ≤ lo i`) still holds its seed `(order) + 1`; a touched leaf holds
`0`; and every touched internal node has been rewritten by the propagation loop
to the max of its children.  `sval k i` computes this by recursion over the
levels below `i` (the fuel `LEVEL_COUNT - lvl i` covers them all). -/
def svalAux (k : Nat) : Nat → Nat → Nat
  | 0, _ => 0
  | fuel + 1, i =>
    if k ≤ lo i then (MAX_ORDER - lvl i) + 1
    else if MAX_ORDER ≤ lvl i then 0
    else Nat.max (svalAux k fuel (2 * i)) (svalAux k fuel (2 * i + 1))

def sval (k i : Nat) : Nat := svalAux k (LEVEL_COUNT - lvl i) i

/-- The tree state after the first `k` order-0 slots have been allocated. -/
def treeAfter (k : Nat) : Tree :=
  ⟨fun b => if b < 2 ^ LEVEL_COUNT - 1 then sval k (b + 1) else 0⟩

/-- Iterated order-0 allocation from the fresh tree. -/
def iterAlloc0 : Nat → Tree
  | 0 => Tree.new
  | k + 1 => allocTree (iterAlloc0 k) 0

/-! ### Distinctness of allocated addresses (bitmap variant)

`W t R` is the key invariant tying the tree state to the blocks handed out so
far (recorded in slot units as `(first slot, order)` pairs): every *visible*
node (no strict ancestor marked `0`) whose slot range meets an allocated block
no longer shows its fully-free seed `(own order) + 1`.  Consequently a node
that still shows its seed — as the node chosen by the descent always does — is
disjoint from everything allocated before. -/
def Touches (R : List (Nat × Nat)) (i : Nat) : Prop :=
  ∃ p ∈ R, lo i < p.1 + 2 ^ p.2 ∧ p.1 < hi i

def Vis (t : Tree) (i : Nat) : Prop :=
  ∀ u, 1 ≤ u → 1 ≤ i / 2 ^ u → t.flat (i / 2 ^ u - 1) ≠ 0

def W (t : Tree) (R : List (Nat × Nat)) : Prop :=
  ∀ i, 1 ≤ i → i < 2 ^ LEVEL_COUNT → Vis t i → Touches R i →
    t.flat (i - 1) ≤ MAX_ORDER - lvl i

def DisjBlocks (R : List (Nat × Nat)) : Prop :=
  R.Pairwise (fun p q => p.1 + 2 ^ p.2 ≤ q.1 ∨ q.1 + 2 ^ q.2 ≤ p.1)

def BmInv (t : Tree) (R : List (Nat × Nat)) : Prop :=
  Good t ∧ Bound t ∧ W t R ∧ DisjBlocks R

/-! ### Distinctness of returned addresses (bitmap variant)

`allocsOk` runs a sequence of `alloc_exact` calls and records each successful
result as a pair (returned address, requested order). -/
def allocsOk (t : Tree) : List Nat → List (Nat × Nat)
  | [] => []
  | k :: ks =>
    match t.alloc_exact k with
    | some (a, t') => (a, k) :: allocsOk t' ks
    | none => allocsOk t ks

/-! ### Bounds on the flat-array accesses of `alloc_exact`

`allocAccesses` lists, in order, every 0-based index into `flat_blocks` that
`alloc_exact` passes to `block` / `block_mut`: the root feasibility check, the
left-child read of each descent iteration, the marked node, and the two child
reads plus the parent write of each propagation iteration. -/
def descendAccesses (t : Tree) (desired : Nat) : Nat → Nat → List Nat
  | 0, _ => []
  | steps + 1, ni =>
    (2 * ni - 1) ::
      (if t.flat (2 * ni - 1) ≠ 0 ∧ desired < t.flat (2 * ni - 1) then
        descendAccesses t desired steps (2 * ni)
      else
        descendAccesses t desired steps (2 * ni + 1))

def propagateAccesses : Nat → Nat → List Nat
  | 0, _ => []
  | steps + 1, ni =>
    (2 * (ni / 2) - 1) :: 2 * (ni / 2) :: (ni / 2 - 1) ::
      propagateAccesses steps (ni / 2)

def Tree.allocAccesses (t : Tree) (desired : Nat) : List Nat :=
  if t.flat 0 = 0 ∨ t.flat 0 - 1 < desired then [0]
  else
    0 :: (descendAccesses t desired (MAX_ORDER - desired) 1 ++
      ((descend t desired (MAX_ORDER - desired) 0 0 1).2 - 1) ::
        propagateAccesses (MAX_ORDER - desired)
          (descend t desired (MAX_ORDER - desired) 0 0 1).2)

end BuddyBitmap

/-! ## The list-based variant (`buddy_allocator_lists.rs`)

`BuddyAllocator<L: BlockList>` keeps one list of `Block` records per order
(`ORDERS = LEVEL_COUNT` lists).  Both instantiations (`Vec<Block>` and
`LinkedList<Block>`) implement `push` as append-at-the-back, `position` as a
front-to-back scan, `get`/`get_mut` as indexing and `remove(i)` as deletion of
the element at index `i`, so a single embedding with `List Block` covers both.
`usize` addresses are modelled as unbounded naturals (no scenario here comes
near `2^64`), sizes use `MIN_ORDER = BASE_ORDER = 12` as in `main.rs`.
Rust panics (`unwrap`, out-of-range list indexing) are modelled as `none`;
`Result` is modelled as `Except`.  `allocate_exact` returns the resulting
allocator next to the `Result` since the Rust method mutates `self`. -/

namespace BuddyLists

inductive BlockState where
  | Used
  | Free
deriving DecidableEq

structure Block where
  begin_address : Nat
  order : Nat
  state : BlockState
deriving DecidableEq

structure BlockIndex where
  order : Nat
  index : Nat
deriving DecidableEq

inductive BlockSplitError where
  | BlockSmallestPossible
deriving DecidableEq

inductive BlockAllocateError where
  | NoBlocksAvailable
  | OrderTooLarge (order : Nat)
deriving DecidableEq

structure BuddyAllocator where
  lists : Nat → List Block

/-- Pointwise update of the array of per-order lists. -/
def updL (f : Nat → List Block) (i : Nat) (v : List Block) : Nat → List Block :=
  fun j => if j = i then v else f j

def BuddyAllocator.new : BuddyAllocator := ⟨fun _ => []⟩

def BuddyAllocator.get (al : BuddyAllocator) (block : BlockIndex) : Option Block :=
  (al.lists block.order).get? block.index

/-- `Iterator::position`: index of the first element satisfying the predicate. -/
def position (p : Block → Bool) : List Block → Option Nat
  | [] => none
  | b :: l => if p b then some 0 else (position p l).map (fun i => i + 1)

def BuddyAllocator.create_top_level (al : BuddyAllocator) (begin_address : Nat) :
    BuddyAllocator :=
  ⟨updL al.lists MAX_ORDER
    (al.lists MAX_ORDER ++ [⟨begin_address, MAX_ORDER, BlockState.Free⟩])⟩

def BuddyAllocator.modify (al : BuddyAllocator) (index : BlockIndex)
    (new_state : BlockState) : Option BuddyAllocator :=
  match (al.lists index.order).get? index.index with
  | none => none
  | some block =>
    some ⟨updL al.lists index.order
      ((al.lists index.order).set index.index
        ⟨block.begin_address, block.order, new_state⟩)⟩

def BuddyAllocator.split (al : BuddyAllocator) (index : BlockIndex) :
    Option (Except BlockSplitError (BlockIndex × BuddyAllocator)) :=
  match al.get index with
  | none => none
  | some block =>
    if block.state = BlockState.Used then none
    else
      let original_order := block.order
      let order := original_order - 1
      if index.order = 0 then some (Except.error BlockSplitError.BlockSmallestPossible)
      else
        let first : Block := ⟨block.begin_address, order, BlockState.Free⟩
        let second : Block :=
          ⟨block.begin_address + 2 ^ (order + BASE_ORDER), order, BlockState.Free⟩
        let l1 := updL al.lists original_order
          ((al.lists original_order).eraseIdx index.index)
        let l2 := updL l1 order (l1 order ++ [first, second])
        some (Except.ok (⟨order, (l2 order).length - 2⟩, ⟨l2⟩))

def findOrSplitAux : Nat → BuddyAllocator → Nat →
    Option (BuddyAllocator × Except BlockAllocateError BlockIndex)
  | 0, _, _ => none
  | fuel + 1, al, order =>
    if MAX_ORDER < order then none
    else
      match position (fun block => block.state == BlockState.Free) (al.lists order) with
      | some index => some (al, Except.ok ⟨order, index⟩)
      | none =>
        if MAX_ORDER ≤ order then
          some (al, Except.error BlockAllocateError.NoBlocksAvailable)
        else
          match findOrSplitAux fuel al (order + 1) with
          | none => none
          | some (al', Except.error e) => some (al', Except.error e)
          | some (al', Except.ok block_index) =>
            match al'.split block_index with
            | some (Except.ok (first, al'')) => some (al'', Except.ok first)
            | _ => none

/-- The recursion of `find_or_split` increases `order` and stops at
`MAX_ORDER`, so fuel `MAX_ORDER + 1 - order` never runs out (order beyond
`MAX_ORDER` panics in the source, i.e. `none` here). -/
def BuddyAllocator.find_or_split (al : BuddyAllocator) (order : Nat) :
    Option (BuddyAllocator × Except BlockAllocateError BlockIndex) :=
  findOrSplitAux (MAX_ORDER + 1 - order) al order

def BuddyAllocator.allocate_exact (al : BuddyAllocator) (order : Nat) :
    Option (BuddyAllocator × Except BlockAllocateError BlockIndex) :=
  if MAX_ORDER < order then some (al, Except.error (BlockAllocateError.OrderTooLarge order))
  else
    match al.find_or_split order with
    | none => none
    | some (al', Except.error e) => some (al', Except.error e)
    | some (al', Except.ok index) =>
      match al'.modify index BlockState.Used with
      | none => none
      | some al'' => some (al'', Except.ok index)

/-- Total number of block records currently stored across all the per-order
lists (the allocator owns `ORDERS = LEVEL_COUNT` lists). -/
def BuddyAllocator.totalBlocks (al : BuddyAllocator) : Nat :=
  ((List.range LEVEL_COUNT).map (fun k => (al.lists k).length)).sum

/-- Register one top-level region per element of `bases` (the demo registers
them at multiples of `2^MAX_ORDER_SIZE`). -/
def registerAll (al : BuddyAllocator) (bases : List Nat) : BuddyAllocator :=
  bases.foldl BuddyAllocator.create_top_level al

/-- Addresses of the successful allocations of a call sequence, read back via
`get` on the returned index exactly as the demo loop does.  A panic (`none`)
aborts the run. -/
def allocsOkL (al : BuddyAllocator) : List Nat → List Nat
  | [] => []
  | k :: ks =>
    match al.allocate_exact k with
    | some (al'', Except.ok index) =>
      match al''.get index with
      | some b => b.begin_address :: allocsOkL al'' ks
      | none => allocsOkL al'' ks
    | some (al', Except.error _) => allocsOkL al' ks
    | none => []

/-! ### Invariants of the list-based allocator

`NoOv b c` says the byte ranges of two records (`2^(BASE_ORDER + order)` bytes
from `begin_address`) do not overlap.  `OrderOK` says list `k` holds only
order-`k` records, `DisjL` says records at two distinct positions never
overlap, `Preserv` says every `Used` record of one state survives into
another. -/
def NoOv (b c : Block) : Prop :=
  b.begin_address + 2 ^ (BASE_ORDER + b.order) ≤ c.begin_address ∨
  c.begin_address + 2 ^ (BASE_ORDER + c.order) ≤ b.begin_address

def OrderOK (al : BuddyAllocator) : Prop :=
  ∀ k b, b ∈ al.lists k → b.order = k

def DisjL (al : BuddyAllocator) : Prop :=
  ∀ k1 i1 k2 i2 b1 b2, (al.lists k1).get? i1 = some b1 →
    (al.lists k2).get? i2 = some b2 → ¬(k1 = k2 ∧ i1 = i2) → NoOv b1 b2

def Preserv (al al' : BuddyAllocator) : Prop :=
  ∀ k b, b ∈ al.lists k → b.state = BlockState.Used → b ∈ al'.lists k

/-- `R` collects addresses that are each owned by some currently-`Used`
record. -/
def UsedAddrs (al : BuddyAllocator) (R : List Nat) : Prop :=
  ∀ r ∈ R, ∃ k b, b ∈ al.lists k ∧ b.state = BlockState.Used ∧ b.begin_address = r

end BuddyLists

/-! ## The red-black-tree variant (`buddy_allocator_tree.rs`)

`BuddyAllocator<L: FreeList>` keeps the blocks in an intrusive red-black tree
keyed by `Block::address()` and one free list of raw `*const Block` pointers
per order.  The embedding models the tree as the list of its blocks in key
order (`treeInsert` inserts by key; the cursor surgery in `split` replaces the
split block in place by its two buddies) and a `*const Block` by the block's
address: the allocator keeps at most one live block per address (shown by the
invariants below), `split` reuses the old box for the first buddy, which keeps
the same address, and the `PartialEq` impl itself asserts that equal addresses
imply equal blocks.  A `Block`'s packed 64-bit `bit_field` (bit 0 `used`,
bits 1..8 `order`, bits 8..64 `address`) is modelled by its three fields;
addresses stay far below the `2^56` packing limit here.  Both `FreeList`
impls (`Vec` push/pop at the back, `SinglyLinkedList` push/pop at the front)
are LIFO stacks whose `remove` deletes the unique entry with the given
pointer, modelled as a stack with `push` = cons and `pop` = head.
Panics (`unwrap` on a null cursor or on splitting a `Used` block) are `none`. -/

namespace BuddyRbTree

structure Block where
  address : Nat
  order : Nat
  used : Bool
deriving DecidableEq

inductive BlockSplitError where
  | BlockSmallestPossible
deriving DecidableEq

inductive BlockAllocateError where
  | NoBlocksAvailable
  | OrderTooLarge (order : Nat)
deriving DecidableEq

structure BuddyAllocator where
  tree : List Block
  free : Nat → List Nat

def updF (f : Nat → List Nat) (i : Nat) (v : List Nat) : Nat → List Nat :=
  fun j => if j = i then v else f j

def BuddyAllocator.new : BuddyAllocator := ⟨[], fun _ => []⟩

/-- `RBTree::insert`: place the new block according to its key. -/
def treeInsert (b : Block) : List Block → List Block
  | [] => [b]
  | c :: cs => if b.address < c.address then b :: c :: cs else c :: treeInsert b cs

/-- `RBTree::cursor_mut_from_ptr` / `CursorMut::get`: the live block a pointer
designates, i.e. the (unique) block with that address. -/
def treeFind (tr : List Block) (a : Nat) : Option Block :=
  tr.find? (fun b => b.address == a)

/-- The cursor surgery of `split` (`remove`, `insert_before`, `insert_before`)
replaces the pointed-at block by the two given replacement blocks in place. -/
def treeReplace (tr : List Block) (a : Nat) (new : List Block) : List Block :=
  match tr with
  | [] => []
  | c :: cs => if c.address == a then new ++ cs else c :: treeReplace cs a new

/-- Remove the unique matching entry from a free list (both `FreeList::remove`
impls; absent entries leave the list unchanged, `Option` result discarded). -/
def removeFirst : List Nat → Nat → List Nat
  | [], _ => []
  | x :: xs, p => if x = p then xs else x :: removeFirst xs p

def BuddyAllocator.create_top_level (al : BuddyAllocator) (begin_address : Nat) :
    BuddyAllocator :=
  ⟨treeInsert ⟨begin_address, MAX_ORDER, false⟩ al.tree,
   updF al.free MAX_ORDER (begin_address :: al.free MAX_ORDER)⟩

/-- `split` works on the tree through a cursor (represented by the address of
the block it points at) and returns the two buddy pointers `[ptrs[1], ptrs[0]]`
= (first, second); the cursor ends on the first buddy, whose address (and box)
is the old block's. -/
def split (tr : List Block) (a : Nat) :
    Option (Except BlockSplitError (List Block × Nat × Nat)) :=
  match treeFind tr a with
  | none => none
  | some block =>
    if block.used then none
    else
      let order := block.order - 1
      if block.order = 0 then some (Except.error BlockSplitError.BlockSmallestPossible)
      else
        let first : Block := ⟨block.address, order, false⟩
        let second : Block := ⟨block.address + 2 ^ (order + BASE_ORDER), order, false⟩
        some (Except.ok (treeReplace tr a [first, second],
          first.address, second.address))

def findOrSplitAux : Nat → (Nat → List Nat) → List Block → Nat →
    Option ((Nat → List Nat) × List Block × Except BlockAllocateError Nat)
  | 0, _, _, _ => none
  | fuel + 1, free, tree, order =>
    if MAX_ORDER < order then none
    else
      match free order with
      | p :: rest => some (updF free order rest, tree, Except.ok p)
      | [] =>
        if order = MAX_ORDER then
          some (free, tree, Except.error BlockAllocateError.NoBlocksAvailable)
        else
          match findOrSplitAux fuel free tree (order + 1) with
          | none => none
          | some (free', tree', Except.error e) => some (free', tree', Except.error e)
          | some (free', tree', Except.ok cur) =>
            match split tree' cur with
            | some (Except.ok (tree'', p1, p2)) =>
              some (updF (updF free' (order + 1) (removeFirst (free' (order + 1)) cur))
                order (p2 :: p1 ::
                  (updF free' (order + 1) (removeFirst (free' (order + 1)) cur)) order),
                tree'', Except.ok p1)
            | _ => none

def BuddyAllocator.find_or_split (al : BuddyAllocator) (order : Nat) :
    Option ((Nat → List Nat) × List Block × Except BlockAllocateError Nat) :=
  findOrSplitAux (MAX_ORDER + 1 - order) al.free al.tree order

def BuddyAllocator.allocate_exact (al : BuddyAllocator) (order : Nat) :
    Option (BuddyAllocator × Except BlockAllocateError Nat) :=
  if MAX_ORDER < order then some (al, Except.error (BlockAllocateError.OrderTooLarge order))
  else
    match al.find_or_split order with
    | none => none
    | some (free', tree', Except.error e) => some (⟨tree', free'⟩, Except.error e)
    | some (free', tree', Except.ok p) =>
      match treeFind tree' p with
      | none => none
      | some b =>
        some (⟨treeReplace tree' p [⟨b.address, b.order, true⟩],
          updF free' order (removeFirst (free' order) p)⟩, Except.ok p)

/-- Register one top-level region per element of `bases`. -/
def registerAllRb (al : BuddyAllocator) (bases : List Nat) : BuddyAllocator :=
  bases.foldl BuddyAllocator.create_top_level al

/-- Addresses of the successful allocations of a call sequence (the demo reads
`cursor.get().unwrap().address()`, which is the returned pointer's address). -/
def allocsOkR (al : BuddyAllocator) : List Nat → List Nat
  | [] => []
  | k :: ks =>
    match al.allocate_exact k with
    | some (al'', Except.ok p) => p :: allocsOkR al'' ks
    | some (al', Except.error _) => allocsOkR al' ks
    | none => []

/-! ### Invariants of the tree-based allocator

`TreeDisj`: the blocks in the tree occupy pairwise disjoint byte ranges (this
also makes addresses unique, justifying the pointer-as-address modelling).
`FreeOK`: every free-list entry of order `k` points at a live, `Free`,
order-`k` block.  `FreeND`: no free list contains a pointer twice. -/
def NoOvB (b c : Block) : Prop :=
  b.address + 2 ^ (BASE_ORDER + b.order) ≤ c.address ∨
  c.address + 2 ^ (BASE_ORDER + c.order) ≤ b.address

def TreeDisj (tr : List Block) : Prop := tr.Pairwise NoOvB

def FreeOK (tr : List Block) (free : Nat → List Nat) : Prop :=
  ∀ k p, p ∈ free k → ∃ b ∈ tr, b.address = p ∧ b.order = k ∧ b.used = false

def FreeND (free : Nat → List Nat) : Prop := ∀ k, (free k).Nodup

def RbInv (tr : List Block) (free : Nat → List Nat) : Prop :=
  TreeDisj tr ∧ FreeOK tr free ∧ FreeND free

def UsedPersist (tr tr' : List Block) : Prop :=
  ∀ b ∈ tr, b.used = true → b ∈ tr'

def UsedAddrsR (tr : List Block) (R : List Nat) : Prop :=
  ∀ r ∈ R, ∃ b ∈ tr, b.used = true ∧ b.address = r

end BuddyRbTree

namespace BuddyLists

/-- Scenario of boundary test 6: one region at 0, then
`allocate_exact(MAX_ORDER - 2)`. -/
def allocScenario : Option (BuddyAllocator × Except BlockAllocateError BlockIndex) :=
  (BuddyAllocator.new.create_top_level 0).allocate_exact (MAX_ORDER - 2)

def allocScenarioBlock : Option Block :=
  match allocScenario with
  | some (al, Except.ok bi) => al.get bi
  | _ => none

def allocScenarioCount : Option Nat :=
  match allocScenario with
  | some (al, _) => some al.totalBlocks
  | _ => none

end BuddyLists

namespace BuddyRbTree

/-- Scenario of boundary test 6 for the tree variant. -/
def rbScenario : Option (BuddyAllocator × Except BlockAllocateError Nat) :=
  (BuddyAllocator.new.create_top_level 0).allocate_exact (MAX_ORDER - 2)

def rbScenarioBlock : Option Block :=
  match rbScenario with
  | some (al, Except.ok p) => treeFind al.tree p
  | _ => none

def rbScenarioCount : Option Nat :=
  match rbScenario with
  | some (al, _) => some al.tree.length
  | _ => none

end BuddyRbTree

/-! ## The helper `top_level_blocks` (`lib.rs`)

The source computes
`2f64.powi(i32::from(block_size + BASE_ORDER)) * f64::from(blocks) /
 2f64.powi(i32::from(MAX_ORDER + BASE_ORDER))`, then `.ceil() as u64`.  For
`block_size ≤ MAX_ORDER` and a `u32` value of `blocks` every intermediate
`f64` is exact: `powi` on 2 yields exact powers of two, `f64::from(blocks)`
is exact (32 < 53 mantissa bits), multiplying or dividing by a power of two
only shifts the exponent (no rounding, no overflow at these magnitudes), and
`ceil` is exact.  The computation is therefore embedded over `ℚ`; the final
`as u64` cast is `Int.toNat` (the value is a small non-negative integer). -/
def top_level_blocks (blocks : Nat) (block_size : Nat) : Nat :=
  (⌈(2 ^ (block_size + BASE_ORDER) * (blocks : ℚ)) / 2 ^ (MAX_ORDER + BASE_ORDER)⌉).toNat

def c7Alloc : BuddyLists.BuddyAllocator :=
  ⟨fun k => if k = 1 then [⟨0, 1, BuddyLists.BlockState.Free⟩] else []⟩

theorem upd_same (f : Nat → Nat) (i v : Nat) : upd f i v i = v := by simp [upd]

theorem upd_other (f : Nat → Nat) (i v j : Nat) (h : j ≠ i) : upd f i v j = f j := by
  simp [upd, h]

namespace BuddyBitmap

theorem lvl_eq {l i : Nat} (h1 : 2 ^ l ≤ i) (h2 : i < 2 ^ (l + 1)) : lvl i = l :=
  Nat.log_eq_of_pow_le_of_lt_pow h1 h2

theorem lvl_self_bounds {i : Nat} (h : 1 ≤ i) : 2 ^ lvl i ≤ i ∧ i < 2 ^ (lvl i + 1) :=
  ⟨Nat.pow_log_le_self 2 (by omega), Nat.lt_pow_succ_log_self (by norm_num) i⟩

theorem lvl_one : lvl 1 = 0 := by simp [lvl]

theorem lvl_two_mul {i : Nat} (h : 1 ≤ i) : lvl (2 * i) = lvl i + 1 := by
  obtain ⟨h1, h2⟩ := lvl_self_bounds h
  exact lvl_eq (by rw [pow_succ]; omega) (by rw [pow_succ, pow_succ] at *; omega)

theorem lvl_two_mul_add_one {i : Nat} (h : 1 ≤ i) : lvl (2 * i + 1) = lvl i + 1 := by
  obtain ⟨h1, h2⟩ := lvl_self_bounds h
  exact lvl_eq (by rw [pow_succ]; omega) (by rw [pow_succ, pow_succ] at *; omega)

theorem lvl_lt_of_lt_pow {i l : Nat} (h1 : 1 ≤ i) (h2 : i < 2 ^ l) : lvl i < l := by
  by_contra hc
  have := (lvl_self_bounds h1).1
  have : 2 ^ l ≤ 2 ^ lvl i := Nat.pow_le_pow_right (by norm_num) (by omega)
  omega

theorem pow_sub_succ {l : Nat} (h : l < MAX_ORDER) :
    2 ^ (MAX_ORDER - l) = 2 ^ (MAX_ORDER - (l + 1)) * 2 := by
  rw [← pow_succ]
  congr 1
  omega

theorem lo_two_mul {i : Nat} (h : 1 ≤ i) (hl : lvl i < MAX_ORDER) : lo (2 * i) = lo i := by
  obtain ⟨h1, _⟩ := lvl_self_bounds h
  rw [lo, lo, lvl_two_mul h, pow_succ 2 (lvl i), pow_sub_succ hl]
  have hs : 2 * i - 2 ^ lvl i * 2 = 2 * (i - 2 ^ lvl i) := by omega
  rw [hs]
  ring

theorem lo_two_mul_add_one {i : Nat} (h : 1 ≤ i) (hl : lvl i < MAX_ORDER) :
    lo (2 * i + 1) = lo i + 2 ^ (MAX_ORDER - (lvl i + 1)) := by
  obtain ⟨h1, _⟩ := lvl_self_bounds h
  rw [lo, lo, lvl_two_mul_add_one h, pow_succ 2 (lvl i), pow_sub_succ hl]
  have hs : 2 * i + 1 - 2 ^ lvl i * 2 = 2 * (i - 2 ^ lvl i) + 1 := by omega
  rw [hs]
  ring

theorem hi_two_mul {i : Nat} (h : 1 ≤ i) (hl : lvl i < MAX_ORDER) :
    hi (2 * i) = lo i + 2 ^ (MAX_ORDER - (lvl i + 1)) := by
  rw [hi, lo_two_mul h hl, lvl_two_mul h]

theorem hi_two_mul_add_one {i : Nat} (h : 1 ≤ i) (hl : lvl i < MAX_ORDER) :
    hi (2 * i + 1) = hi i := by
  rw [hi, lo_two_mul_add_one h hl, lvl_two_mul_add_one h, hi, pow_sub_succ hl]
  ring

theorem lo_lt_hi (i : Nat) : lo i < hi i := by
  have : 0 < 2 ^ (MAX_ORDER - lvl i) := Nat.pos_pow_of_pos _ (by norm_num)
  rw [hi]; omega

/-- Characterisation of the array written by `Tree::new()`: the cell at 0-based
index `b` (node `b + 1`, depth `lvl (b+1)`) holds `(MAX_ORDER - depth) + 1`. -/
theorem newLevels_eq (n : Nat) (hn : n ≤ LEVEL_COUNT) (b : Nat) :
    newLevels n b = if b < 2 ^ n - 1 then (MAX_ORDER - lvl (b + 1)) + 1 else 0 := by
  induction n with
  | zero => simp [newLevels]
  | succ m ih =>
    have hone : 1 ≤ 2 ^ m := Nat.one_le_two_pow
    have hpow : 2 ^ (m + 1) = 2 ^ m + 2 ^ m := by rw [pow_succ]; omega
    rw [newLevels]
    by_cases hin : 2 ^ m - 1 ≤ b ∧ b < 2 ^ m - 1 + 2 ^ m
    · have hlv : lvl (b + 1) = m := lvl_eq (by omega) (by omega)
      have hb2 : b < 2 ^ (m + 1) - 1 := by omega
      rw [if_pos hin, if_pos hb2, hlv]
    · rw [if_neg hin, ih (by omega)]
      rcases Nat.lt_or_ge b (2 ^ m - 1) with hb | hb
      · rw [if_pos hb, if_pos (by omega)]
      · rw [if_neg (by omega), if_neg (by omega)]

theorem new_flat (b : Nat) :
    Tree.new.flat b =
      if b < 2 ^ LEVEL_COUNT - 1 then (MAX_ORDER - lvl (b + 1)) + 1 else 0 :=
  newLevels_eq LEVEL_COUNT le_rfl b

theorem pow_MAX : (2 : Nat) ^ MAX_ORDER = 262144 := by norm_num [MAX_ORDER, LEVEL_COUNT]

theorem pow_LEVEL : (2 : Nat) ^ LEVEL_COUNT = 524288 := by norm_num [LEVEL_COUNT]

/-! ### Ancestors in the flat tree -/
theorem div_div_pow (n u : Nat) : n / 2 ^ u / 2 = n / 2 ^ (u + 1) := by
  rw [Nat.div_div_eq_div_mul, ← pow_succ]

theorem div_two_pow (n u : Nat) : n / 2 / 2 ^ u = n / 2 ^ (u + 1) := by
  rw [Nat.div_div_eq_div_mul, ← pow_succ']

theorem anc_bounds {m u nf : Nat} (hu : u ≤ m) (h1 : 2 ^ m ≤ nf) (h2 : nf < 2 ^ (m + 1)) :
    2 ^ (m - u) ≤ nf / 2 ^ u ∧ nf / 2 ^ u < 2 ^ (m - u + 1) := by
  constructor
  · have hdiv : 2 ^ m / 2 ^ u = 2 ^ (m - u) := Nat.pow_div hu (by norm_num)
    calc 2 ^ (m - u) = 2 ^ m / 2 ^ u := hdiv.symm
      _ ≤ nf / 2 ^ u := Nat.div_le_div_right h1
  · rw [Nat.div_lt_iff_lt_mul (Nat.pos_pow_of_pos u (by norm_num)), ← pow_add]
    have he : m - u + 1 + u = m + 1 := by omega
    rw [he]
    exact h2

theorem anc_lvl {m u nf : Nat} (hu : u ≤ m) (h1 : 2 ^ m ≤ nf) (h2 : nf < 2 ^ (m + 1)) :
    lvl (nf / 2 ^ u) = m - u :=
  lvl_eq (anc_bounds hu h1 h2).1 (anc_bounds hu h1 h2).2

theorem anc_pos {m u nf : Nat} (hu : u ≤ m) (h1 : 2 ^ m ≤ nf) : 1 ≤ nf / 2 ^ u := by
  have hdiv : 2 ^ m / 2 ^ u = 2 ^ (m - u) := Nat.pow_div hu (by norm_num)
  have h2 : 2 ^ m / 2 ^ u ≤ nf / 2 ^ u := Nat.div_le_div_right h1
  have h3 : (1 : Nat) ≤ 2 ^ (m - u) := Nat.one_le_two_pow
  omega

/-- The descent loop keeps the 1-based node index inside the band of the current
level: starting from `ni`, after `steps` iterations the index lies in
`[ni * 2^steps, (ni + 1) * 2^steps)`. -/
theorem descend_ni_bounds (t : Tree) (d : Nat) :
    ∀ steps level addr ni,
      ni * 2 ^ steps ≤ (descend t d steps level addr ni).2 ∧
      (descend t d steps level addr ni).2 < (ni + 1) * 2 ^ steps := by
  intro steps
  induction steps with
  | zero => intro level addr ni; simp [descend]
  | succ s ih =>
    intro level addr ni
    rw [descend]
    by_cases hc : t.flat (2 * ni - 1) ≠ 0 ∧ d < t.flat (2 * ni - 1)
    · rw [if_pos hc]
      obtain ⟨ihl, ihr⟩ := ih (level + 1) addr (2 * ni)
      constructor
      · have e : ni * 2 ^ (s + 1) = 2 * ni * 2 ^ s := by ring
        omega
      · have e : (ni + 1) * 2 ^ (s + 1) = (2 * ni + 2) * 2 ^ s := by ring
        have h2 : (2 * ni + 1) * 2 ^ s ≤ (2 * ni + 2) * 2 ^ s :=
          Nat.mul_le_mul_right _ (by omega)
        omega
    · rw [if_neg hc]
      obtain ⟨ihl, ihr⟩ := ih (level + 1) (addr + 2 ^ (MAX_ORDER_SIZE - level - 1)) (2 * ni + 1)
      constructor
      · have e : ni * 2 ^ (s + 1) = 2 * ni * 2 ^ s := by ring
        have h2 : 2 * ni * 2 ^ s ≤ (2 * ni + 1) * 2 ^ s := Nat.mul_le_mul_right _ (by omega)
        omega
      · have e : (ni + 1) * 2 ^ (s + 1) = (2 * ni + 1 + 1) * 2 ^ s := by ring
        omega

/-- The propagation loop leaves every cell alone except the cells of the strict
ancestors `ni / 2^u` (`1 ≤ u ≤ steps`) of the start node. -/
theorem propagate_untouched :
    ∀ steps ni f, 2 ^ steps ≤ ni →
      ∀ b, (∀ u, 1 ≤ u → u ≤ steps → b + 1 ≠ ni / 2 ^ u) →
        (propagate f steps ni).1 b = f b := by
  intro steps
  induction steps with
  | zero => intro ni f _ b _; rfl
  | succ s ih =>
    intro ni f hni b hb
    rw [propagate]
    have hp : 2 ^ s ≤ ni / 2 := by
      rw [Nat.le_div_iff_mul_le (by norm_num)]
      rw [pow_succ] at hni
      omega
    have hp1 : 1 ≤ ni / 2 := le_trans Nat.one_le_two_pow hp
    rw [ih (ni / 2) _ hp b ?_]
    · apply upd_other
      have h1 := hb 1 (by omega) (by omega)
      rw [pow_one] at h1
      omega
    · intro u hu1 hu2
      rw [div_two_pow]
      exact hb (u + 1) (by omega) (by omega)

/-- After propagation, every strict ancestor `ni / 2^u` of the start node holds
the maximum of the final values of its two children. -/
theorem propagate_maxEq :
    ∀ steps ni f, 2 ^ steps ≤ ni →
      ∀ u, 1 ≤ u → u ≤ steps →
        (propagate f steps ni).1 (ni / 2 ^ u - 1) =
          Nat.max ((propagate f steps ni).1 (2 * (ni / 2 ^ u) - 1))
                  ((propagate f steps ni).1 (2 * (ni / 2 ^ u))) := by
  intro steps
  induction steps with
  | zero => intro ni f _ u h1 h2; omega
  | succ s ih =>
    intro ni f hni u hu1 hu2
    have hp : 2 ^ s ≤ ni / 2 := by
      rw [Nat.le_div_iff_mul_le (by norm_num)]
      rw [pow_succ] at hni
      omega
    have hp1 : 1 ≤ ni / 2 := le_trans Nat.one_le_two_pow hp
    rw [propagate]
    rcases Nat.lt_or_ge 1 u with hu | hu
    · have h := ih (ni / 2)
        (upd f (ni / 2 - 1) (Nat.max (f (2 * (ni / 2) - 1)) (f (2 * (ni / 2)))))
        hp (u - 1) (by omega) (by omega)
      rw [div_two_pow] at h
      have e : u - 1 + 1 = u := by omega
      rw [e] at h
      exact h
    · have hu' : u = 1 := by omega
      subst hu'
      rw [pow_one]
      have hunt : ∀ b, ni / 2 ≤ b + 1 →
          (propagate (upd f (ni / 2 - 1)
              (Nat.max (f (2 * (ni / 2) - 1)) (f (2 * (ni / 2))))) s (ni / 2)).1 b =
            upd f (ni / 2 - 1) (Nat.max (f (2 * (ni / 2) - 1)) (f (2 * (ni / 2)))) b := by
        intro b hble
        apply propagate_untouched s (ni / 2) _ hp b
        intro v hv1 hv2
        have h2v : (2 : Nat) ≤ 2 ^ v := by
          calc (2 : Nat) = 2 ^ 1 := (pow_one 2).symm
            _ ≤ 2 ^ v := Nat.pow_le_pow_right (by norm_num) hv1
        have : ni / 2 / 2 ^ v < ni / 2 := Nat.div_lt_self (by omega) (by omega)
        omega
      rw [hunt (ni / 2 - 1) (by omega), hunt (2 * (ni / 2) - 1) (by omega),
        hunt (2 * (ni / 2)) (by omega)]
      rw [upd_same, upd_other f _ _ _ (by omega), upd_other f _ _ _ (by omega)]

theorem Good_new : Good Tree.new := by
  intro i hi1 hi2
  have hlvl : lvl i < MAX_ORDER := lvl_lt_of_lt_pow hi1 hi2
  have h2i : lvl (2 * i) = lvl i + 1 := lvl_two_mul hi1
  have h2i1 : lvl (2 * i + 1) = lvl i + 1 := lvl_two_mul_add_one hi1
  have hM := pow_MAX
  have hL := pow_LEVEL
  refine Or.inr (Or.inr ?_)
  rw [new_flat, new_flat, new_flat]
  have e1 : i - 1 + 1 = i := by omega
  have e2 : 2 * i - 1 + 1 = 2 * i := by omega
  rw [if_pos (by omega), if_pos (by omega), if_pos (by omega), e1, e2, h2i1, h2i]
  have hM18 : MAX_ORDER = 18 := by norm_num [MAX_ORDER, LEVEL_COUNT]
  omega

theorem Bound_new : Bound Tree.new := by
  intro i hi1
  rw [new_flat]
  by_cases hb : i - 1 < 2 ^ LEVEL_COUNT - 1
  · rw [if_pos hb]
    have e1 : i - 1 + 1 = i := by omega
    rw [e1]
    have hlvl : lvl i < LEVEL_COUNT := by
      apply lvl_lt_of_lt_pow hi1
      have := pow_LEVEL
      omega
    rw [MAX_ORDER]
    omega
  · rw [if_neg hb]
    omega

theorem alloc_some_elim {t : Tree} {d a : Nat} {t' : Tree}
    (h : t.alloc_exact d = some (a, t')) :
    a = (descend t d (MAX_ORDER - d) 0 0 1).1 ∧
    t'.flat = (propagate (upd t.flat ((descend t d (MAX_ORDER - d) 0 0 1).2 - 1) 0)
                (MAX_ORDER - d) (descend t d (MAX_ORDER - d) 0 0 1).2).1 ∧
    t.flat 0 ≠ 0 ∧ d ≤ t.flat 0 - 1 := by
  rw [Tree.alloc_exact] at h
  by_cases hc : t.flat 0 = 0 ∨ t.flat 0 - 1 < d
  · rw [if_pos hc] at h
    exact absurd h (by simp)
  · rw [if_neg hc] at h
    push_neg at hc
    simp only [Option.some.injEq, Prod.mk.injEq] at h
    exact ⟨h.1.symm, congrArg Tree.flat h.2.symm, hc.1, hc.2⟩

theorem descend_start_bounds (t : Tree) (d : Nat) :
    2 ^ (MAX_ORDER - d) ≤ (descend t d (MAX_ORDER - d) 0 0 1).2 ∧
    (descend t d (MAX_ORDER - d) 0 0 1).2 < 2 ^ (MAX_ORDER - d + 1) := by
  obtain ⟨h1, h2⟩ := descend_ni_bounds t d (MAX_ORDER - d) 0 0 1
  rw [one_mul] at h1
  constructor
  · exact h1
  · rw [pow_succ]
    omega

/-- At every cell other than the marked node and its strict ancestors, the array
after `alloc_exact`'s write-back equals the array before. -/
theorem mark_prop_untouched {f0 : Nat → Nat} {m nf : Nat}
    (h1 : 2 ^ m ≤ nf)
    {x : Nat} (hx1 : 1 ≤ x) (hxn : x ≠ nf) (hxa : ∀ u, 1 ≤ u → u ≤ m → x ≠ nf / 2 ^ u) :
    (propagate (upd f0 (nf - 1) 0) m nf).1 (x - 1) = f0 (x - 1) := by
  have hnf1 : 1 ≤ nf := le_trans Nat.one_le_two_pow h1
  rw [propagate_untouched m nf _ h1 (x - 1) ?_]
  · exact upd_other _ _ _ _ (by omega)
  · intro u hu1 hu2
    have := hxa u hu1 hu2
    omega

/-- The marked node itself reads `0` after propagation. -/
theorem mark_prop_self {f0 : Nat → Nat} {m nf : Nat} (h1 : 2 ^ m ≤ nf) :
    (propagate (upd f0 (nf - 1) 0) m nf).1 (nf - 1) = 0 := by
  have hnf1 : 1 ≤ nf := le_trans Nat.one_le_two_pow h1
  rw [propagate_untouched m nf _ h1 (nf - 1) ?_]
  · have e : nf - 1 + 1 = nf := by omega
    rw [← e, upd_same]
  · intro u hu1 hu2
    have h2v : (2 : Nat) ≤ 2 ^ u := by
      calc (2 : Nat) = 2 ^ 1 := (pow_one 2).symm
        _ ≤ 2 ^ u := Nat.pow_le_pow_right (by norm_num) hu1
    have : nf / 2 ^ u < nf := Nat.div_lt_self (by omega) (by omega)
    omega

/-- Along the propagation path, each rewritten ancestor's value is bounded by its
own order (one below its fully-free seed): the marked node reads `0`, and each
ancestor is the max of a recursively-bounded path child and an untouched sibling
bounded by `Bound`. -/
theorem prop_path_bound {t : Tree} (hB : Bound t) {m nf : Nat} (hm : m ≤ MAX_ORDER)
    (h1 : 2 ^ m ≤ nf) (h2 : nf < 2 ^ (m + 1)) :
    ∀ u, u ≤ m →
      (propagate (upd t.flat (nf - 1) 0) m nf).1 (nf / 2 ^ u - 1) ≤ MAX_ORDER - (m - u) := by
  have hlnf : lvl nf = m := by
    have h := anc_lvl (Nat.zero_le m) h1 h2
    rwa [pow_zero, Nat.div_one, Nat.sub_zero] at h
  intro u
  induction u with
  | zero =>
    intro _
    rw [pow_zero, Nat.div_one, mark_prop_self h1]
    omega
  | succ v ihv =>
    intro hv
    have hvm : v ≤ m := by omega
    have hq1 : 1 ≤ nf / 2 ^ (v + 1) := anc_pos hv h1
    have hqlvl : lvl (nf / 2 ^ (v + 1)) = m - (v + 1) := anc_lvl hv h1 h2
    have hmax := propagate_maxEq m nf (upd t.flat (nf - 1) 0) h1 (v + 1) (by omega) hv
    have hc2 : nf / 2 ^ v / 2 = nf / 2 ^ (v + 1) := div_div_pow nf v
    have hcq : nf / 2 ^ v = 2 * (nf / 2 ^ (v + 1)) ∨
        nf / 2 ^ v = 2 * (nf / 2 ^ (v + 1)) + 1 := by omega
    have hside : ∀ x, 1 ≤ x → x ≠ nf / 2 ^ v → lvl x = m - v →
        (propagate (upd t.flat (nf - 1) 0) m nf).1 (x - 1) ≤ (MAX_ORDER + 1) - (m - v) := by
      intro x hx1 hxc hxl
      rw [mark_prop_untouched h1 hx1 ?_ ?_]
      · have := hB x hx1
        omega
      · intro he
        rw [he] at hxl
        rw [hlnf] at hxl
        rcases Nat.eq_zero_or_pos v with hv0 | hvpos
        · apply hxc
          rw [he, hv0, pow_zero, Nat.div_one]
        · omega
      · intro w hw1 hwm heq
        have hwl : lvl (nf / 2 ^ w) = m - w := anc_lvl hwm h1 h2
        rw [heq, hwl] at hxl
        have hwv : w = v := by omega
        rw [hwv] at heq
        exact hxc heq
    have hchild : (propagate (upd t.flat (nf - 1) 0) m nf).1 (nf / 2 ^ v - 1) ≤
        MAX_ORDER - (m - v) := ihv hvm
    rcases hcq with hcq | hcq
    · -- path child is the left child `2q`; right sibling is node `2q + 1`
      have hsib : (propagate (upd t.flat (nf - 1) 0) m nf).1 (2 * (nf / 2 ^ (v + 1))) ≤
          (MAX_ORDER + 1) - (m - v) := by
        have h := hside (2 * (nf / 2 ^ (v + 1)) + 1) (by omega) (by omega)
          (by rw [lvl_two_mul_add_one hq1, hqlvl]; omega)
        have e : 2 * (nf / 2 ^ (v + 1)) + 1 - 1 = 2 * (nf / 2 ^ (v + 1)) := by omega
        rwa [e] at h
      rw [hmax]
      rw [hcq] at hchild
      apply Nat.max_le.mpr
      exact ⟨le_trans hchild (by omega), le_trans hsib (by omega)⟩
    · -- path child is the right child `2q + 1`; left sibling is node `2q`
      have hsib : (propagate (upd t.flat (nf - 1) 0) m nf).1 (2 * (nf / 2 ^ (v + 1)) - 1) ≤
          (MAX_ORDER + 1) - (m - v) := by
        exact hside (2 * (nf / 2 ^ (v + 1))) (by omega) (by omega)
          (by rw [lvl_two_mul hq1, hqlvl]; omega)
      rw [hmax]
      have e : nf / 2 ^ v - 1 = 2 * (nf / 2 ^ (v + 1)) := by omega
      rw [e] at hchild
      apply Nat.max_le.mpr
      exact ⟨le_trans hsib (by omega), le_trans hchild (by omega)⟩

theorem alloc_Bound {t : Tree} (hB : Bound t) {d a : Nat} {t' : Tree}
    (h : t.alloc_exact d = some (a, t')) : Bound t' := by
  obtain ⟨-, hft, -, -⟩ := alloc_some_elim h
  obtain ⟨hnf1, hnf2⟩ := descend_start_bounds t d
  have hnfpos : 1 ≤ (descend t d (MAX_ORDER - d) 0 0 1).2 := le_trans Nat.one_le_two_pow hnf1
  intro i hi1
  rw [hft]
  by_cases hanc : ∃ u, 1 ≤ u ∧ u ≤ MAX_ORDER - d ∧ i = (descend t d (MAX_ORDER - d) 0 0 1).2 / 2 ^ u
  · obtain ⟨u, hu1, hum, hieq⟩ := hanc
    have hpb := prop_path_bound hB (Nat.sub_le _ _) hnf1 hnf2 u hum
    have hlv : lvl ((descend t d (MAX_ORDER - d) 0 0 1).2 / 2 ^ u) = MAX_ORDER - d - u :=
      anc_lvl hum hnf1 hnf2
    rw [hieq, hlv]
    omega
  · by_cases hn : i = (descend t d (MAX_ORDER - d) 0 0 1).2
    · rw [hn, mark_prop_self hnf1]
      omega
    · rw [mark_prop_untouched hnf1 hi1 hn (fun u hu1 hu2 heq => hanc ⟨u, hu1, hu2, heq⟩)]
      exact hB i hi1

theorem alloc_Good {t : Tree} (hG : Good t) {d a : Nat} {t' : Tree}
    (h : t.alloc_exact d = some (a, t')) : Good t' := by
  obtain ⟨-, hft, -, -⟩ := alloc_some_elim h
  obtain ⟨hnf1, hnf2⟩ := descend_start_bounds t d
  have hnfpos : 1 ≤ (descend t d (MAX_ORDER - d) 0 0 1).2 := le_trans Nat.one_le_two_pow hnf1
  intro i hi1 hi2
  by_cases hanc : ∃ u, 1 ≤ u ∧ u ≤ MAX_ORDER - d ∧ i = (descend t d (MAX_ORDER - d) 0 0 1).2 / 2 ^ u
  · obtain ⟨u, hu1, hum, hieq⟩ := hanc
    left
    rw [hft, hieq]
    exact propagate_maxEq _ _ _ hnf1 u hu1 hum
  · by_cases hn : i = (descend t d (MAX_ORDER - d) 0 0 1).2
    · refine Or.inr (Or.inl ?_)
      rw [hft, hn]
      exact mark_prop_self hnf1
    · have hna : ∀ u, 1 ≤ u → u ≤ MAX_ORDER - d →
          i ≠ (descend t d (MAX_ORDER - d) 0 0 1).2 / 2 ^ u :=
        fun u hu1 hu2 heq => hanc ⟨u, hu1, hu2, heq⟩
      have h2ia : ∀ u, 1 ≤ u → u ≤ MAX_ORDER - d →
          2 * i ≠ (descend t d (MAX_ORDER - d) 0 0 1).2 / 2 ^ u := by
        intro u hu1 hu2 heq
        have hieq : i = (descend t d (MAX_ORDER - d) 0 0 1).2 / 2 ^ (u + 1) := by
          rw [← div_div_pow, ← heq]
          omega
        by_cases hum : u + 1 ≤ MAX_ORDER - d
        · exact hna (u + 1) (by omega) hum hieq
        · have hu_eq : u = MAX_ORDER - d := by omega
          rw [hu_eq] at hieq
          have hz : (descend t d (MAX_ORDER - d) 0 0 1).2 / 2 ^ (MAX_ORDER - d + 1) = 0 :=
            Nat.div_eq_of_lt hnf2
          omega
      have h2i1a : ∀ u, 1 ≤ u → u ≤ MAX_ORDER - d →
          2 * i + 1 ≠ (descend t d (MAX_ORDER - d) 0 0 1).2 / 2 ^ u := by
        intro u hu1 hu2 heq
        have hieq : i = (descend t d (MAX_ORDER - d) 0 0 1).2 / 2 ^ (u + 1) := by
          rw [← div_div_pow, ← heq]
          omega
        by_cases hum : u + 1 ≤ MAX_ORDER - d
        · exact hna (u + 1) (by omega) hum hieq
        · have hu_eq : u = MAX_ORDER - d := by omega
          rw [hu_eq] at hieq
          have hz : (descend t d (MAX_ORDER - d) 0 0 1).2 / 2 ^ (MAX_ORDER - d + 1) = 0 :=
            Nat.div_eq_of_lt hnf2
          omega
      have h2in : 2 * i ≠ (descend t d (MAX_ORDER - d) 0 0 1).2 := by
        intro heq
        rcases Nat.eq_zero_or_pos (MAX_ORDER - d) with hm0 | hmpos
        · have hlt2 : (descend t d (MAX_ORDER - d) 0 0 1).2 < 2 := by
            have e : 2 ^ (MAX_ORDER - d + 1) = 2 := by rw [hm0]; norm_num
            omega
          omega
        · apply hna 1 (by omega) hmpos
          rw [pow_one, ← heq]
          omega
      have h2i1n : 2 * i + 1 ≠ (descend t d (MAX_ORDER - d) 0 0 1).2 := by
        intro heq
        rcases Nat.eq_zero_or_pos (MAX_ORDER - d) with hm0 | hmpos
        · have hlt2 : (descend t d (MAX_ORDER - d) 0 0 1).2 < 2 := by
            have e : 2 ^ (MAX_ORDER - d + 1) = 2 := by rw [hm0]; norm_num
            omega
          omega
        · apply hna 1 (by omega) hmpos
          rw [pow_one, ← heq]
          omega
      have e1 := @mark_prop_untouched t.flat _ _ hnf1 _ hi1 hn hna
      have e2 := @mark_prop_untouched t.flat _ _ hnf1 (2 * i) (by omega) h2in h2ia
      have e3 := @mark_prop_untouched t.flat _ _ hnf1 (2 * i + 1) (by omega) h2i1n h2i1a
      have e3' : (propagate (upd t.flat ((descend t d (MAX_ORDER - d) 0 0 1).2 - 1) 0)
          (MAX_ORDER - d) (descend t d (MAX_ORDER - d) 0 0 1).2).1 (2 * i) =
          t.flat (2 * i) := by
        have e : 2 * i + 1 - 1 = 2 * i := by omega
        rw [← e]
        exact e3
      have hgi := hG i hi1 hi2
      rw [GoodNode] at hgi ⊢
      rw [hft, e1, e2, e3']
      exact hgi

theorem alloc_preserves {t : Tree} (hGB : Good t ∧ Bound t) {d a : Nat} {t' : Tree}
    (h : t.alloc_exact d = some (a, t')) : Good t' ∧ Bound t' :=
  ⟨alloc_Good hGB.1 h, alloc_Bound hGB.2 h⟩

theorem reach_good_bound {t : Tree} (h : Reach t) : Good t ∧ Bound t := by
  obtain ⟨ks, hks⟩ := h
  subst hks
  suffices h : ∀ (ks : List Nat) (t0 : Tree), Good t0 ∧ Bound t0 →
      Good (ks.foldl allocTree t0) ∧ Bound (ks.foldl allocTree t0) by
    exact h ks Tree.new ⟨Good_new, Bound_new⟩
  intro ks
  induction ks with
  | nil => intro t0 h0; exact h0
  | cons k ks ih =>
    intro t0 h0
    rw [List.foldl_cons]
    apply ih
    cases hc : t0.alloc_exact k with
    | none =>
      simp only [allocTree, hc]
      exact h0
    | some p =>
      obtain ⟨a, t1⟩ := p
      simp only [allocTree, hc]
      exact alloc_preserves h0 hc

theorem MAX18 : MAX_ORDER = 18 := by norm_num [MAX_ORDER, LEVEL_COUNT]

theorem LEVEL19 : LEVEL_COUNT = 19 := by norm_num [LEVEL_COUNT]

theorem BASE12 : BASE_ORDER = 12 := by norm_num [BASE_ORDER]

theorem MOS30 : MAX_ORDER_SIZE = 30 := by norm_num [MAX_ORDER_SIZE, MAX_ORDER, LEVEL_COUNT, BASE_ORDER]

theorem sval_virgin {k i : Nat} (h : k ≤ lo i) (hl : lvl i ≤ MAX_ORDER) :
    sval k i = (MAX_ORDER - lvl i) + 1 := by
  have hf : LEVEL_COUNT - lvl i = (LEVEL_COUNT - lvl i - 1) + 1 := by
    rw [MAX18] at hl
    rw [LEVEL19]
    omega
  rw [sval, hf, svalAux, if_pos h]

theorem sval_leaf {k i : Nat} (h : lo i < k) (hl : lvl i = MAX_ORDER) : sval k i = 0 := by
  have hf : LEVEL_COUNT - lvl i = 0 + 1 := by
    rw [hl, MAX18, LEVEL19]
  rw [sval, hf, svalAux, if_neg (by omega), if_pos (le_of_eq hl.symm)]

theorem sval_internal {k i : Nat} (h : lo i < k) (hl : lvl i < MAX_ORDER) (hi1 : 1 ≤ i) :
    sval k i = Nat.max (sval k (2 * i)) (sval k (2 * i + 1)) := by
  have hl2 : lvl (2 * i) = lvl i + 1 := lvl_two_mul hi1
  have hl21 : lvl (2 * i + 1) = lvl i + 1 := lvl_two_mul_add_one hi1
  have hf : LEVEL_COUNT - lvl i = (LEVEL_COUNT - (lvl i + 1)) + 1 := by
    rw [MAX18] at hl
    rw [LEVEL19]
    omega
  rw [sval, hf, svalAux, if_neg (by omega), if_neg (by omega), sval, sval, hl2, hl21]

/-- A node's value is `0` exactly when all its slots are below the allocation
frontier `k`. -/
theorem sval_eq_zero_iff :
    ∀ n k i, 1 ≤ i → lvl i ≤ MAX_ORDER → MAX_ORDER - lvl i ≤ n →
      (sval k i = 0 ↔ hi i ≤ k) := by
  intro n
  induction n with
  | zero =>
    intro k i hi1 hl hn
    have hleaf : lvl i = MAX_ORDER := by omega
    have hhi : hi i = lo i + 1 := by
      rw [hi, hleaf]
      norm_num
    rcases Nat.lt_or_ge (lo i) k with h | h
    · rw [sval_leaf h hleaf]
      omega
    · rw [sval_virgin h hl]
      omega
  | succ n ihn =>
    intro k i hi1 hl hn
    rcases Nat.eq_or_lt_of_le hl with hleaf | hlt
    · -- leaf again
      have hhi : hi i = lo i + 1 := by
        rw [hi, ← hleaf]
        norm_num
      rcases Nat.lt_or_ge (lo i) k with h | h
      · rw [sval_leaf h hleaf]
        omega
      · rw [sval_virgin h hl]
        omega
    · rcases Nat.lt_or_ge (lo i) k with h | h
      · rw [sval_internal h hlt hi1]
        have hc1 : lvl (2 * i) = lvl i + 1 := lvl_two_mul hi1
        have hc2 : lvl (2 * i + 1) = lvl i + 1 := lvl_two_mul_add_one hi1
        have ih1 := ihn k (2 * i) (by omega) (by omega) (by omega)
        have ih2 := ihn k (2 * i + 1) (by omega) (by omega) (by omega)
        have hh1 : hi (2 * i) = lo i + 2 ^ (MAX_ORDER - (lvl i + 1)) := hi_two_mul hi1 hlt
        have hh2 : hi (2 * i + 1) = hi i := hi_two_mul_add_one hi1 hlt
        have hhi : hi i = lo i + 2 ^ (MAX_ORDER - lvl i) := rfl
        have hps : 2 ^ (MAX_ORDER - lvl i) = 2 ^ (MAX_ORDER - (lvl i + 1)) * 2 :=
          pow_sub_succ hlt
        rw [Nat.max_eq_zero_iff, ih1, ih2]
        omega
      · rw [sval_virgin h hl]
        have := lo_lt_hi i
        omega

/-- Allocating slot `k` does not change the value of a node whose range does not
contain `k`. -/
theorem sval_stable :
    ∀ n k i, 1 ≤ i → lvl i ≤ MAX_ORDER → MAX_ORDER - lvl i ≤ n →
      ¬(lo i ≤ k ∧ k < hi i) → sval (k + 1) i = sval k i := by
  intro n
  induction n with
  | zero =>
    intro k i hi1 hl hn hnc
    have hleaf : lvl i = MAX_ORDER := by omega
    have hhi : hi i = lo i + 1 := by
      rw [hi, hleaf]
      norm_num
    rcases Nat.lt_or_ge (lo i) k with h | h
    · rw [sval_leaf h hleaf, sval_leaf (by omega) hleaf]
    · have hklo : k < lo i := by omega
      rw [sval_virgin h hl, sval_virgin (by omega) hl]
  | succ n ihn =>
    intro k i hi1 hl hn hnc
    rcases Nat.eq_or_lt_of_le hl with hleaf | hlt
    · have hhi : hi i = lo i + 1 := by
        rw [hi, ← hleaf]
        norm_num
      rcases Nat.lt_or_ge (lo i) k with h | h
      · rw [sval_leaf h hleaf, sval_leaf (by omega) hleaf]
      · have hklo : k < lo i := by omega
        rw [sval_virgin h hl, sval_virgin (by omega) hl]
    · rcases Nat.lt_or_ge (lo i) k with h | h
      · have hk : hi i ≤ k := by omega
        rw [sval_internal h hlt hi1, sval_internal (by omega) hlt hi1]
        have hc1 : lvl (2 * i) = lvl i + 1 := lvl_two_mul hi1
        have hc2 : lvl (2 * i + 1) = lvl i + 1 := lvl_two_mul_add_one hi1
        have hh1 : hi (2 * i) = lo i + 2 ^ (MAX_ORDER - (lvl i + 1)) := hi_two_mul hi1 hlt
        have hh2 : hi (2 * i + 1) = hi i := hi_two_mul_add_one hi1 hlt
        have hl1 : lo (2 * i) = lo i := lo_two_mul hi1 hlt
        have hl21 : lo (2 * i + 1) = lo i + 2 ^ (MAX_ORDER - (lvl i + 1)) :=
          lo_two_mul_add_one hi1 hlt
        have hhi : hi i = lo i + 2 ^ (MAX_ORDER - lvl i) := rfl
        have hps : 2 ^ (MAX_ORDER - lvl i) = 2 ^ (MAX_ORDER - (lvl i + 1)) * 2 :=
          pow_sub_succ hlt
        rw [ihn k (2 * i) (by omega) (by omega) (by omega) (by omega),
          ihn k (2 * i + 1) (by omega) (by omega) (by omega) (by omega)]
      · have hklo : k < lo i := by
          have := lo_lt_hi i
          omega
        rw [sval_virgin (by omega) hl, sval_virgin (by omega) hl]

theorem parent_range {i : Nat} (h2 : 2 ≤ i) (hl : lvl i ≤ MAX_ORDER) :
    lo (i / 2) ≤ lo i ∧ hi i ≤ hi (i / 2) ∧ lvl (i / 2) + 1 = lvl i := by
  have hq1 : 1 ≤ i / 2 := by omega
  have hcq : i = 2 * (i / 2) ∨ i = 2 * (i / 2) + 1 := by omega
  have hlq : lvl (i / 2) + 1 = lvl i := by
    rcases hcq with hcq | hcq
    · conv_rhs => rw [hcq]
      rw [lvl_two_mul hq1]
    · conv_rhs => rw [hcq]
      rw [lvl_two_mul_add_one hq1]
  have hlqM : lvl (i / 2) < MAX_ORDER := by
    by_contra hc
    push_neg at hc
    omega
  have hhiq : hi (i / 2) = lo (i / 2) + 2 ^ (MAX_ORDER - lvl (i / 2)) := rfl
  have hps : 2 ^ (MAX_ORDER - lvl (i / 2)) = 2 ^ (MAX_ORDER - (lvl (i / 2) + 1)) * 2 :=
    pow_sub_succ hlqM
  rcases hcq with hcq | hcq
  · have hlo : lo (2 * (i / 2)) = lo (i / 2) := lo_two_mul hq1 hlqM
    have hhi : hi (2 * (i / 2)) = lo (i / 2) + 2 ^ (MAX_ORDER - (lvl (i / 2) + 1)) :=
      hi_two_mul hq1 hlqM
    constructor
    · conv_rhs => rw [hcq]
      omega
    · refine ⟨?_, hlq⟩
      conv_lhs => rw [hcq]
      omega
  · have hlo : lo (2 * (i / 2) + 1) = lo (i / 2) + 2 ^ (MAX_ORDER - (lvl (i / 2) + 1)) :=
      lo_two_mul_add_one hq1 hlqM
    have hhi : hi (2 * (i / 2) + 1) = hi (i / 2) := hi_two_mul_add_one hq1 hlqM
    constructor
    · conv_rhs => rw [hcq]
      omega
    · refine ⟨?_, hlq⟩
      conv_lhs => rw [hcq]
      omega

theorem anc_range :
    ∀ u i, 2 ^ u ≤ i → lvl i ≤ MAX_ORDER →
      lo (i / 2 ^ u) ≤ lo i ∧ hi i ≤ hi (i / 2 ^ u) := by
  intro u
  induction u with
  | zero =>
    intro i _ _
    rw [pow_zero, Nat.div_one]
    exact ⟨le_rfl, le_rfl⟩
  | succ u ihu =>
    intro i hpow hl
    have h2 : 2 ≤ i := by
      have : (2 : Nat) ≤ 2 ^ (u + 1) := by
        calc (2 : Nat) = 2 ^ 1 := (pow_one 2).symm
          _ ≤ 2 ^ (u + 1) := Nat.pow_le_pow_right (by norm_num) (by omega)
      omega
    obtain ⟨hp1, hp2, hp3⟩ := parent_range h2 hl
    have hq : 2 ^ u ≤ i / 2 := by
      rw [Nat.le_div_iff_mul_le (by norm_num)]
      rw [pow_succ] at hpow
      omega
    obtain ⟨ih1, ih2⟩ := ihu (i / 2) hq (by omega)
    rw [div_two_pow] at ih1 ih2
    exact ⟨le_trans ih1 hp1, le_trans hp2 ih2⟩

theorem leaf_anc_formula (k u : Nat) (hu : u ≤ MAX_ORDER) :
    (2 ^ MAX_ORDER + k) / 2 ^ u = 2 ^ (MAX_ORDER - u) + k / 2 ^ u := by
  have e : 2 ^ MAX_ORDER + k = k + 2 ^ (MAX_ORDER - u) * 2 ^ u := by
    rw [← pow_add]
    have e2 : MAX_ORDER - u + u = MAX_ORDER := by omega
    rw [e2]
    omega
  rw [e, Nat.add_mul_div_right _ _ (Nat.pos_pow_of_pos u (by norm_num))]
  omega

/-- Among the nodes of one level, only the ancestor of leaf `k` covers slot `k`. -/
theorem contain_eq_anc {k i : Nat} (hi1 : 1 ≤ i)
    (hl : lvl i ≤ MAX_ORDER) (h1 : lo i ≤ k) (h2 : k < hi i) :
    i = (2 ^ MAX_ORDER + k) / 2 ^ (MAX_ORDER - lvl i) := by
  have hil := (lvl_self_bounds hi1).1
  have hform := leaf_anc_formula k (MAX_ORDER - lvl i) (by omega)
  have he : MAX_ORDER - (MAX_ORDER - lvl i) = lvl i := by omega
  rw [he] at hform
  have hdet : k / 2 ^ (MAX_ORDER - lvl i) = i - 2 ^ lvl i := by
    apply Nat.div_eq_of_lt_le
    · exact h1
    · have e : (i - 2 ^ lvl i + 1) * 2 ^ (MAX_ORDER - lvl i) =
          lo i + 2 ^ (MAX_ORDER - lvl i) := by
        rw [lo, Nat.add_mul, one_mul]
      rw [e]
      exact h2
  omega

/-- Descent at order 0 on `treeAfter k`: from any point of the path towards
leaf `k` (with `s` steps to go, at level `MAX_ORDER - s`), the loop ends at the
leaf node `2^MAX_ORDER + k` with byte address `2^BASE_ORDER * k`. -/
theorem div_pow_succ_parity (k s : Nat) :
    k / 2 ^ s = 2 * (k / 2 ^ (s + 1)) ∨ k / 2 ^ s = 2 * (k / 2 ^ (s + 1)) + 1 := by
  have hc2 : k / 2 ^ (s + 1) = k / 2 ^ s / 2 := (div_div_pow k s).symm
  omega

theorem lt_div_mul_add (k s : Nat) : k < 2 ^ s * (k / 2 ^ s) + 2 ^ s := by
  have hmod := Nat.div_add_mod k (2 ^ s)
  have hmlt : k % 2 ^ s < 2 ^ s := Nat.mod_lt k (Nat.pos_pow_of_pos _ (by norm_num))
  omega

theorem descend_treeAfter {k : Nat} (hk : k < 2 ^ MAX_ORDER) :
    ∀ s, s ≤ MAX_ORDER →
      descend (treeAfter k) 0 s (MAX_ORDER - s)
          (2 ^ BASE_ORDER * (k / 2 ^ s * 2 ^ s)) (2 ^ (MAX_ORDER - s) + k / 2 ^ s) =
        (2 ^ BASE_ORDER * k, 2 ^ MAX_ORDER + k) := by
  intro s
  induction s with
  | zero =>
    intro _
    rw [descend]
    norm_num
  | succ s ihs =>
    intro hs1
    have hsM : s < MAX_ORDER := by omega
    have hc2 : k / 2 ^ (s + 1) = k / 2 ^ s / 2 := (div_div_pow k s).symm
    obtain ⟨q, hq⟩ : ∃ q, k / 2 ^ (s + 1) = q := ⟨_, rfl⟩
    have hqb : q < 2 ^ (MAX_ORDER - (s + 1)) := by
      rw [← hq, Nat.div_lt_iff_lt_mul (Nat.pos_pow_of_pos _ (by norm_num)), ← pow_add]
      have e : MAX_ORDER - (s + 1) + (s + 1) = MAX_ORDER := by omega
      rw [e]
      exact hk
    rw [hq] at hc2
    rw [hq]
    have hpar : k / 2 ^ s = 2 * q ∨ k / 2 ^ s = 2 * q + 1 := by omega
    have hps : 2 ^ (MAX_ORDER - s) = 2 ^ (MAX_ORDER - (s + 1)) * 2 := by
      rw [← pow_succ]
      congr 1
      omega
    -- the left child of the current node
    have hlc : 2 * (2 ^ (MAX_ORDER - (s + 1)) + q) = 2 ^ (MAX_ORDER - s) + 2 * q := by
      rw [hps]
      ring
    have hlcb : 2 ^ (MAX_ORDER - s) ≤ 2 ^ (MAX_ORDER - s) + 2 * q ∧
        2 ^ (MAX_ORDER - s) + 2 * q < 2 ^ (MAX_ORDER - s + 1) := by
      constructor
      · omega
      · rw [pow_succ]
        omega
    have hlclvl : lvl (2 ^ (MAX_ORDER - s) + 2 * q) = MAX_ORDER - s :=
      lvl_eq hlcb.1 hlcb.2
    have hlclo : lo (2 ^ (MAX_ORDER - s) + 2 * q) = 2 * q * 2 ^ s := by
      rw [lo, hlclvl]
      have e : MAX_ORDER - (MAX_ORDER - s) = s := by omega
      rw [e]
      congr 1
      omega
    have hlchi : hi (2 ^ (MAX_ORDER - s) + 2 * q) = 2 * q * 2 ^ s + 2 ^ s := by
      rw [hi, hlclo, hlclvl]
      have e : MAX_ORDER - (MAX_ORDER - s) = s := by omega
      rw [e]
    -- the flat-array read of the left child is in range
    have hin : 2 ^ (MAX_ORDER - s) + 2 * q - 1 < 2 ^ LEVEL_COUNT - 1 := by
      have h1 : 2 ^ (MAX_ORDER - s + 1) ≤ 2 ^ LEVEL_COUNT :=
        Nat.pow_le_pow_right (by norm_num) (by rw [MAX18, LEVEL19]; omega)
      have h2 := hlcb.2
      have h3 : (1 : Nat) ≤ 2 ^ (MAX_ORDER - s) := Nat.one_le_two_pow
      omega
    have hread : (treeAfter k).flat (2 * (2 ^ (MAX_ORDER - (s + 1)) + q) - 1) =
        sval k (2 ^ (MAX_ORDER - s) + 2 * q) := by
      rw [hlc]
      show (if 2 ^ (MAX_ORDER - s) + 2 * q - 1 < 2 ^ LEVEL_COUNT - 1
        then sval k (2 ^ (MAX_ORDER - s) + 2 * q - 1 + 1) else 0) = _
      rw [if_pos hin]
      congr 1
      have h3 : (1 : Nat) ≤ 2 ^ (MAX_ORDER - s) := Nat.one_le_two_pow
      omega
    have hzero := sval_eq_zero_iff (MAX_ORDER - lvl (2 ^ (MAX_ORDER - s) + 2 * q))
      k (2 ^ (MAX_ORDER - s) + 2 * q)
      (by have h3 : (1 : Nat) ≤ 2 ^ (MAX_ORDER - s) := Nat.one_le_two_pow; omega)
      (by rw [hlclvl]; omega) le_rfl
    have hmod := Nat.div_add_mod k (2 ^ s)
    have hmlt : k % 2 ^ s < 2 ^ s := Nat.mod_lt k (Nat.pos_pow_of_pos _ (by norm_num))
    rw [descend]
    rcases hpar with hpar | hpar
    · -- `k / 2^s` even: slot `k` lies in the left child, which is therefore not full
      have he : 2 * q * 2 ^ s = 2 ^ s * (k / 2 ^ s) := by
        rw [hpar]
        ring
      have hnz : sval k (2 ^ (MAX_ORDER - s) + 2 * q) ≠ 0 := by
        rw [Ne, hzero, hlchi, he]
        exact Nat.not_le.mpr (lt_div_mul_add k s)
      rw [if_pos (by rw [hread]; exact ⟨hnz, Nat.pos_of_ne_zero hnz⟩)]
      have e1 : MAX_ORDER - (s + 1) + 1 = MAX_ORDER - s := by omega
      have e2 : 2 ^ BASE_ORDER * (q * 2 ^ (s + 1)) = 2 ^ BASE_ORDER * (k / 2 ^ s * 2 ^ s) := by
        rw [hpar, pow_succ]
        ring
      have e3 : 2 * (2 ^ (MAX_ORDER - (s + 1)) + q) = 2 ^ (MAX_ORDER - s) + k / 2 ^ s := by
        rw [hlc, hpar]
      rw [e1, e2, e3]
      exact ihs (by omega)
    · -- `k / 2^s` odd: the left child is fully allocated, descend right
      have he : 2 * q * 2 ^ s + 2 ^ s = 2 ^ s * (k / 2 ^ s) := by
        rw [hpar]
        ring
      have hz : sval k (2 ^ (MAX_ORDER - s) + 2 * q) = 0 := by
        rw [hzero, hlchi, he, Nat.mul_comm]
        exact Nat.div_mul_le_self k (2 ^ s)
      rw [if_neg (by rw [hread, hz]; simp)]
      have e1 : MAX_ORDER - (s + 1) + 1 = MAX_ORDER - s := by omega
      have e2 : MAX_ORDER_SIZE - (MAX_ORDER - (s + 1)) - 1 = BASE_ORDER + s := by
        have hs18 : s < 18 := by
          rw [← MAX18]
          exact hsM
        rw [MOS30, MAX18, BASE12]
        omega
      have e3 : 2 ^ BASE_ORDER * (q * 2 ^ (s + 1)) + 2 ^ (BASE_ORDER + s) =
          2 ^ BASE_ORDER * (k / 2 ^ s * 2 ^ s) := by
        rw [hpar, pow_succ, pow_add]
        ring
      have e4 : 2 * (2 ^ (MAX_ORDER - (s + 1)) + q) + 1 = 2 ^ (MAX_ORDER - s) + k / 2 ^ s := by
        rw [hlc, hpar]
        omega
      rw [e1, e2, e3, e4]
      exact ihs (by omega)

/-- After marking leaf `k` used and propagating, the array is exactly the state
description for `k + 1` allocated slots. -/
theorem prop_reconstruct {k : Nat} (hk : k < 2 ^ MAX_ORDER) :
    (propagate (upd (treeAfter k).flat (2 ^ MAX_ORDER + k - 1) 0) MAX_ORDER
      (2 ^ MAX_ORDER + k)).1 = (treeAfter (k + 1)).flat := by
  have hM := pow_MAX
  have hL := pow_LEVEL
  have hnf1 : 2 ^ MAX_ORDER ≤ 2 ^ MAX_ORDER + k := by omega
  have hnf2 : 2 ^ MAX_ORDER + k < 2 ^ (MAX_ORDER + 1) := by
    rw [pow_succ]
    omega
  have hlvnf : lvl (2 ^ MAX_ORDER + k) = MAX_ORDER := lvl_eq hnf1 hnf2
  have hlonf : lo (2 ^ MAX_ORDER + k) = k := by
    rw [lo, hlvnf, Nat.sub_self, pow_zero, Nat.mul_one]
    omega
  have hhinf : hi (2 ^ MAX_ORDER + k) = k + 1 := by
    rw [hi, hlonf, hlvnf, Nat.sub_self, pow_zero]
  have hpath : ∀ u, u ≤ MAX_ORDER →
      (propagate (upd (treeAfter k).flat (2 ^ MAX_ORDER + k - 1) 0) MAX_ORDER
        (2 ^ MAX_ORDER + k)).1 ((2 ^ MAX_ORDER + k) / 2 ^ u - 1) =
      sval (k + 1) ((2 ^ MAX_ORDER + k) / 2 ^ u) := by
    intro u
    induction u with
    | zero =>
      intro _
      rw [pow_zero, Nat.div_one, mark_prop_self hnf1,
        sval_leaf (by rw [hlonf]; omega) hlvnf]
    | succ u ihu =>
      intro hu
      have hq1 : 1 ≤ (2 ^ MAX_ORDER + k) / 2 ^ (u + 1) := anc_pos hu hnf1
      have hqlvl : lvl ((2 ^ MAX_ORDER + k) / 2 ^ (u + 1)) = MAX_ORDER - (u + 1) :=
        anc_lvl hu hnf1 hnf2
      have hcontq : lo ((2 ^ MAX_ORDER + k) / 2 ^ (u + 1)) ≤ k ∧
          k < hi ((2 ^ MAX_ORDER + k) / 2 ^ (u + 1)) := by
        have hpow : 2 ^ (u + 1) ≤ 2 ^ MAX_ORDER + k :=
          le_trans (Nat.pow_le_pow_right (by norm_num) hu) hnf1
        have har := anc_range (u + 1) (2 ^ MAX_ORDER + k) hpow (le_of_eq hlvnf)
        rw [hlonf, hhinf] at har
        omega
      have hsib : ∀ x, 1 ≤ x → lvl x = MAX_ORDER - u →
          x ≠ (2 ^ MAX_ORDER + k) / 2 ^ u →
          (propagate (upd (treeAfter k).flat (2 ^ MAX_ORDER + k - 1) 0) MAX_ORDER
            (2 ^ MAX_ORDER + k)).1 (x - 1) = sval (k + 1) x := by
        intro x hx1 hxl hxc
        have hxr : x < 2 ^ LEVEL_COUNT := by
          have hb := (lvl_self_bounds hx1).2
          have hp : 2 ^ (lvl x + 1) ≤ 2 ^ LEVEL_COUNT :=
            Nat.pow_le_pow_right (by norm_num) (by rw [MAX18] at hxl; rw [LEVEL19]; omega)
          omega
        have hxnf : x ≠ 2 ^ MAX_ORDER + k := by
          intro hxeq
          rw [hxeq, hlvnf] at hxl
          have hu0 : u = 0 := by omega
          apply hxc
          rw [hxeq, hu0, pow_zero, Nat.div_one]
        have hxanc : ∀ w, 1 ≤ w → w ≤ MAX_ORDER → x ≠ (2 ^ MAX_ORDER + k) / 2 ^ w := by
          intro w hw1 hwM hxeq
          have hwl : lvl ((2 ^ MAX_ORDER + k) / 2 ^ w) = MAX_ORDER - w :=
            anc_lvl hwM hnf1 hnf2
          rw [hxeq, hwl] at hxl
          have hwu : w = u := by omega
          rw [hwu] at hxeq
          exact hxc hxeq
        rw [mark_prop_untouched hnf1 hx1 hxnf hxanc]
        have hflat : (treeAfter k).flat (x - 1) = sval k x := by
          show (if x - 1 < 2 ^ LEVEL_COUNT - 1 then sval k (x - 1 + 1) else 0) = _
          rw [if_pos (by omega)]
          congr 1
          omega
        rw [hflat]
        refine (sval_stable (MAX_ORDER - lvl x) k x hx1 (by omega) le_rfl ?_).symm
        intro hcon
        have hx_anc := contain_eq_anc hx1 (by omega) hcon.1 hcon.2
        rw [hxl] at hx_anc
        have he : MAX_ORDER - (MAX_ORDER - u) = u := by omega
        rw [he] at hx_anc
        exact hxc hx_anc
      rw [propagate_maxEq MAX_ORDER _ _ hnf1 (u + 1) (by omega) hu]
      rw [sval_internal (by omega) (by rw [hqlvl, MAX18]; omega) hq1]
      have hlv2q : lvl (2 * ((2 ^ MAX_ORDER + k) / 2 ^ (u + 1))) = MAX_ORDER - u := by
        rw [lvl_two_mul hq1, hqlvl]
        rw [MAX18] at hu ⊢
        omega
      have hlv2q1 : lvl (2 * ((2 ^ MAX_ORDER + k) / 2 ^ (u + 1)) + 1) = MAX_ORDER - u := by
        rw [lvl_two_mul_add_one hq1, hqlvl]
        rw [MAX18] at hu ⊢
        omega
      rcases div_pow_succ_parity (2 ^ MAX_ORDER + k) u with hcc | hcc
      · have h1 : (propagate (upd (treeAfter k).flat (2 ^ MAX_ORDER + k - 1) 0) MAX_ORDER
            (2 ^ MAX_ORDER + k)).1 (2 * ((2 ^ MAX_ORDER + k) / 2 ^ (u + 1)) - 1) =
            sval (k + 1) (2 * ((2 ^ MAX_ORDER + k) / 2 ^ (u + 1))) := by
          rw [← hcc]
          exact ihu (by omega)
        have h2 : (propagate (upd (treeAfter k).flat (2 ^ MAX_ORDER + k - 1) 0) MAX_ORDER
            (2 ^ MAX_ORDER + k)).1 (2 * ((2 ^ MAX_ORDER + k) / 2 ^ (u + 1))) =
            sval (k + 1) (2 * ((2 ^ MAX_ORDER + k) / 2 ^ (u + 1)) + 1) := by
          have hs := hsib (2 * ((2 ^ MAX_ORDER + k) / 2 ^ (u + 1)) + 1) (by omega) hlv2q1
            (by omega)
          have e : 2 * ((2 ^ MAX_ORDER + k) / 2 ^ (u + 1)) + 1 - 1 =
              2 * ((2 ^ MAX_ORDER + k) / 2 ^ (u + 1)) := by omega
          rwa [e] at hs
        rw [h1, h2]
      · have h1 : (propagate (upd (treeAfter k).flat (2 ^ MAX_ORDER + k - 1) 0) MAX_ORDER
            (2 ^ MAX_ORDER + k)).1 (2 * ((2 ^ MAX_ORDER + k) / 2 ^ (u + 1)) - 1) =
            sval (k + 1) (2 * ((2 ^ MAX_ORDER + k) / 2 ^ (u + 1))) := by
          have hs := hsib (2 * ((2 ^ MAX_ORDER + k) / 2 ^ (u + 1))) (by omega) hlv2q
            (by omega)
          exact hs
        have h2 : (propagate (upd (treeAfter k).flat (2 ^ MAX_ORDER + k - 1) 0) MAX_ORDER
            (2 ^ MAX_ORDER + k)).1 (2 * ((2 ^ MAX_ORDER + k) / 2 ^ (u + 1))) =
            sval (k + 1) (2 * ((2 ^ MAX_ORDER + k) / 2 ^ (u + 1)) + 1) := by
          have e : 2 * ((2 ^ MAX_ORDER + k) / 2 ^ (u + 1)) =
              (2 ^ MAX_ORDER + k) / 2 ^ u - 1 := by omega
          rw [e, ihu (by omega), hcc]
          have e2 : 2 * ((2 ^ MAX_ORDER + k) / 2 ^ (u + 1)) + 1 - 1 + 1 =
              2 * ((2 ^ MAX_ORDER + k) / 2 ^ (u + 1)) + 1 := by omega
          rw [e2]
        rw [h1, h2]
  funext b
  by_cases hbr : b < 2 ^ LEVEL_COUNT - 1
  · have hb1 : 1 ≤ b + 1 := by omega
    have hblvl : lvl (b + 1) ≤ MAX_ORDER := by
      have := lvl_lt_of_lt_pow hb1 (show b + 1 < 2 ^ LEVEL_COUNT by omega)
      rw [MAX18, LEVEL19] at *
      omega
    have hrhs : (treeAfter (k + 1)).flat b = sval (k + 1) (b + 1) := by
      show (if b < 2 ^ LEVEL_COUNT - 1 then sval (k + 1) (b + 1) else 0) = _
      rw [if_pos hbr]
    by_cases hcon : lo (b + 1) ≤ k ∧ k < hi (b + 1)
    · have hanc := contain_eq_anc hb1 hblvl hcon.1 hcon.2
      have hu : MAX_ORDER - lvl (b + 1) ≤ MAX_ORDER := Nat.sub_le _ _
      have hp := hpath (MAX_ORDER - lvl (b + 1)) hu
      rw [← hanc] at hp
      have e : b + 1 - 1 = b := by omega
      rw [e] at hp
      rw [hp, hrhs]
    · have hnanc : ∀ w, 1 ≤ w → w ≤ MAX_ORDER → b + 1 ≠ (2 ^ MAX_ORDER + k) / 2 ^ w := by
        intro w hw1 hwM hbeq
        apply hcon
        have hpow : 2 ^ w ≤ 2 ^ MAX_ORDER + k :=
          le_trans (Nat.pow_le_pow_right (by norm_num) hwM) hnf1
        have har := anc_range w (2 ^ MAX_ORDER + k) hpow (le_of_eq hlvnf)
        rw [hlonf, hhinf, ← hbeq] at har
        omega
      have hbnf : b + 1 ≠ 2 ^ MAX_ORDER + k := by
        intro hbeq
        apply hcon
        rw [hbeq, hlonf, hhinf]
        omega
      have huntouched := @mark_prop_untouched (treeAfter k).flat _ _ hnf1 _ hb1 hbnf hnanc
      have e : b + 1 - 1 = b := by omega
      rw [e] at huntouched
      rw [huntouched, hrhs]
      have hflat : (treeAfter k).flat b = sval k (b + 1) := by
        show (if b < 2 ^ LEVEL_COUNT - 1 then sval k (b + 1) else 0) = _
        rw [if_pos hbr]
      rw [hflat]
      exact (sval_stable (MAX_ORDER - lvl (b + 1)) k (b + 1) hb1 hblvl le_rfl hcon).symm
  · have hnanc : ∀ w, 1 ≤ w → w ≤ MAX_ORDER → b + 1 ≠ (2 ^ MAX_ORDER + k) / 2 ^ w := by
      intro w hw1 hwM hbeq
      have hle : (2 ^ MAX_ORDER + k) / 2 ^ w ≤ (2 ^ MAX_ORDER + k) / 2 :=
        by
          have h2w : (2 : Nat) ≤ 2 ^ w := by
            calc (2 : Nat) = 2 ^ 1 := (pow_one 2).symm
              _ ≤ 2 ^ w := Nat.pow_le_pow_right (by norm_num) hw1
          exact Nat.div_le_div_left h2w (by norm_num)
      omega
    have hbnf : b + 1 ≠ 2 ^ MAX_ORDER + k := by omega
    have huntouched := @mark_prop_untouched (treeAfter k).flat _ _ hnf1 _
      (show 1 ≤ b + 1 by omega) hbnf hnanc
    have e : b + 1 - 1 = b := by omega
    rw [e] at huntouched
    rw [huntouched]
    show (if b < 2 ^ LEVEL_COUNT - 1 then sval k (b + 1) else 0) =
      (if b < 2 ^ LEVEL_COUNT - 1 then sval (k + 1) (b + 1) else 0)
    rw [if_neg hbr, if_neg hbr]

theorem treeAfter_root {k : Nat} : (treeAfter k).flat 0 = sval k 1 := by
  show (if (0 : Nat) < 2 ^ LEVEL_COUNT - 1 then sval k (0 + 1) else 0) = _
  rw [if_pos (by rw [LEVEL19]; norm_num)]

theorem hi_one : hi 1 = 2 ^ MAX_ORDER := by
  rw [hi, lo, lvl_one, pow_zero, Nat.sub_self, Nat.zero_mul, Nat.sub_zero, Nat.zero_add]

theorem lo_one : lo 1 = 0 := by
  rw [lo, lvl_one, pow_zero, Nat.sub_self, Nat.zero_mul]

/-- The `k`-th order-0 allocation (counting from 0, `k < 2^MAX_ORDER`) succeeds,
returns byte address `2^BASE_ORDER * k`, and moves the tree to the next state. -/
theorem treeAfter_step {k : Nat} (hk : k < 2 ^ MAX_ORDER) :
    (treeAfter k).alloc_exact 0 = some (2 ^ BASE_ORDER * k, treeAfter (k + 1)) := by
  have hzero := sval_eq_zero_iff (MAX_ORDER - lvl 1) k 1 le_rfl
    (by rw [lvl_one]; omega) le_rfl
  rw [hi_one] at hzero
  have hne : sval k 1 ≠ 0 := by
    rw [Ne, hzero]
    omega
  have hcond : ¬((treeAfter k).flat 0 = 0 ∨ (treeAfter k).flat 0 - 1 < 0) := by
    rw [treeAfter_root]
    push_neg
    exact ⟨hne, Nat.zero_le _⟩
  have hdiv0 : k / 2 ^ MAX_ORDER = 0 := Nat.div_eq_of_lt hk
  have hdesc : descend (treeAfter k) 0 MAX_ORDER 0 0 1 =
      (2 ^ BASE_ORDER * k, 2 ^ MAX_ORDER + k) := by
    have h := descend_treeAfter hk MAX_ORDER le_rfl
    rw [hdiv0, Nat.sub_self, pow_zero] at h
    simpa using h
  rw [Tree.alloc_exact, if_neg hcond]
  simp only [Nat.sub_zero, hdesc]
  rw [prop_reconstruct hk]

/-- The initial tree is the zero-allocations state. -/
theorem treeAfter_zero : treeAfter 0 = Tree.new := by
  apply Tree.ext
  funext b
  rw [new_flat]
  show (if b < 2 ^ LEVEL_COUNT - 1 then sval 0 (b + 1) else 0) = _
  by_cases hbr : b < 2 ^ LEVEL_COUNT - 1
  · rw [if_pos hbr, if_pos hbr]
    have hb1 : 1 ≤ b + 1 := by omega
    have hblvl : lvl (b + 1) ≤ MAX_ORDER := by
      have hL := pow_LEVEL
      have := lvl_lt_of_lt_pow hb1 (show b + 1 < 2 ^ LEVEL_COUNT by omega)
      rw [MAX18, LEVEL19] at *
      omega
    rw [sval_virgin (Nat.zero_le _) hblvl]
  · rw [if_neg hbr, if_neg hbr]

/-- After `2^MAX_ORDER` order-0 allocations, the tree is exhausted. -/
theorem treeAfter_full : (treeAfter (2 ^ MAX_ORDER)).alloc_exact 0 = none := by
  have hzero := sval_eq_zero_iff (MAX_ORDER - lvl 1) (2 ^ MAX_ORDER) 1 le_rfl
    (by rw [lvl_one]; omega) le_rfl
  rw [hi_one] at hzero
  have hz : sval (2 ^ MAX_ORDER) 1 = 0 := hzero.mpr le_rfl
  rw [Tree.alloc_exact, if_pos (Or.inl (by rw [treeAfter_root]; exact hz))]

theorem iterAlloc0_eq : ∀ k, k ≤ 2 ^ MAX_ORDER → iterAlloc0 k = treeAfter k := by
  intro k
  induction k with
  | zero => intro _; exact treeAfter_zero.symm
  | succ k ihk =>
    intro hk
    rw [iterAlloc0, ihk (by omega)]
    rw [allocTree, treeAfter_step (by omega)]

theorem nat_lt_max_iff {a b c : Nat} : a < Nat.max b c ↔ a < b ∨ a < c := lt_max_iff

theorem same_level_eq {i j : Nat} (h1 : 1 ≤ i) (h2 : 1 ≤ j) (hl : lvl i = lvl j)
    (hx1 : lo j < hi i) (hx2 : lo i < hi j) : i = j := by
  obtain ⟨hi1, hi2⟩ := lvl_self_bounds h1
  obtain ⟨hj1, hj2⟩ := lvl_self_bounds h2
  rw [← hl] at hj1 hj2
  have hs : 0 < 2 ^ (MAX_ORDER - lvl i) := Nat.pos_pow_of_pos _ (by norm_num)
  have hloi : lo i = (i - 2 ^ lvl i) * 2 ^ (MAX_ORDER - lvl i) := rfl
  have hhii : hi i = lo i + 2 ^ (MAX_ORDER - lvl i) := rfl
  have hloj : lo j = (j - 2 ^ lvl i) * 2 ^ (MAX_ORDER - lvl i) := by
    rw [lo, ← hl]
  have hhij : hi j = lo j + 2 ^ (MAX_ORDER - lvl i) := by
    rw [hi, ← hl]
  have e1 : (j - 2 ^ lvl i) * 2 ^ (MAX_ORDER - lvl i) <
      (i - 2 ^ lvl i + 1) * 2 ^ (MAX_ORDER - lvl i) := by
    rw [Nat.add_mul, one_mul]
    omega
  have e2 : (i - 2 ^ lvl i) * 2 ^ (MAX_ORDER - lvl i) <
      (j - 2 ^ lvl i + 1) * 2 ^ (MAX_ORDER - lvl i) := by
    rw [Nat.add_mul, one_mul]
    omega
  have l1 : j - 2 ^ lvl i < i - 2 ^ lvl i + 1 := Nat.lt_of_mul_lt_mul_right e1
  have l2 : i - 2 ^ lvl i < j - 2 ^ lvl i + 1 := Nat.lt_of_mul_lt_mul_right e2
  omega

/-- Two nodes whose slot ranges intersect are related: the shallower one is the
ancestor of the deeper one. -/
theorem intersect_anc {i j : Nat} (h1 : 1 ≤ i) (h2 : 1 ≤ j) (hl : lvl i ≤ lvl j)
    (hlM : lvl j ≤ MAX_ORDER) (hx1 : lo j < hi i) (hx2 : lo i < hi j) :
    i = j / 2 ^ (lvl j - lvl i) := by
  obtain ⟨hj1, hj2⟩ := lvl_self_bounds h2
  have hu : lvl j - lvl i ≤ lvl j := Nat.sub_le _ _
  have he : lvl j - (lvl j - lvl i) = lvl i := by omega
  have hal : lvl (j / 2 ^ (lvl j - lvl i)) = lvl i := by
    rw [anc_lvl hu hj1 hj2, he]
  have hapos : 1 ≤ j / 2 ^ (lvl j - lvl i) := anc_pos hu hj1
  have hpw : 2 ^ (lvl j - lvl i) ≤ j :=
    le_trans (Nat.pow_le_pow_right (by norm_num) hu) hj1
  have har := anc_range (lvl j - lvl i) j hpw hlM
  exact same_level_eq h1 hapos hal.symm (by omega) (by omega)

/-- Facts established by the descent loop on a `Good` tree: the address tracks
`2^BASE_ORDER * lo`, and every node on the walked path (the ancestors of the
final node down to the starting node) had value `> desired`. -/
theorem descend_path_facts {t : Tree} (hG : Good t) (d : Nat) :
    ∀ s j addr ni, j + s = MAX_ORDER - d → 2 ^ j ≤ ni → ni < 2 ^ (j + 1) →
      d < t.flat (ni - 1) → addr = 2 ^ BASE_ORDER * lo ni →
      (descend t d s j addr ni).1 = 2 ^ BASE_ORDER * lo (descend t d s j addr ni).2 ∧
      (∀ u, u ≤ s → d < t.flat ((descend t d s j addr ni).2 / 2 ^ u - 1)) := by
  intro s
  induction s with
  | zero =>
    intro j addr ni _ _ _ hval haddr
    refine ⟨haddr, ?_⟩
    intro u hu
    have hu0 : u = 0 := by omega
    rw [hu0, pow_zero, Nat.div_one]
    exact hval
  | succ s ihs =>
    intro j addr ni hjs hni1 hni2 hval haddr
    have hjM : j < MAX_ORDER := by
      have : MAX_ORDER - d ≤ MAX_ORDER := Nat.sub_le _ _
      omega
    have hdM : d < MAX_ORDER - j := by omega
    have hlvl : lvl ni = j := lvl_eq hni1 hni2
    have hni0 : 1 ≤ ni := le_trans Nat.one_le_two_pow hni1
    have hlvlM : lvl ni < MAX_ORDER := by omega
    have hiM : ni < 2 ^ MAX_ORDER := by
      have : 2 ^ (j + 1) ≤ 2 ^ MAX_ORDER := Nat.pow_le_pow_right (by norm_num) (by omega)
      omega
    -- the step reads the left child
    have hchild : ∀ ni', ni' = 2 * ni ∨ ni' = 2 * ni + 1 →
        2 ^ (j + 1) ≤ ni' ∧ ni' < 2 ^ (j + 1 + 1) := by
      intro ni' hni'
      constructor
      · rw [pow_succ]
        omega
      · rw [pow_succ, pow_succ]
        omega
    rw [descend]
    by_cases hc : t.flat (2 * ni - 1) ≠ 0 ∧ d < t.flat (2 * ni - 1)
    · rw [if_pos hc]
      have hb := hchild (2 * ni) (Or.inl rfl)
      have hstep := ihs (j + 1) addr (2 * ni) (by omega) hb.1 hb.2 hc.2
        (by rw [lo_two_mul hni0 hlvlM]; exact haddr)
      refine ⟨hstep.1, ?_⟩
      intro u hu
      rcases Nat.lt_or_ge u (s + 1) with hus | hus
      · exact hstep.2 u (by omega)
      · -- `u = s + 1`: the start node itself
        have hu' : u = s + 1 := by omega
        obtain ⟨hd1, hd2⟩ := descend_ni_bounds t d s (j + 1) addr (2 * ni)
        have hfin : (descend t d s (j + 1) addr (2 * ni)).2 / 2 ^ s = 2 * ni :=
          Nat.div_eq_of_lt_le hd1 hd2
        have hfin' : (descend t d s (j + 1) addr (2 * ni)).2 / 2 ^ (s + 1) = ni := by
          rw [← div_div_pow, hfin]
          omega
        rw [hu', hfin']
        exact hval
    · rw [if_neg hc]
      -- the right child's value exceeds `desired` by `GoodNode` at the parent
      have hgood := hG ni hni0 hiM
      have hrval : d < t.flat (2 * ni) := by
        rcases hgood with hmax | hzero | hvirgin
        · rw [hmax] at hval
          rcases nat_lt_max_iff.mp hval with hlft | hrt
          · exact absurd ⟨by omega, hlft⟩ hc
          · exact hrt
        · omega
        · have hl := hvirgin.2.1
          have hr := hvirgin.2.2
          rw [hlvl] at hl hr
          have : ¬(t.flat (2 * ni - 1) ≠ 0 ∧ d < t.flat (2 * ni - 1)) := hc
          rw [hl] at this
          rw [hr]
          exact absurd ⟨by omega, by omega⟩ this
      have hb := hchild (2 * ni + 1) (Or.inr rfl)
      have hlor : lo (2 * ni + 1) = lo ni + 2 ^ (MAX_ORDER - (j + 1)) := by
        rw [lo_two_mul_add_one hni0 hlvlM, hlvl]
      have haddr' : addr + 2 ^ (MAX_ORDER_SIZE - j - 1) =
          2 ^ BASE_ORDER * lo (2 * ni + 1) := by
        rw [hlor, haddr, Nat.mul_add]
        have e : MAX_ORDER_SIZE - j - 1 = BASE_ORDER + (MAX_ORDER - (j + 1)) := by
          rw [MOS30, MAX18, BASE12]
          rw [MAX18] at hjM
          omega
        rw [e, pow_add]
      have hval' : d < t.flat (2 * ni + 1 - 1) := by
        have e : 2 * ni + 1 - 1 = 2 * ni := by omega
        rw [e]
        exact hrval
      have hstep := ihs (j + 1) (addr + 2 ^ (MAX_ORDER_SIZE - j - 1)) (2 * ni + 1)
        (by omega) hb.1 hb.2 hval' haddr'
      refine ⟨hstep.1, ?_⟩
      intro u hu
      rcases Nat.lt_or_ge u (s + 1) with hus | hus
      · exact hstep.2 u (by omega)
      · have hu' : u = s + 1 := by omega
        obtain ⟨hd1, hd2⟩ := descend_ni_bounds t d s (j + 1)
          (addr + 2 ^ (MAX_ORDER_SIZE - j - 1)) (2 * ni + 1)
        have hfin : (descend t d s (j + 1) (addr + 2 ^ (MAX_ORDER_SIZE - j - 1))
            (2 * ni + 1)).2 / 2 ^ s = 2 * ni + 1 :=
          Nat.div_eq_of_lt_le hd1 hd2
        have hfin' : (descend t d s (j + 1) (addr + 2 ^ (MAX_ORDER_SIZE - j - 1))
            (2 * ni + 1)).2 / 2 ^ (s + 1) = ni := by
          rw [← div_div_pow, hfin]
          omega
        rw [hu', hfin']
        exact hval

theorem BmInv_new : BmInv Tree.new [] := by
  refine ⟨Good_new, Bound_new, ?_, List.Pairwise.nil⟩
  intro i _ _ _ ht
  obtain ⟨p, hp, -⟩ := ht
  exact absurd hp (List.not_mem_nil p)

/-- One successful `alloc_exact` on a tree satisfying the invariant: the
returned byte address is `2^BASE_ORDER` times the first slot of a block that is
disjoint from everything allocated before, and the invariant persists with the
new block recorded. -/
theorem BmInv_step {t : Tree} {R : List (Nat × Nat)} (hInv : BmInv t R)
    {d a : Nat} {t' : Tree} (h : t.alloc_exact d = some (a, t')) :
    a = 2 ^ BASE_ORDER * lo ((descend t d (MAX_ORDER - d) 0 0 1).2) ∧
    BmInv t' (R ++ [(lo ((descend t d (MAX_ORDER - d) 0 0 1).2), d)]) := by
  obtain ⟨hG, hB, hW, hD⟩ := hInv
  obtain ⟨ha, hft, hr0, hr1⟩ := alloc_some_elim h
  obtain ⟨hnf1, hnf2⟩ := descend_start_bounds t d
  have hnfpos : 1 ≤ (descend t d (MAX_ORDER - d) 0 0 1).2 := le_trans Nat.one_le_two_pow hnf1
  have hroot : d < t.flat 0 := by omega
  have hdM : d ≤ MAX_ORDER := by
    have hb1 := hB 1 le_rfl
    norm_num [lvl_one] at hb1
    omega
  have hmm : MAX_ORDER - (MAX_ORDER - d) = d := by omega
  have hpath := descend_path_facts hG d (MAX_ORDER - d) 0 0 1 (by omega)
    (by norm_num) (by norm_num) (by exact hroot)
    (by rw [lo_one, Nat.mul_zero])
  obtain ⟨hpa, hvals⟩ := hpath
  have hlvnf : lvl ((descend t d (MAX_ORDER - d) 0 0 1).2) = MAX_ORDER - d :=
    lvl_eq hnf1 hnf2
  have hval0 : d < t.flat ((descend t d (MAX_ORDER - d) 0 0 1).2 - 1) := by
    have hv := hvals 0 (Nat.zero_le _)
    rwa [pow_zero, Nat.div_one] at hv
  have hvtop : t.flat ((descend t d (MAX_ORDER - d) 0 0 1).2 - 1) = d + 1 := by
    have hb := hB ((descend t d (MAX_ORDER - d) 0 0 1).2) hnfpos
    rw [hlvnf] at hb
    omega
  have hnf19 : (descend t d (MAX_ORDER - d) 0 0 1).2 < 2 ^ LEVEL_COUNT := by
    have : 2 ^ (MAX_ORDER - d + 1) ≤ 2 ^ LEVEL_COUNT :=
      Nat.pow_le_pow_right (by norm_num) (by rw [MAX18, LEVEL19]; omega)
    omega
  have hhinf : hi ((descend t d (MAX_ORDER - d) 0 0 1).2) =
      lo ((descend t d (MAX_ORDER - d) 0 0 1).2) + 2 ^ d := by
    rw [hi, hlvnf, hmm]
  have hvis : Vis t ((descend t d (MAX_ORDER - d) 0 0 1).2) := by
    intro u hu1 hupos
    rcases le_or_lt u (MAX_ORDER - d) with hum | hum
    · have := hvals u hum
      omega
    · exfalso
      have : (descend t d (MAX_ORDER - d) 0 0 1).2 / 2 ^ u = 0 := by
        apply Nat.div_eq_of_lt
        have : 2 ^ (MAX_ORDER - d + 1) ≤ 2 ^ u := Nat.pow_le_pow_right (by norm_num) (by omega)
        omega
      omega
  have hfresh : ¬ Touches R ((descend t d (MAX_ORDER - d) 0 0 1).2) := by
    intro ht
    have := hW _ hnfpos hnf19 hvis ht
    rw [hlvnf, hmm] at this
    omega
  have hdisj : ∀ p ∈ R, p.1 + 2 ^ p.2 ≤ lo ((descend t d (MAX_ORDER - d) 0 0 1).2) ∨
      lo ((descend t d (MAX_ORDER - d) 0 0 1).2) + 2 ^ d ≤ p.1 := by
    intro p hp
    by_contra hcon
    push_neg at hcon
    apply hfresh
    exact ⟨p, hp, by omega, by omega⟩
  refine ⟨by rw [ha, hpa], alloc_Good hG h, alloc_Bound hB h, ?_, ?_⟩
  · -- the invariant `W` for the extended block list
    intro i hi1 hi19 hvis' ht
    have hilvl : lvl i ≤ MAX_ORDER := by
      have := lvl_lt_of_lt_pow hi1 hi19
      rw [MAX18, LEVEL19] at *
      omega
    by_cases hanc : ∃ u, 1 ≤ u ∧ u ≤ MAX_ORDER - d ∧
        i = (descend t d (MAX_ORDER - d) 0 0 1).2 / 2 ^ u
    · -- a rewritten ancestor: bounded through its children's `Bound`
      obtain ⟨u, hu1, hum, hieq⟩ := hanc
      have hB' := alloc_Bound hB h
      have hmaxe : t'.flat (i - 1) = Nat.max (t'.flat (2 * i - 1)) (t'.flat (2 * i)) := by
        rw [hft, hieq]
        exact propagate_maxEq (MAX_ORDER - d) _ _ hnf1 u hu1 hum
      have hc1 := hB' (2 * i) (by omega)
      have hc2 := hB' (2 * i + 1) (by omega)
      rw [lvl_two_mul hi1] at hc1
      rw [lvl_two_mul_add_one hi1] at hc2
      have e : 2 * i + 1 - 1 = 2 * i := by omega
      rw [e] at hc2
      rw [hmaxe]
      exact max_le (by omega) (by omega)
    · by_cases hn : i = (descend t d (MAX_ORDER - d) 0 0 1).2
      · rw [hft, hn, mark_prop_self hnf1]
        omega
      · have hna : ∀ u, 1 ≤ u → u ≤ MAX_ORDER - d →
            i ≠ (descend t d (MAX_ORDER - d) 0 0 1).2 / 2 ^ u :=
          fun u hu1 hu2 heq => hanc ⟨u, hu1, hu2, heq⟩
        have huntouched : t'.flat (i - 1) = t.flat (i - 1) := by
          rw [hft]
          exact mark_prop_untouched hnf1 hi1 hn hna
        rw [huntouched]
        obtain ⟨p, hpmem, hp1, hp2⟩ := ht
        rcases List.mem_append.mp hpmem with hpR | hpnew
        · -- the touched block is an old one: use the old invariant
          apply hW i hi1 hi19 ?_ ⟨p, hpR, hp1, hp2⟩
          intro w hw1 hwpos
          by_cases hy : i / 2 ^ w = (descend t d (MAX_ORDER - d) 0 0 1).2 ∨
              ∃ u, 1 ≤ u ∧ u ≤ MAX_ORDER - d ∧
                i / 2 ^ w = (descend t d (MAX_ORDER - d) 0 0 1).2 / 2 ^ u
          · rcases hy with hy | ⟨u, hu1, hum, hy⟩
            · rw [hy, hvtop]
              omega
            · rw [hy]
              have := hvals u hum
              omega
          · push_neg at hy
            have huy : t'.flat (i / 2 ^ w - 1) = t.flat (i / 2 ^ w - 1) := by
              rw [hft]
              exact mark_prop_untouched hnf1 hwpos hy.1 (fun u hu1 hu2 heq =>
                hy.2 u hu1 hu2 heq)
            rw [← huy]
            exact hvis' w hw1 hwpos
        · -- the touched block is the fresh one: `i` must be above or below the
          -- marked node, and both are impossible here
          exfalso
          have hpnp : p = (lo ((descend t d (MAX_ORDER - d) 0 0 1).2), d) :=
            List.mem_singleton.mp hpnew
          rw [hpnp] at hp1 hp2
          dsimp only at hp1 hp2
          rcases le_or_lt (lvl i) (MAX_ORDER - d) with hll | hll
          · have hieq := intersect_anc hi1 hnfpos (by omega)
              (by rw [hlvnf]; omega) (by omega) (by rw [hhinf]; omega)
            rw [hlvnf] at hieq
            rcases Nat.eq_or_lt_of_le hll with hle | hlt
            · rw [hle, Nat.sub_self, pow_zero, Nat.div_one] at hieq
              exact hn hieq
            · exact hna (MAX_ORDER - d - lvl i) (by omega) (by omega) hieq
          · have hnfeq := intersect_anc hnfpos hi1 (by rw [hlvnf]; omega)
              hilvl (by rw [hhinf]; omega) (by omega)
            rw [hlvnf] at hnfeq
            have hzero := hvis' (lvl i - (MAX_ORDER - d)) (by omega)
              (by rw [← hnfeq]; exact hnfpos)
            rw [← hnfeq, hft, mark_prop_self hnf1] at hzero
            exact hzero rfl
  · -- disjointness of the extended block list
    show List.Pairwise _ (R ++ [(lo ((descend t d (MAX_ORDER - d) 0 0 1).2), d)])
    rw [List.pairwise_append]
    refine ⟨hD, List.pairwise_singleton _ _, ?_⟩
    intro p hp q hq
    rw [List.mem_singleton] at hq
    rw [hq]
    exact hdisj p hp

theorem allocsOk_inv : ∀ (ds : List Nat) (t : Tree) (R : List (Nat × Nat)), BmInv t R →
    ∃ S : List (Nat × Nat),
      allocsOk t ds = S.map (fun p => (2 ^ BASE_ORDER * p.1, p.2)) ∧
      DisjBlocks (R ++ S) := by
  intro ds
  induction ds with
  | nil =>
    intro t R hInv
    exact ⟨[], rfl, by rw [List.append_nil]; exact hInv.2.2.2⟩
  | cons d ds ih =>
    intro t R hInv
    cases h : t.alloc_exact d with
    | none =>
      obtain ⟨S, hS, hD⟩ := ih t R hInv
      exact ⟨S, by simp only [allocsOk, h]; exact hS, hD⟩
    | some p =>
      obtain ⟨a, t'⟩ := p
      obtain ⟨ha, hInv'⟩ := BmInv_step hInv h
      obtain ⟨S, hS, hD⟩ := ih t' _ hInv'
      refine ⟨(lo ((descend t d (MAX_ORDER - d) 0 0 1).2), d) :: S, ?_, ?_⟩
      · simp only [allocsOk, h, List.map_cons]
        rw [ha, hS]
      · rw [List.append_assoc, List.singleton_append] at hD
        exact hD

/-- Across any sequence of `alloc_exact` calls on a fresh tree, the addresses
returned by the successful calls are pairwise distinct. -/
theorem allocsOk_pairwise_ne (ds : List Nat) :
    ((allocsOk Tree.new ds).map Prod.fst).Pairwise (fun a b => a ≠ b) := by
  obtain ⟨S, hS, hD⟩ := allocsOk_inv ds Tree.new [] BmInv_new
  rw [List.nil_append] at hD
  rw [hS, List.map_map]
  refine List.Pairwise.map _ ?_ hD
  intro p q hpq heq
  simp only [Function.comp_apply] at heq
  have h1 : (1 : Nat) ≤ 2 ^ p.2 := Nat.one_le_two_pow
  have h2 : (1 : Nat) ≤ 2 ^ q.2 := Nat.one_le_two_pow
  have h3 : p.1 = q.1 := Nat.eq_of_mul_eq_mul_left (by positivity) heq
  rcases hpq with h | h <;> omega

theorem descendAccesses_bound (t : Tree) (d : Nat) :
    ∀ steps ni e, ni < 2 ^ e →
      ∀ b ∈ descendAccesses t d steps ni, b < 2 ^ (steps + e) - 1 := by
  intro steps
  induction steps with
  | zero => intro ni e _ b hb; exact absurd hb (List.not_mem_nil b)
  | succ s ih =>
    intro ni e h2 b hb
    rw [descendAccesses] at hb
    have hpe : (2 : Nat) ^ (e + 1) = 2 * 2 ^ e := by rw [pow_succ]; ring
    have hmono : (2 : Nat) ^ (e + 1) ≤ 2 ^ (s + 1 + e) :=
      Nat.pow_le_pow_right (by norm_num) (by omega)
    have heq : s + (e + 1) = s + 1 + e := by omega
    rcases List.mem_cons.mp hb with hb | hb
    · subst hb; omega
    · split at hb
      · have hx := ih (2 * ni) (e + 1) (by omega) b hb
        rwa [heq] at hx
      · have hx := ih (2 * ni + 1) (e + 1) (by omega) b hb
        rwa [heq] at hx

theorem propagateAccesses_bound :
    ∀ steps ni, ni < 2 ^ LEVEL_COUNT →
      ∀ b ∈ propagateAccesses steps ni, b < 2 ^ LEVEL_COUNT - 1 := by
  intro steps
  induction steps with
  | zero => intro ni _ b hb; exact absurd hb (List.not_mem_nil b)
  | succ s ih =>
    intro ni h2 b hb
    rw [propagateAccesses] at hb
    have hp := pow_LEVEL
    rcases List.mem_cons.mp hb with hb | hb
    · subst hb; omega
    rcases List.mem_cons.mp hb with hb | hb
    · subst hb; omega
    rcases List.mem_cons.mp hb with hb | hb
    · subst hb; omega
    · exact ih (ni / 2) (by omega) b hb

/-- Every flat-array index touched by `alloc_exact` is in bounds for the
`2^LEVEL_COUNT - 1` cells of the tree, so the debug assertion in
`block` / `block_mut` holds. -/
theorem allocAccesses_bound (t : Tree) (d : Nat) :
    ∀ b ∈ t.allocAccesses d, b < 2 ^ LEVEL_COUNT - 1 := by
  intro b hb
  simp only [Tree.allocAccesses] at hb
  have hp := pow_LEVEL
  have h18 := MAX18
  have h19 := LEVEL19
  split at hb
  · rcases List.mem_cons.mp hb with hb | hb
    · subst hb; omega
    · exact absurd hb (List.not_mem_nil b)
  · have hps : (2 : Nat) ^ (MAX_ORDER - d + 1) = 2 * 2 ^ (MAX_ORDER - d) := by
      rw [pow_succ]; ring
    have hmono : (2 : Nat) ^ (MAX_ORDER - d + 1) ≤ 2 ^ LEVEL_COUNT :=
      Nat.pow_le_pow_right (by norm_num) (by omega)
    have hnb := (descend_ni_bounds t d (MAX_ORDER - d) 0 0 1).2
    rcases List.mem_cons.mp hb with hb | hb
    · subst hb; omega
    rcases List.mem_append.mp hb with hb | hb
    · have hx := descendAccesses_bound t d (MAX_ORDER - d) 1 1 (by norm_num) b hb
      have hmono2 : (2 : Nat) ^ (MAX_ORDER - d + 1) ≤ 2 ^ LEVEL_COUNT :=
        Nat.pow_le_pow_right (by norm_num) (by omega)
      omega
    rcases List.mem_cons.mp hb with hb | hb
    · subst hb; omega
    · exact propagateAccesses_bound (MAX_ORDER - d) _ (by omega) b hb

end BuddyBitmap

/-! ## Generic list lemmas

Helper facts about `List.get?`, `List.set`, `List.eraseIdx` and `List.append`
used by the embeddings of the list-based and tree-based allocator variants. -/
theorem get?_set_self {α : Type} :
    ∀ (l : List α) (i : Nat) (a b : α), l.get? i = some b → (l.set i a).get? i = some a := by
  intro l
  induction l with
  | nil => intro i a b h; simp [List.get?] at h
  | cons c cs ih =>
    intro i a b h
    cases i with
    | zero => simp [List.set]
    | succ j => simpa [List.set] using ih j a b (by simpa using h)

theorem get?_set_other {α : Type} :
    ∀ (l : List α) (i j : Nat) (a : α), i ≠ j → (l.set i a).get? j = l.get? j := by
  intro l
  induction l with
  | nil => intro i j a _; simp [List.set]
  | cons c cs ih =>
    intro i j a hne
    cases i with
    | zero =>
      cases j with
      | zero => exact absurd rfl hne
      | succ m => simp [List.set]
    | succ i' =>
      cases j with
      | zero => simp [List.set]
      | succ m => simpa [List.set] using ih i' m a (by omega)

theorem get?_eraseIdx_lt {α : Type} :
    ∀ (l : List α) (i j : Nat), j < i → (l.eraseIdx i).get? j = l.get? j := by
  intro l
  induction l with
  | nil => intro i j _; simp [List.eraseIdx]
  | cons c cs ih =>
    intro i j hj
    cases i with
    | zero => omega
    | succ i' =>
      cases j with
      | zero => simp [List.eraseIdx]
      | succ m => simpa [List.eraseIdx] using ih i' m (by omega)

theorem get?_eraseIdx_ge {α : Type} :
    ∀ (l : List α) (i j : Nat) (b : α), l.get? i = some b → i ≤ j →
      (l.eraseIdx i).get? j = l.get? (j + 1) := by
  intro l
  induction l with
  | nil => intro i j b h _; simp [List.get?] at h
  | cons c cs ih =>
    intro i j b h hij
    cases i with
    | zero => simp [List.eraseIdx]
    | succ i' =>
      cases j with
      | zero => omega
      | succ m => simpa [List.eraseIdx] using ih i' m b (by simpa using h) (by omega)

theorem get?_mem_of_some {α : Type} :
    ∀ (l : List α) (i : Nat) (a : α), l.get? i = some a → a ∈ l := by
  intro l
  induction l with
  | nil => intro i a h; simp [List.get?] at h
  | cons c cs ih =>
    intro i a h
    cases i with
    | zero => simp at h; simp [h]
    | succ j => exact List.mem_cons_of_mem c (ih j a (by simpa using h))

theorem mem_exists_get? {α : Type} :
    ∀ (l : List α) (a : α), a ∈ l → ∃ i, l.get? i = some a := by
  intro l
  induction l with
  | nil => intro a h; exact absurd h (List.not_mem_nil a)
  | cons c cs ih =>
    intro a h
    rcases List.mem_cons.mp h with h | h
    · exact ⟨0, by simp [h]⟩
    · obtain ⟨i, hi⟩ := ih a h
      exact ⟨i + 1, by simpa using hi⟩

theorem get?_append_lt {α : Type} :
    ∀ (l l' : List α) (j : Nat), j < l.length → (l ++ l').get? j = l.get? j := by
  intro l
  induction l with
  | nil => intro l' j h; simp at h
  | cons c cs ih =>
    intro l' j h
    cases j with
    | zero => simp
    | succ m => simpa using ih l' m (by simpa using h)

theorem get?_append_ge {α : Type} :
    ∀ (l l' : List α) (j : Nat), l.length ≤ j → (l ++ l').get? j = l'.get? (j - l.length) := by
  intro l
  induction l with
  | nil => intro l' j _; simp
  | cons c cs ih =>
    intro l' j h
    cases j with
    | zero => simp at h
    | succ m =>
      have e : m + 1 - (c :: cs).length = m - cs.length := by simp
      rw [e]
      simpa using ih l' m (by simpa using h)

theorem eraseIdx_mem {α : Type} :
    ∀ (l : List α) (i : Nat) (a : α), a ∈ l.eraseIdx i → a ∈ l := by
  intro l
  induction l with
  | nil => intro i a h; simpa [List.eraseIdx] using h
  | cons c cs ih =>
    intro i a h
    cases i with
    | zero =>
      simp only [List.eraseIdx] at h
      exact List.mem_cons_of_mem c h
    | succ i' =>
      simp only [List.eraseIdx] at h
      rcases List.mem_cons.mp h with h | h
      · simp [h]
      · exact List.mem_cons_of_mem c (ih i' a h)

namespace BuddyLists

theorem Preserv_trans {a b c : BuddyAllocator} (h1 : Preserv a b) (h2 : Preserv b c) :
    Preserv a c :=
  fun k x hx hu => h2 k x (h1 k x hx hu) hu

theorem position_spec {p : Block → Bool} :
    ∀ (l : List Block) (i : Nat), position p l = some i →
      ∃ b, l.get? i = some b ∧ p b = true := by
  intro l
  induction l with
  | nil => intro i h; simp [position] at h
  | cons c cs ih =>
    intro i h
    by_cases hc : p c
    · simp [position, hc] at h
      exact ⟨c, by simp [← h], hc⟩
    · simp only [position, if_neg hc, Option.map_eq_some'] at h
      obtain ⟨j, hj, hji⟩ := h
      obtain ⟨b, hb, hpb⟩ := ih j hj
      exact ⟨b, by simpa [← hji] using hb, hpb⟩

/-- Where every record of the post-`split` lists array comes from: it is the
first new buddy, the second new buddy, or a record of the original state at an
explicitly shifted position (never the split victim `(K, i)` itself). -/
theorem splitLists_get {al : BuddyAllocator} {K i : Nat} {b : Block}
    (hget : (al.lists K).get? i = some b) (hK : 0 < K) (f s : Block) :
    ∀ k j c, ((updL (updL al.lists K ((al.lists K).eraseIdx i)) (K - 1)
        (al.lists (K - 1) ++ [f, s])) k).get? j = some c →
      (k = K - 1 ∧ j = (al.lists (K - 1)).length ∧ c = f) ∨
      (k = K - 1 ∧ j = (al.lists (K - 1)).length + 1 ∧ c = s) ∨
      ((al.lists k).get? (if k = K ∧ i ≤ j then j + 1 else j) = some c ∧
        ¬(k = K ∧ (if k = K ∧ i ≤ j then j + 1 else j) = i)) := by
  intro k j c h
  simp only [updL] at h
  by_cases hk1 : k = K - 1
  · rw [if_pos hk1] at h
    have hkK : ¬(k = K) := by omega
    by_cases hlen : j < (al.lists (K - 1)).length
    · rw [get?_append_lt _ _ _ hlen] at h
      refine Or.inr (Or.inr ⟨?_, ?_⟩)
      · rw [if_neg (by tauto)]
        rw [hk1]; exact h
      · tauto
    · rw [get?_append_ge _ _ _ (by omega)] at h
      rcases hd : j - (al.lists (K - 1)).length with _ | m
      · rw [hd] at h
        simp at h
        exact Or.inl ⟨hk1, by omega, h.symm⟩
      · rcases m with _ | m'
        · rw [hd] at h
          simp at h
          exact Or.inr (Or.inl ⟨hk1, by omega, h.symm⟩)
        · rw [hd] at h
          simp [List.get?] at h
  · rw [if_neg hk1] at h
    by_cases hk2 : k = K
    · rw [if_pos hk2] at h
      by_cases hji : j < i
      · rw [get?_eraseIdx_lt _ _ _ hji] at h
        refine Or.inr (Or.inr ⟨?_, ?_⟩)
        · rw [if_neg (by omega)]
          rw [hk2]; exact h
        · rw [if_neg (by omega)]; omega
      · rw [get?_eraseIdx_ge _ _ _ _ hget (by omega)] at h
        refine Or.inr (Or.inr ⟨?_, ?_⟩)
        · rw [if_pos ⟨hk2, by omega⟩]
          rw [hk2]; exact h
        · rw [if_pos ⟨hk2, by omega⟩]; omega
    · rw [if_neg hk2] at h
      refine Or.inr (Or.inr ⟨?_, by tauto⟩)
      rw [if_neg (by tauto)]
      exact h

theorem split_OrderOK {al : BuddyAllocator} (hOK : OrderOK al) {K i : Nat} {b : Block}
    (hK : 0 < K) :
    OrderOK ⟨updL (updL al.lists K ((al.lists K).eraseIdx i)) (K - 1)
      (al.lists (K - 1) ++
        [⟨b.begin_address, K - 1, BlockState.Free⟩,
         ⟨b.begin_address + 2 ^ (K - 1 + BASE_ORDER), K - 1, BlockState.Free⟩])⟩ := by
  intro k c hc
  simp only [updL] at hc
  by_cases hk1 : k = K - 1
  · rw [if_pos hk1] at hc
    rcases List.mem_append.mp hc with hc | hc
    · rw [hOK (K - 1) c hc, hk1]
    · rcases List.mem_cons.mp hc with hc | hc
      · rw [hc, hk1]
      · rcases List.mem_cons.mp hc with hc | hc
        · rw [hc, hk1]
        · exact absurd hc (List.not_mem_nil c)
  · rw [if_neg hk1] at hc
    by_cases hk2 : k = K
    · rw [if_pos hk2] at hc
      rw [hOK K c (eraseIdx_mem _ _ _ hc), hk2]
    · rw [if_neg hk2] at hc
      exact hOK k c hc

theorem split_Preserv {al : BuddyAllocator} {K i : Nat} {b : Block}
    (hget : (al.lists K).get? i = some b) (hfree : b.state = BlockState.Free)
    (hK : 0 < K) (f s : Block) :
    Preserv al ⟨updL (updL al.lists K ((al.lists K).eraseIdx i)) (K - 1)
      (al.lists (K - 1) ++ [f, s])⟩ := by
  intro k c hc hcu
  simp only [updL]
  by_cases hk1 : k = K - 1
  · rw [if_pos hk1]
    exact List.mem_append_left _ (hk1 ▸ hc)
  · rw [if_neg hk1]
    by_cases hk2 : k = K
    · rw [if_pos hk2]
      subst hk2
      obtain ⟨j, hj⟩ := mem_exists_get? _ _ hc
      by_cases hji : j < i
      · exact get?_mem_of_some _ _ _ ((get?_eraseIdx_lt _ _ _ hji).trans hj)
      · by_cases hje : j = i
        · rw [hje, hget] at hj
          rw [← Option.some_inj.mp hj] at hcu
          rw [hfree] at hcu
          exact absurd hcu (by simp)
        · have hij : i ≤ j - 1 := by omega
          have he : j - 1 + 1 = j := by omega
          refine get?_mem_of_some _ (j - 1) _ ?_
          rw [get?_eraseIdx_ge _ _ _ _ hget hij, he]
          exact hj
    · rw [if_neg hk2]
      exact hc

theorem split_DisjL {al : BuddyAllocator} (hOK : OrderOK al) (hD : DisjL al)
    {K i : Nat} {b : Block} (hget : (al.lists K).get? i = some b) (hK : 0 < K) :
    DisjL ⟨updL (updL al.lists K ((al.lists K).eraseIdx i)) (K - 1)
      (al.lists (K - 1) ++
        [⟨b.begin_address, K - 1, BlockState.Free⟩,
         ⟨b.begin_address + 2 ^ (K - 1 + BASE_ORDER), K - 1, BlockState.Free⟩])⟩ := by
  have hbo : b.order = K := hOK K b (get?_mem_of_some _ _ _ hget)
  have hpow : (2 : Nat) ^ (BASE_ORDER + K) = 2 ^ (BASE_ORDER + (K - 1)) * 2 := by
    have e : BASE_ORDER + K = (BASE_ORDER + (K - 1)) + 1 := by omega
    rw [e, pow_succ]
  have hpe : (2 : Nat) ^ (K - 1 + BASE_ORDER) = 2 ^ (BASE_ORDER + (K - 1)) := by
    have e : K - 1 + BASE_ORDER = BASE_ORDER + (K - 1) := by omega
    rw [e]
  have hvsb : ∀ (c : Block) (k j : Nat), (al.lists k).get? j = some c →
      ¬(k = K ∧ j = i) → NoOv c b := by
    intro c k j h hne
    exact hD k j K i c b h hget hne
  intro k1 i1 k2 i2 b1 b2 h1 h2 hne
  rcases splitLists_get hget hK _ _ k1 i1 b1 h1 with ⟨hk1, hj1, hc1⟩ | ⟨hk1, hj1, hc1⟩ |
    ⟨hold1, hni1⟩ <;>
    rcases splitLists_get hget hK _ _ k2 i2 b2 h2 with ⟨hk2, hj2, hc2⟩ | ⟨hk2, hj2, hc2⟩ |
      ⟨hold2, hni2⟩
  · exact absurd ⟨hk1.trans hk2.symm, hj1.trans hj2.symm⟩ hne
  · subst hc1; subst hc2
    simp only [NoOv]
    omega
  · have hno := hvsb b2 k2 _ hold2 (by tauto)
    subst hc1
    simp only [NoOv] at hno ⊢
    rw [hbo] at hno
    omega
  · subst hc1; subst hc2
    simp only [NoOv]
    omega
  · exact absurd ⟨hk1.trans hk2.symm, hj1.trans hj2.symm⟩ hne
  · have hno := hvsb b2 k2 _ hold2 (by tauto)
    subst hc1
    simp only [NoOv] at hno ⊢
    rw [hbo] at hno
    omega
  · have hno := hvsb b1 k1 _ hold1 (by tauto)
    subst hc2
    simp only [NoOv] at hno ⊢
    rw [hbo] at hno
    omega
  · have hno := hvsb b1 k1 _ hold1 (by tauto)
    subst hc2
    simp only [NoOv] at hno ⊢
    rw [hbo] at hno
    omega
  · refine hD k1 _ k2 _ b1 b2 hold1 hold2 ?_
    rintro ⟨hkk, hmm⟩
    refine hne ⟨hkk, ?_⟩
    subst hkk
    split_ifs at hmm <;> omega

/-- Full specification of a successful `split`: the computed result, the exact
shape of the new lists array, and preservation of the invariants. -/
theorem split_spec {al : BuddyAllocator} (hOK : OrderOK al) (hD : DisjL al)
    {K i : Nat} {b : Block} (hget : (al.lists K).get? i = some b)
    (hfree : b.state = BlockState.Free) (hK : 0 < K) :
    ∃ al', al.split ⟨K, i⟩ = some (Except.ok (⟨K - 1, (al.lists (K - 1)).length⟩, al')) ∧
      al'.lists = updL (updL al.lists K ((al.lists K).eraseIdx i)) (K - 1)
        (al.lists (K - 1) ++
          [⟨b.begin_address, K - 1, BlockState.Free⟩,
           ⟨b.begin_address + 2 ^ (K - 1 + BASE_ORDER), K - 1, BlockState.Free⟩]) ∧
      OrderOK al' ∧ DisjL al' ∧ Preserv al al' := by
  have hbo : b.order = K := hOK K b (get?_mem_of_some _ _ _ hget)
  have hne1 : ¬(K - 1 = K) := by omega
  refine ⟨⟨updL (updL al.lists K ((al.lists K).eraseIdx i)) (K - 1)
      (al.lists (K - 1) ++
        [⟨b.begin_address, K - 1, BlockState.Free⟩,
         ⟨b.begin_address + 2 ^ (K - 1 + BASE_ORDER), K - 1, BlockState.Free⟩])⟩,
    ?_, rfl, split_OrderOK hOK hK, split_DisjL hOK hD hget hK,
    split_Preserv hget hfree hK _ _⟩
  show BuddyAllocator.split _ _ = _
  rw [BuddyAllocator.split]
  simp only [BuddyAllocator.get]
  rw [hget]
  simp only [hbo]
  rw [if_neg (by rw [hfree]; simp), if_neg (by omega)]
  simp only [updL, if_pos rfl, if_neg hne1, if_true]
  simp [List.length_append]

theorem get?_set_at {α : Type} :
    ∀ (l : List α) (i : Nat) (a c : α), (l.set i a).get? i = some c →
      c = a ∧ ∃ b, l.get? i = some b := by
  intro l
  induction l with
  | nil => intro i a c h; simp [List.set] at h
  | cons d ds ih =>
    intro i a c h
    cases i with
    | zero =>
      simp [List.set] at h
      exact ⟨h.symm, d, rfl⟩
    | succ m =>
      simp only [List.set, List.get?] at h
      obtain ⟨hc, b, hb⟩ := ih m a c h
      exact ⟨hc, b, by simpa using hb⟩

theorem modify_spec {al : BuddyAllocator} {K i : Nat} {b : Block}
    (hget : (al.lists K).get? i = some b) (s : BlockState) :
    al.modify ⟨K, i⟩ s =
      some ⟨updL al.lists K ((al.lists K).set i ⟨b.begin_address, b.order, s⟩)⟩ := by
  rw [BuddyAllocator.modify]
  simp only [hget]

/-- Specification of `find_or_split` through its fuelled recursion: an error
leaves the allocator untouched, success preserves the invariants and hands
back a `Free` block of exactly the requested order at the returned index. -/
theorem findOrSplitAux_spec :
    ∀ (fuel : Nat) (al : BuddyAllocator) (order : Nat), OrderOK al → DisjL al →
      (∀ al' e, findOrSplitAux fuel al order = some (al', Except.error e) → al' = al) ∧
      (∀ al' bi, findOrSplitAux fuel al order = some (al', Except.ok bi) →
        OrderOK al' ∧ DisjL al' ∧ Preserv al al' ∧ bi.order = order ∧
        ∃ b, (al'.lists bi.order).get? bi.index = some b ∧
          b.state = BlockState.Free) := by
  intro fuel
  induction fuel with
  | zero =>
    intro al order _ _
    exact ⟨fun al' e h => by simp [findOrSplitAux] at h,
      fun al' bi h => by simp [findOrSplitAux] at h⟩
  | succ fl ih =>
    intro al order hOK hD
    constructor
    · intro al' e h
      rw [findOrSplitAux] at h
      by_cases hord : MAX_ORDER < order
      · rw [if_pos hord] at h; simp at h
      rw [if_neg hord] at h
      cases hpos : position (fun block => block.state == BlockState.Free)
          (al.lists order) with
      | some idx => rw [hpos] at h; simp at h
      | none =>
        rw [hpos] at h
        by_cases hmax : MAX_ORDER ≤ order
        · rw [if_pos hmax] at h
          simp at h
          exact h.1.symm
        · rw [if_neg hmax] at h
          cases hrec : findOrSplitAux fl al (order + 1) with
          | none => rw [hrec] at h; simp at h
          | some pr =>
            obtain ⟨al1, res⟩ := pr
            rw [hrec] at h
            cases res with
            | error e' =>
              simp at h
              rw [← h.1]
              exact (ih al (order + 1) hOK hD).1 al1 e' hrec
            | ok bi1 =>
              simp at h
              cases hsp : al1.split bi1 with
              | none => rw [hsp] at h; simp at h
              | some r =>
                cases r with
                | error e2 => rw [hsp] at h; simp at h
                | ok pr2 =>
                  obtain ⟨first, al2⟩ := pr2
                  rw [hsp] at h
                  simp at h
    · intro al' bi h
      rw [findOrSplitAux] at h
      by_cases hord : MAX_ORDER < order
      · rw [if_pos hord] at h; simp at h
      rw [if_neg hord] at h
      cases hpos : position (fun block => block.state == BlockState.Free)
          (al.lists order) with
      | some idx =>
        rw [hpos] at h
        simp at h
        obtain ⟨h1, h2⟩ := h
        subst h1
        obtain ⟨b, hb, hpb⟩ := position_spec _ _ hpos
        rw [← h2]
        exact ⟨hOK, hD, fun k c hc _ => hc, rfl, b, hb, eq_of_beq hpb⟩
      | none =>
        rw [hpos] at h
        by_cases hmax : MAX_ORDER ≤ order
        · rw [if_pos hmax] at h; simp at h
        · rw [if_neg hmax] at h
          cases hrec : findOrSplitAux fl al (order + 1) with
          | none => rw [hrec] at h; simp at h
          | some pr =>
            obtain ⟨al1, res⟩ := pr
            rw [hrec] at h
            cases res with
            | error e' => rw [show (al1, Except.error e') =
                ((al1, Except.error e') : BuddyAllocator ×
                  Except BlockAllocateError BlockIndex) from rfl] at h; simp at h
            | ok bi1 =>
              simp at h
              obtain ⟨hOK1, hD1, hP1, hbo1, b1, hb1, hfree1⟩ :=
                (ih al (order + 1) hOK hD).2 al1 bi1 hrec
              obtain ⟨ko, ii⟩ := bi1
              simp only at hb1 hbo1
              subst hbo1
              obtain ⟨al2, hsp, hlists2, hOK2, hD2, hP2⟩ :=
                split_spec hOK1 hD1 hb1 hfree1 (by omega)
              rw [hsp] at h
              simp at h
              obtain ⟨h1, h2⟩ := h
              subst h1
              rw [← h2]
              refine ⟨hOK2, hD2, Preserv_trans hP1 hP2, rfl, ?_⟩
              refine ⟨⟨b1.begin_address, order + 1 - 1, BlockState.Free⟩, ?_, rfl⟩
              show (al2.lists (order + 1 - 1)).get? (al1.lists (order + 1 - 1)).length =
                some ⟨b1.begin_address, order + 1 - 1, BlockState.Free⟩
              rw [hlists2]
              simp only [updL, if_pos rfl, if_true]
              rw [get?_append_ge _ _ _ (le_refl _)]
              simp

theorem allocate_error_spec {al : BuddyAllocator} (hOK : OrderOK al) (hD : DisjL al)
    {o : Nat} {al' : BuddyAllocator} {e : BlockAllocateError}
    (h : al.allocate_exact o = some (al', Except.error e)) : al' = al := by
  rw [BuddyAllocator.allocate_exact] at h
  by_cases ho : MAX_ORDER < o
  · rw [if_pos ho] at h
    simp at h
    exact h.1.symm
  · rw [if_neg ho] at h
    rw [BuddyAllocator.find_or_split] at h
    cases hf : findOrSplitAux (MAX_ORDER + 1 - o) al o with
    | none => rw [hf] at h; simp at h
    | some pr =>
      obtain ⟨al1, res⟩ := pr
      rw [hf] at h
      cases res with
      | error e' =>
        simp at h
        rw [← h.1]
        exact (findOrSplitAux_spec _ al o hOK hD).1 al1 e' hf
      | ok bi =>
        simp at h
        cases hm : al1.modify bi BlockState.Used with
        | none => rw [hm] at h; simp at h
        | some al2 => rw [hm] at h; simp at h

/-- Specification of a successful `allocate_exact`: the invariants persist,
every previously `Used` record survives, and the returned index holds a `Used`
record whose address differs from the address of every record that was already
`Used` before the call. -/
theorem allocate_ok_spec {al : BuddyAllocator} (hOK : OrderOK al) (hD : DisjL al)
    {o : Nat} {al'' : BuddyAllocator} {bi : BlockIndex}
    (h : al.allocate_exact o = some (al'', Except.ok bi)) :
    OrderOK al'' ∧ DisjL al'' ∧ Preserv al al'' ∧
    ∃ b, (al''.lists bi.order).get? bi.index = some b ∧
      b.state = BlockState.Used ∧
      ∀ k c, c ∈ al.lists k → c.state = BlockState.Used →
        c.begin_address ≠ b.begin_address := by
  rw [BuddyAllocator.allocate_exact] at h
  by_cases ho : MAX_ORDER < o
  · rw [if_pos ho] at h; simp at h
  rw [if_neg ho] at h
  rw [BuddyAllocator.find_or_split] at h
  cases hf : findOrSplitAux (MAX_ORDER + 1 - o) al o with
  | none => rw [hf] at h; simp at h
  | some pr =>
    obtain ⟨al1, res⟩ := pr
    rw [hf] at h
    cases res with
    | error e' => rw [show (al1, Except.error e') =
        ((al1, Except.error e') : BuddyAllocator ×
          Except BlockAllocateError BlockIndex) from rfl] at h; simp at h
    | ok bi1 =>
      simp at h
      obtain ⟨hOK1, hD1, hP1, hbo1, b1, hb1, hfree1⟩ :=
        (findOrSplitAux_spec _ al o hOK hD).2 al1 bi1 hf
      obtain ⟨ko, ii⟩ := bi1
      simp only at hb1 hbo1
      rw [modify_spec hb1 BlockState.Used] at h
      simp at h
      obtain ⟨h1, h2⟩ := h
      subst h1
      rw [← h2]
      simp only
      have hol : b1.order = ko := hOK1 ko b1 (get?_mem_of_some _ _ _ hb1)
      have hmap : ∀ k j c,
          ((updL al1.lists ko ((al1.lists ko).set ii
            ⟨b1.begin_address, b1.order, BlockState.Used⟩)) k).get? j = some c →
          ∃ c', (al1.lists k).get? j = some c' ∧
            c.begin_address = c'.begin_address ∧ c.order = c'.order := by
        intro k j c hc
        simp only [updL] at hc
        by_cases hk : k = ko
        · rw [if_pos hk] at hc
          by_cases hj : j = ii
          · subst hj
            obtain ⟨hca, b0, hb0⟩ := get?_set_at _ _ _ _ hc
            have hbb : b0 = b1 := Option.some_inj.mp (hb0.symm.trans hb1)
            refine ⟨b0, ?_, ?_, ?_⟩
            · rw [hk]; exact hb0
            · simp [hca, hbb]
            · simp [hca, hbb]
          · rw [get?_set_other _ _ _ _ (fun hh => hj hh.symm)] at hc
            rw [hk]
            exact ⟨c, hc, rfl, rfl⟩
        · rw [if_neg hk] at hc
          exact ⟨c, hc, rfl, rfl⟩
      refine ⟨?_, ?_, ?_, ?_⟩
      · intro k c hc
        obtain ⟨j, hj⟩ := mem_exists_get? _ _ hc
        obtain ⟨c', hc', ha, hoo⟩ := hmap k j c hj
        rw [hoo]
        exact hOK1 k c' (get?_mem_of_some _ _ _ hc')
      · intro k1 i1 k2 i2 c1 c2 h1 h2 hne
        obtain ⟨c1', hc1', ha1, ho1⟩ := hmap k1 i1 c1 h1
        obtain ⟨c2', hc2', ha2, ho2⟩ := hmap k2 i2 c2 h2
        have hno := hD1 k1 i1 k2 i2 c1' c2' hc1' hc2' hne
        simp only [NoOv] at hno ⊢
        rw [ha1, ha2, ho1, ho2]
        exact hno
      · refine Preserv_trans hP1 ?_
        intro k c hc hcu
        obtain ⟨j, hj⟩ := mem_exists_get? _ _ hc
        simp only [updL]
        by_cases hk : k = ko
        · rw [if_pos hk]
          by_cases hj2 : j = ii
          · exfalso
            rw [hk, hj2, hb1] at hj
            rw [← Option.some_inj.mp hj, hfree1] at hcu
            simp at hcu
          · refine get?_mem_of_some _ j _ ?_
            rw [get?_set_other _ _ _ _ (fun hh => hj2 hh.symm), ← hk]
            exact hj
        · rw [if_neg hk]
          exact hc
      · refine ⟨⟨b1.begin_address, b1.order, BlockState.Used⟩, ?_, rfl, ?_⟩
        · simp only [updL, if_pos rfl]
          exact get?_set_self _ _ _ _ hb1
        · intro k c hc hcu heq
          have hc1 : c ∈ al1.lists k := hP1 k c hc hcu
          obtain ⟨j, hj⟩ := mem_exists_get? _ _ hc1
          by_cases hpos2 : k = ko ∧ j = ii
          · rw [hpos2.1, hpos2.2, hb1] at hj
            rw [← Option.some_inj.mp hj, hfree1] at hcu
            simp at hcu
          · have hno := hD1 k j ko ii c b1 hj hb1 hpos2
            simp only [NoOv] at hno
            simp only at heq
            have p1 : (1 : Nat) ≤ 2 ^ (BASE_ORDER + c.order) := Nat.one_le_two_pow
            have p2 : (1 : Nat) ≤ 2 ^ (BASE_ORDER + b1.order) := Nat.one_le_two_pow
            omega

theorem allocsOkL_aux : ∀ (ds : List Nat) (al : BuddyAllocator) (R : List Nat),
    OrderOK al → DisjL al → UsedAddrs al R → R.Pairwise (fun a b => a ≠ b) →
    (R ++ allocsOkL al ds).Pairwise (fun a b => a ≠ b) := by
  intro ds
  induction ds with
  | nil =>
    intro al R _ _ _ hR
    simpa [allocsOkL] using hR
  | cons d ds ih =>
    intro al R hOK hD hU hR
    cases ha : al.allocate_exact d with
    | none =>
      have hrun : allocsOkL al (d :: ds) = [] := by
        simp [allocsOkL, ha]
      rw [hrun]
      simpa using hR
    | some pr =>
      obtain ⟨al', res⟩ := pr
      cases res with
      | error e =>
        have heq : al' = al := allocate_error_spec hOK hD ha
        have hrun : allocsOkL al (d :: ds) = allocsOkL al' ds := by
          simp [allocsOkL, ha]
        rw [hrun, heq]
        exact ih al R hOK hD hU hR
      | ok bi =>
        obtain ⟨hOK2, hD2, hP2, b, hb, hbu, hdist⟩ := allocate_ok_spec hOK hD ha
        have hget' : al'.get bi = some b := hb
        have hrun : allocsOkL al (d :: ds) = b.begin_address :: allocsOkL al' ds := by
          simp [allocsOkL, ha, hget']
        rw [hrun]
        have hU' : UsedAddrs al' (R ++ [b.begin_address]) := by
          intro r hr
          rcases List.mem_append.mp hr with hr | hr
          · obtain ⟨k, c, hc, hcu, hca⟩ := hU r hr
            exact ⟨k, c, hP2 k c hc hcu, hcu, hca⟩
          · rcases List.mem_cons.mp hr with hr | hr
            · exact ⟨bi.order, b, get?_mem_of_some _ _ _ hb, hbu, hr.symm⟩
            · exact absurd hr (List.not_mem_nil r)
        have hR' : (R ++ [b.begin_address]).Pairwise (fun a c => a ≠ c) := by
          rw [List.pairwise_append]
          refine ⟨hR, List.pairwise_singleton _ _, ?_⟩
          intro r hr y hy
          rcases List.mem_cons.mp hy with hy | hy
          · obtain ⟨k, c, hc, hcu, hca⟩ := hU r hr
            rw [hy, ← hca]
            exact hdist k c hc hcu
          · exact absurd hy (List.not_mem_nil y)
        have := ih al' (R ++ [b.begin_address]) hOK2 hD2 hU' hR'
        rw [List.append_assoc, List.singleton_append] at this
        exact this

theorem create_top_OrderOK {al : BuddyAllocator} (hOK : OrderOK al) (x : Nat) :
    OrderOK (al.create_top_level x) := by
  intro k c hc
  simp only [BuddyAllocator.create_top_level, updL] at hc
  by_cases hk : k = MAX_ORDER
  · rw [if_pos hk] at hc
    rcases List.mem_append.mp hc with hc | hc
    · rw [hOK MAX_ORDER c hc, hk]
    · rcases List.mem_cons.mp hc with hc | hc
      · rw [hc, hk]
      · exact absurd hc (List.not_mem_nil c)
  · rw [if_neg hk] at hc
    exact hOK k c hc

theorem create_top_DisjL {al : BuddyAllocator} (hD : DisjL al) {x : Nat}
    (hFr : ∀ k c, c ∈ al.lists k → NoOv c ⟨x, MAX_ORDER, BlockState.Free⟩) :
    DisjL (al.create_top_level x) := by
  have hchar : ∀ k j c, ((al.create_top_level x).lists k).get? j = some c →
      (k = MAX_ORDER ∧ j = (al.lists MAX_ORDER).length ∧
        c = ⟨x, MAX_ORDER, BlockState.Free⟩) ∨
      ((al.lists k).get? j = some c) := by
    intro k j c hc
    simp only [BuddyAllocator.create_top_level, updL] at hc
    by_cases hk : k = MAX_ORDER
    · rw [if_pos hk] at hc
      by_cases hl : j < (al.lists MAX_ORDER).length
      · right
        rw [get?_append_lt _ _ _ hl] at hc
        rw [hk]
        exact hc
      · rw [get?_append_ge _ _ _ (by omega)] at hc
        rcases hd : j - (al.lists MAX_ORDER).length with _ | m
        · rw [hd] at hc
          simp at hc
          exact Or.inl ⟨hk, by omega, hc.symm⟩
        · rw [hd] at hc
          simp [List.get?] at hc
    · right
      rw [if_neg hk] at hc
      exact hc
  intro k1 i1 k2 i2 b1 b2 h1 h2 hne
  rcases hchar k1 i1 b1 h1 with ⟨hk1, hj1, hc1⟩ | hold1 <;>
    rcases hchar k2 i2 b2 h2 with ⟨hk2, hj2, hc2⟩ | hold2
  · exact absurd ⟨hk1.trans hk2.symm, hj1.trans hj2.symm⟩ hne
  · subst hc1
    have hno := hFr k2 b2 (get?_mem_of_some _ _ _ hold2)
    simp only [NoOv] at hno ⊢
    omega
  · subst hc2
    have hno := hFr k1 b1 (get?_mem_of_some _ _ _ hold1)
    simp only [NoOv] at hno ⊢
    omega
  · exact hD k1 i1 k2 i2 b1 b2 hold1 hold2 hne

theorem create_top_mem {al : BuddyAllocator} {x : Nat} {k : Nat} {c : Block}
    (hc : c ∈ (al.create_top_level x).lists k) :
    c ∈ al.lists k ∨ (k = MAX_ORDER ∧ c = ⟨x, MAX_ORDER, BlockState.Free⟩) := by
  simp only [BuddyAllocator.create_top_level, updL] at hc
  by_cases hk : k = MAX_ORDER
  · rw [if_pos hk] at hc
    rcases List.mem_append.mp hc with hc | hc
    · left; rw [hk]; exact hc
    · rcases List.mem_cons.mp hc with hc | hc
      · exact Or.inr ⟨hk, hc⟩
      · exact absurd hc (List.not_mem_nil c)
  · rw [if_neg hk] at hc
    exact Or.inl hc

theorem registerAll_inv : ∀ (bases : List Nat) (al : BuddyAllocator),
    OrderOK al → DisjL al →
    (∀ x ∈ bases, ∀ k c, c ∈ al.lists k → NoOv c ⟨x, MAX_ORDER, BlockState.Free⟩) →
    bases.Pairwise (fun a b => a + 2 ^ MAX_ORDER_SIZE ≤ b ∨ b + 2 ^ MAX_ORDER_SIZE ≤ a) →
    OrderOK (registerAll al bases) ∧ DisjL (registerAll al bases) := by
  intro bases
  induction bases with
  | nil => intro al hOK hD _ _; exact ⟨hOK, hD⟩
  | cons x xs ih =>
    intro al hOK hD hFresh hPW
    have hstep : registerAll al (x :: xs) = registerAll (al.create_top_level x) xs := by
      simp [registerAll]
    rw [hstep]
    have hFrx : ∀ k c, c ∈ al.lists k → NoOv c ⟨x, MAX_ORDER, BlockState.Free⟩ :=
      fun k c hc => hFresh x (List.mem_cons_self x xs) k c hc
    have hMOS : (2 : Nat) ^ (BASE_ORDER + MAX_ORDER) = 2 ^ MAX_ORDER_SIZE := by
      rw [MAX_ORDER_SIZE]
    refine ih (al.create_top_level x) (create_top_OrderOK hOK x) (create_top_DisjL hD hFrx)
      ?_ (List.pairwise_cons.mp hPW).2
    intro y hy k c hc
    rcases create_top_mem hc with hc | ⟨hk, hc⟩
    · exact hFresh y (List.mem_cons_of_mem x hy) k c hc
    · subst hc
      have hxy := (List.pairwise_cons.mp hPW).1 y hy
      simp only [NoOv]
      omega

/-- Across any sequence of `allocate_exact` calls on an allocator freshly
registered over pairwise-disjoint top-level regions, the addresses returned by
the successful calls are pairwise distinct. -/
theorem allocsOkL_distinct (bases : List Nat)
    (hPW : bases.Pairwise
      (fun a b => a + 2 ^ MAX_ORDER_SIZE ≤ b ∨ b + 2 ^ MAX_ORDER_SIZE ≤ a))
    (ds : List Nat) :
    (allocsOkL (registerAll BuddyAllocator.new bases) ds).Pairwise
      (fun a b => a ≠ b) := by
  obtain ⟨hOK, hD⟩ := registerAll_inv bases BuddyAllocator.new
    (fun k b hb => absurd hb (List.not_mem_nil b))
    (fun k1 i1 k2 i2 b1 b2 h1 h2 _ => by simp [BuddyAllocator.new, List.get?] at h1)
    (fun y hy k c hc => absurd hc (List.not_mem_nil c)) hPW
  have hfin := allocsOkL_aux ds (registerAll BuddyAllocator.new bases) [] hOK hD
    (fun r hr => absurd hr (List.not_mem_nil r)) List.Pairwise.nil
  simpa using hfin

end BuddyLists

namespace BuddyRbTree

theorem noovb_symm {b c : Block} (h : NoOvB b c) : NoOvB c b := Or.symm h

theorem UsedPersist_trans {t1 t2 t3 : List Block}
    (h1 : UsedPersist t1 t2) (h2 : UsedPersist t2 t3) : UsedPersist t1 t3 :=
  fun b hb hu => h2 b (h1 b hb hu) hu

theorem addr_uniqueR {tr : List Block} (hD : TreeDisj tr) {b c : Block}
    (hb : b ∈ tr) (hc : c ∈ tr) (ha : b.address = c.address) : b = c := by
  by_cases he : b = c
  · exact he
  · have hno : NoOvB b c := hD.forall (fun x y h => noovb_symm h) hb hc he
    have p1 : (1 : Nat) ≤ 2 ^ (BASE_ORDER + b.order) := Nat.one_le_two_pow
    have p2 : (1 : Nat) ≤ 2 ^ (BASE_ORDER + c.order) := Nat.one_le_two_pow
    rcases hno with hno | hno <;> omega

theorem treeFind_spec {tr : List Block} {a : Nat} {b : Block}
    (h : treeFind tr a = some b) : b ∈ tr ∧ b.address = a := by
  rw [treeFind] at h
  have h1 := List.find?_some h
  exact ⟨List.mem_of_find?_eq_some h, by simpa using h1⟩

theorem treeFind_mem {tr : List Block} (hD : TreeDisj tr) {b : Block} (hb : b ∈ tr) :
    treeFind tr b.address = some b := by
  induction tr with
  | nil => exact absurd hb (List.not_mem_nil b)
  | cons c cs ih =>
    by_cases hca : c.address = b.address
    · have hc : c = b := addr_uniqueR hD (List.mem_cons_self c cs) hb hca
      rw [treeFind, List.find?_cons_of_pos _ (by simpa using hca)]
      rw [hc]
    · have hbcs : b ∈ cs := by
        rcases List.mem_cons.mp hb with h | h
        · exact absurd (by rw [h]) hca
        · exact h
      rw [treeFind, List.find?_cons_of_neg _ (by simpa using hca)]
      exact ih (List.pairwise_cons.mp hD).2 hbcs

theorem treeReplace_decomp {tr : List Block} (hD : TreeDisj tr) {P : Block}
    (hP : P ∈ tr) :
    ∃ l1 l2, tr = l1 ++ P :: l2 ∧ (∀ c ∈ l1, c.address ≠ P.address) ∧
      ∀ new, treeReplace tr P.address new = l1 ++ (new ++ l2) := by
  induction tr with
  | nil => exact absurd hP (List.not_mem_nil P)
  | cons c cs ih =>
    by_cases hca : c.address = P.address
    · have hc : c = P := addr_uniqueR hD (List.mem_cons_self c cs) hP hca
      refine ⟨[], cs, by rw [hc]; rfl, by simp, ?_⟩
      intro new
      rw [treeReplace]
      rw [if_pos (by simpa using hca)]
      simp
    · have hPcs : P ∈ cs := by
        rcases List.mem_cons.mp hP with h | h
        · exact absurd (by rw [h]) hca
        · exact h
      obtain ⟨l1, l2, he, hl1, hrep⟩ := ih (List.pairwise_cons.mp hD).2 hPcs
      refine ⟨c :: l1, l2, by rw [he]; rfl, ?_, ?_⟩
      · intro d hd
        rcases List.mem_cons.mp hd with hd | hd
        · rw [hd]; exact hca
        · exact hl1 d hd
      · intro new
        rw [treeReplace]
        rw [if_neg (by simpa using hca)]
        rw [hrep new]
        rfl

theorem mem_removeFirst : ∀ (l : List Nat) (p x : Nat), x ∈ removeFirst l p → x ∈ l := by
  intro l
  induction l with
  | nil => intro p x h; simpa [removeFirst] using h
  | cons a as ih =>
    intro p x h
    rw [removeFirst] at h
    by_cases hap : a = p
    · rw [if_pos hap] at h
      exact List.mem_cons_of_mem a h
    · rw [if_neg hap] at h
      rcases List.mem_cons.mp h with h | h
      · rw [h]; exact List.mem_cons_self a as
      · exact List.mem_cons_of_mem a (ih p x h)

theorem nodup_removeFirst : ∀ (l : List Nat) (p : Nat), l.Nodup → (removeFirst l p).Nodup := by
  intro l
  induction l with
  | nil => intro p _; simp [removeFirst]
  | cons a as ih =>
    intro p hnd
    rw [removeFirst]
    by_cases hap : a = p
    · rw [if_pos hap]
      exact (List.nodup_cons.mp hnd).2
    · rw [if_neg hap]
      refine List.nodup_cons.mpr ⟨?_, ih p (List.nodup_cons.mp hnd).2⟩
      intro hmem
      exact (List.nodup_cons.mp hnd).1 (mem_removeFirst as p a hmem)

theorem not_mem_removeFirst : ∀ (l : List Nat) (p : Nat), l.Nodup →
    p ∉ removeFirst l p := by
  intro l
  induction l with
  | nil => intro p _; simp [removeFirst]
  | cons a as ih =>
    intro p hnd
    rw [removeFirst]
    by_cases hap : a = p
    · rw [if_pos hap]
      rw [← hap]
      exact (List.nodup_cons.mp hnd).1
    · rw [if_neg hap]
      intro hmem
      rcases List.mem_cons.mp hmem with h | h
      · exact hap h.symm
      · exact ih p (List.nodup_cons.mp hnd).2 h

theorem mem_treeInsert {b d : Block} :
    ∀ tr : List Block, d ∈ treeInsert b tr → d = b ∨ d ∈ tr := by
  intro tr
  induction tr with
  | nil => intro h; simpa [treeInsert] using h
  | cons c cs ih =>
    intro h
    rw [treeInsert] at h
    by_cases hlt : b.address < c.address
    · rw [if_pos hlt] at h
      rcases List.mem_cons.mp h with h | h
      · exact Or.inl h
      · exact Or.inr h
    · rw [if_neg hlt] at h
      rcases List.mem_cons.mp h with h | h
      · exact Or.inr (by rw [h]; exact List.mem_cons_self c cs)
      · rcases ih h with h | h
        · exact Or.inl h
        · exact Or.inr (List.mem_cons_of_mem c h)

theorem mem_treeInsert_of_mem {b d : Block} :
    ∀ tr : List Block, d ∈ tr → d ∈ treeInsert b tr := by
  intro tr
  induction tr with
  | nil => intro h; exact absurd h (List.not_mem_nil d)
  | cons c cs ih =>
    intro h
    rw [treeInsert]
    by_cases hlt : b.address < c.address
    · rw [if_pos hlt]
      exact List.mem_cons_of_mem b h
    · rw [if_neg hlt]
      rcases List.mem_cons.mp h with h | h
      · rw [h]; exact List.mem_cons_self c _
      · exact List.mem_cons_of_mem c (ih h)

theorem self_mem_treeInsert (b : Block) :
    ∀ tr : List Block, b ∈ treeInsert b tr := by
  intro tr
  induction tr with
  | nil => simp [treeInsert]
  | cons c cs ih =>
    rw [treeInsert]
    by_cases hlt : b.address < c.address
    · rw [if_pos hlt]
      exact List.mem_cons_self b _
    · rw [if_neg hlt]
      exact List.mem_cons_of_mem c ih

theorem treeInsert_pairwise {tr : List Block} (hD : TreeDisj tr) {b : Block}
    (hb : ∀ c ∈ tr, NoOvB c b) : TreeDisj (treeInsert b tr) := by
  induction tr with
  | nil => simp [treeInsert, TreeDisj]
  | cons c cs ih =>
    rw [TreeDisj, treeInsert]
    by_cases hlt : b.address < c.address
    · rw [if_pos hlt]
      refine List.Pairwise.cons ?_ hD
      intro d hd
      exact noovb_symm (hb d hd)
    · rw [if_neg hlt]
      refine List.Pairwise.cons ?_
        (ih (List.pairwise_cons.mp hD).2
          (fun d hd => hb d (List.mem_cons_of_mem c hd)))
      intro d hd
      rcases mem_treeInsert _ hd with hd | hd
      · rw [hd]
        exact hb c (List.mem_cons_self c cs)
      · exact (List.pairwise_cons.mp hD).1 d hd

/-- Effect of `split` on the tree: the split block is replaced in place by its
two `Free` buddies of one order less; ranges stay disjoint, every other block
survives. -/
theorem splitTree_inv {tr : List Block} (hD : TreeDisj tr) {P : Block} (hP : P ∈ tr)
    (hused : P.used = false) (hord : 0 < P.order) :
    ∃ R, split tr P.address = some (Except.ok
        (R, P.address, P.address + 2 ^ (P.order - 1 + BASE_ORDER))) ∧
      TreeDisj R ∧ UsedPersist tr R ∧
      (⟨P.address, P.order - 1, false⟩ : Block) ∈ R ∧
      (⟨P.address + 2 ^ (P.order - 1 + BASE_ORDER), P.order - 1, false⟩ : Block) ∈ R ∧
      (∀ c ∈ tr, c ≠ P → c ∈ R) := by
  obtain ⟨l1, l2, he, hl1a, hrep⟩ := treeReplace_decomp hD hP
  have hpow : (2 : Nat) ^ (BASE_ORDER + P.order) =
      2 ^ (BASE_ORDER + (P.order - 1)) * 2 := by
    have e : BASE_ORDER + P.order = (BASE_ORDER + (P.order - 1)) + 1 := by omega
    rw [e, pow_succ]
  have hpe : (2 : Nat) ^ (P.order - 1 + BASE_ORDER) =
      2 ^ (BASE_ORDER + (P.order - 1)) := by
    have e : P.order - 1 + BASE_ORDER = BASE_ORDER + (P.order - 1) := by omega
    rw [e]
  have hDdec := hD
  rw [he] at hDdec
  obtain ⟨hDl1, hDP2, hcross⟩ := List.pairwise_append.mp hDdec
  obtain ⟨hPl2, hDl2⟩ := List.pairwise_cons.mp hDP2
  refine ⟨treeReplace tr P.address
      [⟨P.address, P.order - 1, false⟩,
       ⟨P.address + 2 ^ (P.order - 1 + BASE_ORDER), P.order - 1, false⟩], ?_, ?_, ?_, ?_, ?_, ?_⟩
  · rw [split, treeFind_mem hD hP]
    simp only [hused]
    rw [if_neg (by simp)]
    rw [if_neg (by omega)]
  · rw [hrep]
    rw [TreeDisj, List.pairwise_append]
    refine ⟨hDl1, ?_, ?_⟩
    · refine List.Pairwise.cons ?_ (List.Pairwise.cons ?_ hDl2)
      · intro d hd
        rcases List.mem_cons.mp hd with hd | hd
        · rw [hd]
          simp only [NoOvB]
          omega
        · have hno := hPl2 d hd
          simp only [NoOvB] at hno ⊢
          omega
      · intro d hd
        have hno := hPl2 d hd
        simp only [NoOvB] at hno ⊢
        omega
    · intro a ha b hb
      rcases List.mem_cons.mp hb with hb | hb
      · have hno := hcross a ha P (List.mem_cons_self P l2)
        rw [hb]
        simp only [NoOvB] at hno ⊢
        omega
      · rcases List.mem_cons.mp hb with hb | hb
        · have hno := hcross a ha P (List.mem_cons_self P l2)
          rw [hb]
          simp only [NoOvB] at hno ⊢
          omega
        · exact hcross a ha b (List.mem_cons_of_mem P hb)
  · intro c hc hcu
    rw [hrep]
    rw [he] at hc
    rcases List.mem_append.mp hc with hc | hc
    · exact List.mem_append_left _ hc
    · rcases List.mem_cons.mp hc with hc | hc
      · exfalso
        rw [hc] at hcu
        rw [hused] at hcu
        exact Bool.false_ne_true hcu
      · exact List.mem_append_right _ (List.mem_append_right _ hc)
  · rw [hrep]
    exact List.mem_append_right _ (List.mem_append_left _ (List.mem_cons_self _ _))
  · rw [hrep]
    exact List.mem_append_right _
      (List.mem_append_left _ (List.mem_cons_of_mem _ (List.mem_cons_self _ _)))
  · intro c hc hcP
    rw [hrep]
    rw [he] at hc
    rcases List.mem_append.mp hc with hc | hc
    · exact List.mem_append_left _ hc
    · rcases List.mem_cons.mp hc with hc | hc
      · exact absurd hc hcP
      · exact List.mem_append_right _ (List.mem_append_right _ hc)

/-- Specification of `find_or_split` through its fuelled recursion: an error
leaves both the tree and the free lists untouched, success preserves the
invariants, keeps every `Used` block alive and returns a pointer to a live
`Free` block of exactly the requested order. -/
theorem findOrSplitAuxR_spec :
    ∀ (fuel : Nat) (free : Nat → List Nat) (tree : List Block) (order : Nat),
      RbInv tree free →
      (∀ free' tree' e, findOrSplitAux fuel free tree order =
          some (free', tree', Except.error e) → free' = free ∧ tree' = tree) ∧
      (∀ free' tree' p, findOrSplitAux fuel free tree order =
          some (free', tree', Except.ok p) →
        RbInv tree' free' ∧ UsedPersist tree tree' ∧
        ∃ b ∈ tree', b.address = p ∧ b.order = order ∧ b.used = false) := by
  intro fuel
  induction fuel with
  | zero =>
    intro free tree order _
    exact ⟨fun _ _ _ h => by simp [findOrSplitAux] at h,
      fun _ _ _ h => by simp [findOrSplitAux] at h⟩
  | succ fl ih =>
    intro free tree order hInv
    obtain ⟨hTD, hFO, hND⟩ := hInv
    constructor
    · intro free' tree' e h
      rw [findOrSplitAux] at h
      by_cases hord : MAX_ORDER < order
      · rw [if_pos hord] at h; simp at h
      rw [if_neg hord] at h
      cases hfo : free order with
      | cons q rest => rw [hfo] at h; simp at h
      | nil =>
        rw [hfo] at h
        by_cases hmax : order = MAX_ORDER
        · rw [if_pos hmax] at h
          simp at h
          exact ⟨h.1.symm, h.2.1.symm⟩
        · rw [if_neg hmax] at h
          cases hrec : findOrSplitAux fl free tree (order + 1) with
          | none => rw [hrec] at h; simp at h
          | some tri =>
            obtain ⟨free1, tree1, res⟩ := tri
            rw [hrec] at h
            cases res with
            | error e1 =>
              simp at h
              obtain ⟨hf, ht, _⟩ := h
              obtain ⟨hq1, hq2⟩ :=
                (ih free tree (order + 1) ⟨hTD, hFO, hND⟩).1 free1 tree1 e1 hrec
              exact ⟨by rw [← hf, hq1], by rw [← ht, hq2]⟩
            | ok cur =>
              simp at h
              cases hsp : split tree1 cur with
              | none => rw [hsp] at h; simp at h
              | some r =>
                cases r with
                | error e2 => rw [hsp] at h; simp at h
                | ok trp =>
                  obtain ⟨tree2, p1, p2⟩ := trp
                  rw [hsp] at h
                  simp at h
    · intro free' tree' p h
      rw [findOrSplitAux] at h
      by_cases hord : MAX_ORDER < order
      · rw [if_pos hord] at h; simp at h
      rw [if_neg hord] at h
      cases hfo : free order with
      | cons q rest =>
        rw [hfo] at h
        simp at h
        obtain ⟨hf, ht, hp⟩ := h
        subst hf; subst ht; subst hp
        obtain ⟨b, hb, hba, hbo, hbu⟩ :=
          hFO order q (by rw [hfo]; exact List.mem_cons_self q rest)
        refine ⟨⟨hTD, ?_, ?_⟩, fun c hc _ => hc, b, hb, hba, hbo, hbu⟩
        · intro k q' hq'
          simp only [updF] at hq'
          by_cases hk : k = order
          · rw [if_pos hk] at hq'
            refine hFO k q' ?_
            rw [hk, hfo]
            exact List.mem_cons_of_mem q hq'
          · rw [if_neg hk] at hq'
            exact hFO k q' hq'
        · intro k
          simp only [updF]
          by_cases hk : k = order
          · rw [if_pos hk]
            have := hND order
            rw [hfo] at this
            exact (List.nodup_cons.mp this).2
          · rw [if_neg hk]
            exact hND k
      | nil =>
        rw [hfo] at h
        by_cases hmax : order = MAX_ORDER
        · rw [if_pos hmax] at h; simp at h
        · rw [if_neg hmax] at h
          cases hrec : findOrSplitAux fl free tree (order + 1) with
          | none => rw [hrec] at h; simp at h
          | some tri =>
            obtain ⟨free1, tree1, res⟩ := tri
            rw [hrec] at h
            cases res with
            | error e1 => simp at h
            | ok cur =>
              simp at h
              obtain ⟨hI1, hU1, P, hPmem, hPa, hPo, hPu⟩ :=
                (ih free tree (order + 1) ⟨hTD, hFO, hND⟩).2 free1 tree1 cur hrec
              obtain ⟨hTD1, hFO1, hND1⟩ := hI1
              obtain ⟨R, hspeq, hTDR, hUR, hfR, hsR, hkeep⟩ :=
                splitTree_inv hTD1 hPmem hPu (by omega)
              rw [hPa, hPo, Nat.add_sub_cancel] at hspeq hfR hsR
              rw [hspeq] at h
              simp at h
              obtain ⟨hf, ht, hp⟩ := h
              subst hf; subst ht; subst hp
              have hoo : ¬(order = order + 1) := by omega
              have hpow2 : (2 : Nat) ^ (BASE_ORDER + (order + 1)) =
                  2 ^ (BASE_ORDER + order) * 2 := by
                have e : BASE_ORDER + (order + 1) = (BASE_ORDER + order) + 1 := by omega
                rw [e, pow_succ]
              have hpc : (2 : Nat) ^ (order + BASE_ORDER) = 2 ^ (BASE_ORDER + order) := by
                have e : order + BASE_ORDER = BASE_ORDER + order := by omega
                rw [e]
              have hcP : ∀ c : Block, c ∈ tree1 → c.order ≠ order + 1 → c ≠ P := by
                intro c _ hco he
                rw [he, hPo] at hco
                exact hco rfl
              have hcurP : ∀ c : Block, c ∈ tree1 → c.address ≠ cur → c ≠ P := by
                intro c _ hca he
                rw [he, hPa] at hca
                exact hca rfl
              refine ⟨⟨hTDR, ?_, ?_⟩, ?_, ?_⟩
              · intro k q hq
                simp only [updF] at hq
                by_cases hk : k = order
                · rw [if_pos hk, if_neg hoo] at hq
                  rcases List.mem_cons.mp hq with hq | hq
                  · exact ⟨_, hsR, hq.symm, by rw [hk], rfl⟩
                  rcases List.mem_cons.mp hq with hq | hq
                  · exact ⟨_, hfR, hq.symm, by rw [hk], rfl⟩
                  · obtain ⟨c, hc, hca, hco, hcu⟩ := hFO1 order q hq
                    refine ⟨c, hkeep c hc (hcP c hc (by omega)), hca, by rw [hk, hco], hcu⟩
                · rw [if_neg hk] at hq
                  by_cases hk1 : k = order + 1
                  · rw [if_pos hk1] at hq
                    have hq' := mem_removeFirst _ _ _ hq
                    obtain ⟨c, hc, hca, hco, hcu⟩ := hFO1 (order + 1) q hq'
                    have hqcur : q ≠ cur := by
                      intro he
                      rw [he] at hq
                      exact not_mem_removeFirst _ _ (hND1 (order + 1)) hq
                    refine ⟨c, hkeep c hc (hcurP c hc (by rw [hca]; exact hqcur)),
                      hca, by rw [hk1, hco], hcu⟩
                  · rw [if_neg hk1] at hq
                    obtain ⟨c, hc, hca, hco, hcu⟩ := hFO1 k q hq
                    refine ⟨c, hkeep c hc (hcP c hc (by omega)), hca, hco, hcu⟩
              · intro k
                simp only [updF]
                by_cases hk : k = order
                · rw [if_pos hk, if_neg hoo]
                  refine List.nodup_cons.mpr ⟨?_, List.nodup_cons.mpr ⟨?_, hND1 order⟩⟩
                  · intro hmem
                    rcases List.mem_cons.mp hmem with hmem | hmem
                    · have p1 : (1 : Nat) ≤ 2 ^ (order + BASE_ORDER) :=
                        Nat.one_le_two_pow
                      omega
                    · obtain ⟨c, hc, hca, hco, hcu⟩ := hFO1 order _ hmem
                      have hcne : c ≠ P := hcP c hc (by omega)
                      have hno : NoOvB c P :=
                        hTD1.forall (fun x y hxy => noovb_symm hxy) hc hPmem hcne
                      simp only [NoOvB] at hno
                      rw [hca, hco, hPa, hPo] at hno
                      have p1 : (1 : Nat) ≤ 2 ^ (BASE_ORDER + order) :=
                        Nat.one_le_two_pow
                      omega
                  · intro hmem
                    obtain ⟨c, hc, hca, hco, hcu⟩ := hFO1 order _ hmem
                    have hcul : c = P := addr_uniqueR hTD1 hc hPmem (by rw [hca, hPa])
                    rw [hcul, hPo] at hco
                    omega
                · rw [if_neg hk]
                  by_cases hk1 : k = order + 1
                  · rw [if_pos hk1]
                    exact nodup_removeFirst _ _ (hND1 (order + 1))
                  · rw [if_neg hk1]
                    exact hND1 k
              · refine UsedPersist_trans hU1 ?_
                intro c hc hcu
                refine hkeep c hc ?_
                intro he
                rw [he, hPu] at hcu
                exact Bool.false_ne_true hcu
              · exact ⟨_, hfR, rfl, rfl, rfl⟩

theorem allocateR_error_spec {al : BuddyAllocator} (hInv : RbInv al.tree al.free)
    {o : Nat} {al' : BuddyAllocator} {e : BlockAllocateError}
    (h : al.allocate_exact o = some (al', Except.error e)) : al' = al := by
  rw [BuddyAllocator.allocate_exact] at h
  by_cases ho : MAX_ORDER < o
  · rw [if_pos ho] at h
    simp at h
    exact h.1.symm
  rw [if_neg ho] at h
  rw [BuddyAllocator.find_or_split] at h
  cases hf : findOrSplitAux (MAX_ORDER + 1 - o) al.free al.tree o with
  | none => rw [hf] at h; simp at h
  | some tri =>
    obtain ⟨free1, tree1, res⟩ := tri
    rw [hf] at h
    cases res with
    | error e1 =>
      simp at h
      obtain ⟨hq1, hq2⟩ :=
        (findOrSplitAuxR_spec _ al.free al.tree o hInv).1 free1 tree1 e1 hf
      rw [← h.1, hq1, hq2]
    | ok q =>
      simp at h
      cases htf : treeFind tree1 q with
      | none => rw [htf] at h; simp at h
      | some b => rw [htf] at h; simp at h

/-- Specification of a successful `allocate_exact` in the tree variant: the
invariants persist, every previously `Used` block survives, and the returned
pointer designates a now-`Used` block whose address differs from every block
that was already `Used` before the call. -/
theorem allocateR_ok_spec {al : BuddyAllocator} (hInv : RbInv al.tree al.free)
    {o : Nat} {al'' : BuddyAllocator} {p : Nat}
    (h : al.allocate_exact o = some (al'', Except.ok p)) :
    RbInv al''.tree al''.free ∧ UsedPersist al.tree al''.tree ∧
    (∃ b ∈ al''.tree, b.address = p ∧ b.used = true) ∧
    ∀ c ∈ al.tree, c.used = true → c.address ≠ p := by
  rw [BuddyAllocator.allocate_exact] at h
  by_cases ho : MAX_ORDER < o
  · rw [if_pos ho] at h; simp at h
  rw [if_neg ho] at h
  rw [BuddyAllocator.find_or_split] at h
  cases hf : findOrSplitAux (MAX_ORDER + 1 - o) al.free al.tree o with
  | none => rw [hf] at h; simp at h
  | some tri =>
    obtain ⟨free1, tree1, res⟩ := tri
    rw [hf] at h
    cases res with
    | error e1 => simp at h
    | ok q =>
      simp at h
      obtain ⟨⟨hTD1, hFO1, hND1⟩, hU1, P, hPmem, hPa, hPo, hPu⟩ :=
        (findOrSplitAuxR_spec _ al.free al.tree o hInv).2 free1 tree1 q hf
      have htf : treeFind tree1 q = some P := by
        rw [← hPa]
        exact treeFind_mem hTD1 hPmem
      rw [htf] at h
      simp at h
      obtain ⟨h1, h2⟩ := h
      subst h2
      obtain ⟨l1, l2, he, hl1a, hrep⟩ := treeReplace_decomp hTD1 hPmem
      have hrep' : treeReplace tree1 q [(⟨P.address, P.order, true⟩ : Block)] =
          l1 ++ ([⟨P.address, P.order, true⟩] ++ l2) := by
        rw [← hPa]
        exact hrep _
      rw [hrep'] at h1
      have hDdec := hTD1
      rw [he] at hDdec
      obtain ⟨hDl1, hDP2, hcross⟩ := List.pairwise_append.mp hDdec
      obtain ⟨hPl2, hDl2⟩ := List.pairwise_cons.mp hDP2
      have hmemPu : (⟨P.address, P.order, true⟩ : Block) ∈
          l1 ++ ([⟨P.address, P.order, true⟩] ++ l2) :=
        List.mem_append_right _ (List.mem_append_left _ (List.mem_cons_self _ _))
      have hkeep : ∀ c ∈ tree1, c ≠ P → c ∈ l1 ++ ([⟨P.address, P.order, true⟩] ++ l2) := by
        intro c hc hcP
        rw [he] at hc
        rcases List.mem_append.mp hc with hc | hc
        · exact List.mem_append_left _ hc
        · rcases List.mem_cons.mp hc with hc | hc
          · exact absurd hc hcP
          · exact List.mem_append_right _ (List.mem_append_right _ hc)
      rw [← h1]
      simp only
      refine ⟨⟨?_, ?_, ?_⟩, ?_, ?_, ?_⟩
      · rw [TreeDisj, List.pairwise_append]
        refine ⟨hDl1, ?_, ?_⟩
        · refine List.Pairwise.cons ?_ hDl2
          intro d hd
          have hno := hPl2 d hd
          simp only [NoOvB] at hno ⊢
          omega
        · intro a ha b hb
          rcases List.mem_cons.mp hb with hb | hb
          · have hno := hcross a ha P (List.mem_cons_self P l2)
            rw [hb]
            simp only [NoOvB] at hno ⊢
            omega
          · exact hcross a ha b (List.mem_cons_of_mem P hb)
      · intro k q' hq'
        simp only [updF] at hq'
        by_cases hk : k = o
        · rw [if_pos hk] at hq'
          have hq'' := mem_removeFirst _ _ _ hq'
          obtain ⟨c, hc, hca, hco, hcu⟩ := hFO1 o q' hq''
          have hqp : q' ≠ q := by
            intro heq
            rw [heq] at hq'
            exact not_mem_removeFirst _ _ (hND1 o) hq'
          have hcP : c ≠ P := by
            intro heq
            rw [heq, hPa] at hca
            exact hqp hca.symm
          exact ⟨c, hkeep c hc hcP, hca, by rw [hk, hco], hcu⟩
        · rw [if_neg hk] at hq'
          obtain ⟨c, hc, hca, hco, hcu⟩ := hFO1 k q' hq'
          have hcP : c ≠ P := by
            intro heq
            rw [heq, hPo] at hco
            exact hk hco.symm
          exact ⟨c, hkeep c hc hcP, hca, hco, hcu⟩
      · intro k
        simp only [updF]
        by_cases hk : k = o
        · rw [if_pos hk]
          exact nodup_removeFirst _ _ (hND1 o)
        · rw [if_neg hk]
          exact hND1 k
      · refine UsedPersist_trans hU1 ?_
        intro c hc hcu
        refine hkeep c hc ?_
        intro heq
        rw [heq, hPu] at hcu
        exact Bool.false_ne_true hcu
      · exact ⟨⟨P.address, P.order, true⟩, hmemPu, hPa, rfl⟩
      · intro c hc hcu hcp
        have hc1 : c ∈ tree1 := hU1 c hc hcu
        have hce : c = P := addr_uniqueR hTD1 hc1 hPmem (by rw [hcp, hPa])
        rw [hce, hPu] at hcu
        exact Bool.false_ne_true hcu

theorem allocsOkR_aux : ∀ (ds : List Nat) (al : BuddyAllocator) (R : List Nat),
    RbInv al.tree al.free → UsedAddrsR al.tree R → R.Pairwise (fun a b => a ≠ b) →
    (R ++ allocsOkR al ds).Pairwise (fun a b => a ≠ b) := by
  intro ds
  induction ds with
  | nil =>
    intro al R _ _ hR
    simpa [allocsOkR] using hR
  | cons d ds ih =>
    intro al R hInv hU hR
    cases ha : al.allocate_exact d with
    | none =>
      have hrun : allocsOkR al (d :: ds) = [] := by
        simp [allocsOkR, ha]
      rw [hrun]
      simpa using hR
    | some pr =>
      obtain ⟨al', res⟩ := pr
      cases res with
      | error e =>
        have heq : al' = al := allocateR_error_spec hInv ha
        have hrun : allocsOkR al (d :: ds) = allocsOkR al' ds := by
          simp [allocsOkR, ha]
        rw [hrun, heq]
        exact ih al R hInv hU hR
      | ok p =>
        obtain ⟨hInv2, hP2, ⟨b, hb, hba, hbu⟩, hdist⟩ := allocateR_ok_spec hInv ha
        have hrun : allocsOkR al (d :: ds) = p :: allocsOkR al' ds := by
          simp [allocsOkR, ha]
        rw [hrun]
        have hU' : UsedAddrsR al'.tree (R ++ [p]) := by
          intro r hr
          rcases List.mem_append.mp hr with hr | hr
          · obtain ⟨c, hc, hcu, hca⟩ := hU r hr
            exact ⟨c, hP2 c hc hcu, hcu, hca⟩
          · rcases List.mem_cons.mp hr with hr | hr
            · exact ⟨b, hb, hbu, by rw [hba, hr]⟩
            · exact absurd hr (List.not_mem_nil r)
        have hR' : (R ++ [p]).Pairwise (fun a c => a ≠ c) := by
          rw [List.pairwise_append]
          refine ⟨hR, List.pairwise_singleton _ _, ?_⟩
          intro r hr y hy
          rcases List.mem_cons.mp hy with hy | hy
          · obtain ⟨c, hc, hcu, hca⟩ := hU r hr
            rw [hy, ← hca]
            exact hdist c hc hcu
          · exact absurd hy (List.not_mem_nil y)
        have hfin := ih al' (R ++ [p]) hInv2 hU' hR'
        rw [List.append_assoc, List.singleton_append] at hfin
        exact hfin

theorem createR_inv {al : BuddyAllocator} (hInv : RbInv al.tree al.free) {x : Nat}
    (hFr : ∀ c ∈ al.tree, NoOvB c ⟨x, MAX_ORDER, false⟩) :
    RbInv (al.create_top_level x).tree (al.create_top_level x).free := by
  obtain ⟨hTD, hFO, hND⟩ := hInv
  refine ⟨treeInsert_pairwise hTD hFr, ?_, ?_⟩
  · intro k q hq
    simp only [BuddyAllocator.create_top_level, updF] at hq ⊢
    by_cases hk : k = MAX_ORDER
    · rw [if_pos hk] at hq
      rcases List.mem_cons.mp hq with hq | hq
      · exact ⟨⟨x, MAX_ORDER, false⟩, self_mem_treeInsert _ _, hq.symm, by rw [hk], rfl⟩
      · obtain ⟨c, hc, hca, hco, hcu⟩ := hFO MAX_ORDER q hq
        exact ⟨c, mem_treeInsert_of_mem _ hc, hca, by rw [hk]; exact hco, hcu⟩
    · rw [if_neg hk] at hq
      obtain ⟨c, hc, hca, hco, hcu⟩ := hFO k q hq
      exact ⟨c, mem_treeInsert_of_mem _ hc, hca, hco, hcu⟩
  · intro k
    simp only [BuddyAllocator.create_top_level, updF]
    by_cases hk : k = MAX_ORDER
    · rw [if_pos hk]
      refine List.nodup_cons.mpr ⟨?_, hND MAX_ORDER⟩
      intro hmem
      obtain ⟨c, hc, hca, hco, hcu⟩ := hFO MAX_ORDER x hmem
      have hno := hFr c hc
      simp only [NoOvB] at hno
      have p1 : (1 : Nat) ≤ 2 ^ (BASE_ORDER + c.order) := Nat.one_le_two_pow
      have p2 : (1 : Nat) ≤ 2 ^ (BASE_ORDER + MAX_ORDER) := Nat.one_le_two_pow
      omega
    · rw [if_neg hk]
      exact hND k

theorem registerAllRb_inv : ∀ (bases : List Nat) (al : BuddyAllocator),
    RbInv al.tree al.free →
    (∀ x ∈ bases, ∀ c ∈ al.tree, NoOvB c ⟨x, MAX_ORDER, false⟩) →
    bases.Pairwise (fun a b => a + 2 ^ MAX_ORDER_SIZE ≤ b ∨ b + 2 ^ MAX_ORDER_SIZE ≤ a) →
    RbInv (registerAllRb al bases).tree (registerAllRb al bases).free := by
  intro bases
  induction bases with
  | nil => intro al hInv _ _; exact hInv
  | cons x xs ih =>
    intro al hInv hFresh hPW
    have hstep : registerAllRb al (x :: xs) = registerAllRb (al.create_top_level x) xs := by
      simp [registerAllRb]
    rw [hstep]
    have hFrx : ∀ c ∈ al.tree, NoOvB c ⟨x, MAX_ORDER, false⟩ :=
      fun c hc => hFresh x (List.mem_cons_self x xs) c hc
    refine ih (al.create_top_level x) (createR_inv hInv hFrx) ?_
      (List.pairwise_cons.mp hPW).2
    intro y hy c hc
    simp only [BuddyAllocator.create_top_level] at hc
    rcases mem_treeInsert _ hc with hc | hc
    · rw [hc]
      have hxy := (List.pairwise_cons.mp hPW).1 y hy
      have hMOS : MAX_ORDER_SIZE = BASE_ORDER + MAX_ORDER := rfl
      simp only [NoOvB]
      rw [hMOS] at hxy
      omega
    · exact hFresh y (List.mem_cons_of_mem x hy) c hc

/-- Across any sequence of `allocate_exact` calls on a tree-variant allocator
freshly registered over pairwise-disjoint top-level regions, the addresses of
the successful allocations are pairwise distinct. -/
theorem allocsOkR_distinct (bases : List Nat)
    (hPW : bases.Pairwise
      (fun a b => a + 2 ^ MAX_ORDER_SIZE ≤ b ∨ b + 2 ^ MAX_ORDER_SIZE ≤ a))
    (ds : List Nat) :
    (allocsOkR (registerAllRb BuddyAllocator.new bases) ds).Pairwise
      (fun a b => a ≠ b) := by
  have hInv := registerAllRb_inv bases BuddyAllocator.new
    ⟨List.Pairwise.nil, fun k p hp => by simp [BuddyAllocator.new] at hp,
      fun k => List.nodup_nil⟩
    (fun y hy c hc => absurd hc (List.not_mem_nil c)) hPW
  have hfin := allocsOkR_aux ds (registerAllRb BuddyAllocator.new bases) [] hInv
    (fun r hr => absurd hr (List.not_mem_nil r)) List.Pairwise.nil
  simpa using hfin

end BuddyRbTree

namespace BuddyBitmap

/-! ### Fixed-order allocation sequences (bitmap variant) -/
theorem alloc_exact_root_zero {t : Tree} (h : t.flat 0 = 0) (d : Nat) :
    t.alloc_exact d = none := by
  rw [Tree.alloc_exact, if_pos (Or.inl h)]

theorem allocsOk_root_zero : ∀ (ds : List Nat) (t : Tree), t.flat 0 = 0 →
    allocsOk t ds = [] := by
  intro ds
  induction ds with
  | nil => intro t _; rfl
  | cons d ds ih =>
    intro t h
    simp [allocsOk, alloc_exact_root_zero h d, ih t h]

theorem treeAfter_full_root : (treeAfter (2 ^ MAX_ORDER)).flat 0 = 0 := by
  rw [treeAfter_root]
  refine (sval_eq_zero_iff MAX_ORDER (2 ^ MAX_ORDER) 1 le_rfl ?_ ?_).mpr ?_
  · rw [lvl_one]; omega
  · rw [lvl_one]; omega
  · rw [hi_one]

theorem mem_range'_ge : ∀ (n s b : Nat), b ∈ List.range' s n → s ≤ b := by
  intro n
  induction n with
  | zero => intro s b h; simp [List.range'] at h
  | succ m ih =>
    intro s b h
    rcases List.mem_cons.mp h with h | h
    · omega
    · have := ih (s + 1) b h
      omega

theorem range'_pairwise_lt : ∀ (n s : Nat),
    (List.range' s n).Pairwise (fun a b => a < b) := by
  intro n
  induction n with
  | zero => intro s; exact List.Pairwise.nil
  | succ m ih =>
    intro s
    refine List.Pairwise.cons ?_ (ih (s + 1))
    intro b hb
    have := mem_range'_ge m (s + 1) b hb
    omega

/-- Exact results of `n` order-0 allocations starting `k` pages in: the calls
return pages `k, k + 1, …` until the tree is exhausted. -/
theorem allocsOk_rep0 : ∀ (n k : Nat), k ≤ 2 ^ MAX_ORDER →
    allocsOk (treeAfter k) (List.replicate n 0) =
      (List.range' k (Nat.min n (2 ^ MAX_ORDER - k))).map
        (fun j => (2 ^ BASE_ORDER * j, 0)) := by
  intro n
  induction n with
  | zero => intro k hk; simp [allocsOk]
  | succ m ih =>
    intro k hk
    by_cases hlt : k < 2 ^ MAX_ORDER
    · have hstep := treeAfter_step hlt
      have hrun : allocsOk (treeAfter k) (List.replicate (m + 1) 0) =
          (2 ^ BASE_ORDER * k, 0) :: allocsOk (treeAfter (k + 1)) (List.replicate m 0) := by
        simp [allocsOk, hstep]
      rw [hrun, ih (k + 1) (by omega)]
      have hmin : Nat.min (m + 1) (2 ^ MAX_ORDER - k) =
          Nat.min m (2 ^ MAX_ORDER - (k + 1)) + 1 := by
        rw [show 2 ^ MAX_ORDER - k = (2 ^ MAX_ORDER - (k + 1)) + 1 from by omega]
        exact Nat.succ_min_succ m _
      rw [hmin]
      rw [show List.range' k (Nat.min m (2 ^ MAX_ORDER - (k + 1)) + 1) =
        k :: List.range' (k + 1) (Nat.min m (2 ^ MAX_ORDER - (k + 1))) from rfl]
      simp
    · have hke : k = 2 ^ MAX_ORDER := by omega
      subst hke
      rw [allocsOk_root_zero _ _ treeAfter_full_root]
      have hmin : Nat.min (m + 1) (2 ^ MAX_ORDER - 2 ^ MAX_ORDER) = 0 := by
        rw [Nat.sub_self]
        exact Nat.min_zero _
      rw [hmin]
      simp

/-- Order-0 allocations on a fresh tree return strictly increasing addresses,
no matter how many calls are made. -/
theorem order0_ascending (n : Nat) :
    ((allocsOk Tree.new (List.replicate n 0)).map Prod.fst).Pairwise
      (fun a b => a < b) := by
  have h0 := allocsOk_rep0 n 0 (Nat.zero_le _)
  rw [treeAfter_zero] at h0
  rw [h0, List.map_map]
  refine List.Pairwise.map _ ?_ (range'_pairwise_lt _ 0)
  intro a b hab
  simp only [Function.comp_apply]
  have hp : (0 : Nat) < 2 ^ BASE_ORDER := Nat.pos_pow_of_pos _ (by norm_num)
  exact mul_lt_mul_of_pos_left hab hp

theorem alloc_max_root_zero {t : Tree} {a : Nat} {t' : Tree}
    (h : t.alloc_exact MAX_ORDER = some (a, t')) : t'.flat 0 = 0 := by
  obtain ⟨-, hft, -, -⟩ := alloc_some_elim h
  rw [hft]
  simp [Nat.sub_self, descend, propagate, upd]

/-- At `MAX_ORDER` a single tree admits at most one successful allocation, so
the successful addresses of any all-`MAX_ORDER` call sequence are trivially
strictly increasing. -/
theorem allocsOk_max_aux : ∀ (ds : List Nat) (t : Tree), (∀ d ∈ ds, d = MAX_ORDER) →
    ((allocsOk t ds).map Prod.fst).Pairwise (fun a b => a < b) := by
  intro ds
  induction ds with
  | nil => intro t _; exact List.Pairwise.nil
  | cons d ds ih =>
    intro t hds
    have hd : d = MAX_ORDER := hds d (List.mem_cons_self d ds)
    cases ha : t.alloc_exact d with
    | none =>
      have hrun : allocsOk t (d :: ds) = allocsOk t ds := by
        simp [allocsOk, ha]
      rw [hrun]
      exact ih t (fun x hx => hds x (List.mem_cons_of_mem d hx))
    | some pr =>
      obtain ⟨a, t'⟩ := pr
      have hz : t'.flat 0 = 0 := by
        rw [hd] at ha
        exact alloc_max_root_zero ha
      have hrun : allocsOk t (d :: ds) = [(a, d)] := by
        simp [allocsOk, ha, allocsOk_root_zero ds t' hz]
      rw [hrun]
      simp

/-- For reachable trees the feasibility check rejects any order beyond
`MAX_ORDER` (the root never advertises more than `MAX_ORDER + 1`). -/
theorem alloc_exact_too_large {t : Tree} (h : Reach t) {k : Nat}
    (hk : MAX_ORDER < k) : t.alloc_exact k = none := by
  obtain ⟨-, hB⟩ := reach_good_bound h
  have hb1 := hB 1 le_rfl
  norm_num [lvl_one] at hb1
  rw [Tree.alloc_exact, if_pos (by omega)]

end BuddyBitmap

namespace BuddyLists

/-- Computational specification of a successful `split` alone (the index is
valid, points at a `Free` block whose stored order matches the index — the
`debug_assert` of the source — and the order is positive). -/
theorem split_eq {al : BuddyAllocator} {K i : Nat} {b : Block}
    (hget : (al.lists K).get? i = some b) (hbo : b.order = K)
    (hfree : b.state = BlockState.Free) (hK : 0 < K) :
    al.split ⟨K, i⟩ = some (Except.ok (⟨K - 1, (al.lists (K - 1)).length⟩,
      ⟨updL (updL al.lists K ((al.lists K).eraseIdx i)) (K - 1)
        (al.lists (K - 1) ++
          [⟨b.begin_address, K - 1, BlockState.Free⟩,
           ⟨b.begin_address + 2 ^ (K - 1 + BASE_ORDER), K - 1, BlockState.Free⟩])⟩)) := by
  have hne1 : ¬(K - 1 = K) := by omega
  rw [BuddyAllocator.split]
  simp only [BuddyAllocator.get]
  rw [hget]
  simp only [hbo]
  rw [if_neg (by rw [hfree]; simp), if_neg (by omega)]
  simp only [updL, if_pos rfl, if_neg hne1, if_true]
  simp [List.length_append]

end BuddyLists

namespace BuddyRbTree

/-- Decomposition of the tree at the block a cursor points at (`treeFind` finds
the first block with the given address; `treeReplace` replaces exactly it). -/
theorem treeFind_decomp {a : Nat} {b : Block} :
    ∀ {tr : List Block}, treeFind tr a = some b →
      ∃ l1 l2, tr = l1 ++ b :: l2 ∧ (∀ c ∈ l1, c.address ≠ a) ∧
        ∀ new, treeReplace tr a new = l1 ++ (new ++ l2) := by
  intro tr
  induction tr with
  | nil => intro h; simp [treeFind] at h
  | cons c cs ih =>
    intro h
    rw [treeFind] at h
    by_cases hca : c.address = a
    · rw [List.find?_cons_of_pos _ (by simpa using hca)] at h
      refine ⟨[], cs, by rw [Option.some_inj.mp h]; simp, by simp, ?_⟩
      intro new
      rw [treeReplace, if_pos (by simpa using hca)]
      simp
    · rw [List.find?_cons_of_neg _ (by simpa using hca)] at h
      obtain ⟨l1, l2, he, hl1, hrep⟩ := ih (by rw [treeFind]; exact h)
      refine ⟨c :: l1, l2, by rw [he]; rfl, ?_, ?_⟩
      · intro d hd
        rcases List.mem_cons.mp hd with hd | hd
        · rw [hd]; exact hca
        · exact hl1 d hd
      · intro new
        rw [treeReplace, if_neg (by simpa using hca), hrep new]
        rfl

/-- Computational specification of a successful `split` in the tree variant:
the original block is replaced in place by the two `Free` buddies and the two
returned pointers are (first, second). -/
theorem splitR_eq {tr : List Block} {a : Nat} {b : Block}
    (hfind : treeFind tr a = some b) (hused : b.used = false) (hord : 0 < b.order) :
    split tr a = some (Except.ok (treeReplace tr a
        [⟨b.address, b.order - 1, false⟩,
         ⟨b.address + 2 ^ (b.order - 1 + BASE_ORDER), b.order - 1, false⟩],
      b.address, b.address + 2 ^ (b.order - 1 + BASE_ORDER))) := by
  rw [split, hfind]
  simp only [hused]
  rw [if_neg (by simp), if_neg (by omega)]

end BuddyRbTree

theorem ceil_div_nat (N M : Nat) (hM : 0 < M) :
    ⌈(N : ℚ) / (M : ℚ)⌉ = ((N + (M - 1)) / M : ℕ) := by
  have hq : (0 : ℚ) < (M : ℚ) := by exact_mod_cast hM
  have h1 : ((N + (M - 1)) / M) * M ≤ N + (M - 1) := Nat.div_mul_le_self _ _
  have h2 : N + (M - 1) < ((N + (M - 1)) / M) * M + M := by
    have hdm := Nat.div_add_mod (N + (M - 1)) M
    have hml := Nat.mod_lt (N + (M - 1)) hM
    have hcm : ((N + (M - 1)) / M) * M = M * ((N + (M - 1)) / M) := Nat.mul_comm _ _
    omega
  rw [Int.ceil_eq_iff]
  constructor
  · rw [lt_div_iff hq, Int.cast_natCast]
    have h4 : (((N + (M - 1)) / M : ℕ) : ℚ) * (M : ℚ) < (N : ℚ) + (M : ℚ) := by
      exact_mod_cast (by omega : ((N + (M - 1)) / M) * M < N + M)
    nlinarith [h4]
  · rw [div_le_iff hq, Int.cast_natCast]
    have h5 : N ≤ ((N + (M - 1)) / M) * M := by omega
    exact_mod_cast h5

/-- The `f64` helper computes the exact ceiling: in closed form it is the
ceiling-division `(2^(block_size + BASE_ORDER) * blocks + 2^30 - 1) / 2^30`. -/
theorem top_level_blocks_eq (blocks block_size : Nat) :
    top_level_blocks blocks block_size =
      (2 ^ (block_size + BASE_ORDER) * blocks + (2 ^ (MAX_ORDER + BASE_ORDER) - 1)) /
        2 ^ (MAX_ORDER + BASE_ORDER) ∧
    (top_level_blocks blocks block_size : ℤ) =
      ⌈(2 ^ (block_size + BASE_ORDER) * (blocks : ℚ)) / 2 ^ (MAX_ORDER + BASE_ORDER)⌉ := by
  have hM : 0 < 2 ^ (MAX_ORDER + BASE_ORDER) := Nat.pos_pow_of_pos _ (by norm_num)
  have hcast : (2 ^ (block_size + BASE_ORDER) * (blocks : ℚ)) =
      ((2 ^ (block_size + BASE_ORDER) * blocks : ℕ) : ℚ) := by
    push_cast
    ring
  have hcast2 : ((2 ^ (MAX_ORDER + BASE_ORDER) : ℕ) : ℚ) =
      (2 : ℚ) ^ (MAX_ORDER + BASE_ORDER) := by push_cast; ring
  have hc := ceil_div_nat (2 ^ (block_size + BASE_ORDER) * blocks)
    (2 ^ (MAX_ORDER + BASE_ORDER)) hM
  rw [hcast2] at hc
  constructor
  · rw [top_level_blocks, hcast, hc]
    exact Int.toNat_natCast _
  · rw [top_level_blocks, hcast, hc, Int.toNat_natCast]

/-! ## The claims -/
/-- C1: Bitmap variant (`BASE_ORDER = 12`, `LEVEL_COUNT = 19`): from
`Tree::new()`, the first `alloc_exact(MAX_ORDER - 1)` returns address `0x0`,
the second returns `2^(BASE_ORDER + MAX_ORDER - 1) = 0x20000000`, and a
subsequent `alloc_exact(0)` returns nothing (exhausted). -/
theorem spec_C1 :
    BuddyBitmap.allocs BuddyBitmap.Tree.new [MAX_ORDER - 1, MAX_ORDER - 1, 0] =
      [some 0, some (2 ^ (BASE_ORDER + MAX_ORDER - 1)), none] := by
  decide

/-- C2 (counterexample): the claimed invariant `node[i].order_free =
max(node[2i].order_free, node[2i+1].order_free)` already fails on the freshly
initialised tree (reachable by the empty call sequence): `Tree::new` seeds the
root with `19` while both its children are seeded `18`. -/
theorem spec_C2_counterexample :
    BuddyBitmap.Tree.new.flat 0 = 19 ∧
    BuddyBitmap.Tree.new.flat 1 = 18 ∧
    BuddyBitmap.Tree.new.flat 2 = 18 ∧
    ¬(BuddyBitmap.Tree.new.flat 0 =
        Nat.max (BuddyBitmap.Tree.new.flat 1) (BuddyBitmap.Tree.new.flat 2)) := by
  decide

/-- C2 (amended): for every state reachable by `Tree::new()` followed by any
sequence of `alloc_exact` calls and every internal 1-based node `i`, the
node's `order_free` equals the max of its children's, or equals `0`, or the
node is still in its virgin seeded state — `order_free = (MAX_ORDER - level)
+ 1`, one more than its two equally virgin children (`GoodNode`). -/
theorem spec_C2 {t : BuddyBitmap.Tree} (h : BuddyBitmap.Reach t) :
    ∀ i, 1 ≤ i → i < 2 ^ MAX_ORDER → BuddyBitmap.GoodNode t i :=
  fun i h1 h2 => (BuddyBitmap.reach_good_bound h).1 i h1 h2

theorem spec_C2_witness : BuddyBitmap.GoodNode BuddyBitmap.Tree.new 1 :=
  spec_C2 ⟨[], rfl⟩ 1 (by decide) (by decide)

/-- C3: across any sequence of successful allocations against a fixed set of
registered top-level regions — the fixed fresh tree for the bitmap variant,
pairwise-disjoint regions for the list and tree variants — the returned
addresses are pairwise distinct. -/
theorem spec_C3 :
    (∀ ds : List Nat,
      ((BuddyBitmap.allocsOk BuddyBitmap.Tree.new ds).map Prod.fst).Pairwise
        (fun a b => a ≠ b)) ∧
    (∀ bases : List Nat,
      bases.Pairwise
        (fun a b => a + 2 ^ MAX_ORDER_SIZE ≤ b ∨ b + 2 ^ MAX_ORDER_SIZE ≤ a) →
      ∀ ds : List Nat,
        (BuddyLists.allocsOkL
          (BuddyLists.registerAll BuddyLists.BuddyAllocator.new bases) ds).Pairwise
          (fun a b => a ≠ b)) ∧
    (∀ bases : List Nat,
      bases.Pairwise
        (fun a b => a + 2 ^ MAX_ORDER_SIZE ≤ b ∨ b + 2 ^ MAX_ORDER_SIZE ≤ a) →
      ∀ ds : List Nat,
        (BuddyRbTree.allocsOkR
          (BuddyRbTree.registerAllRb BuddyRbTree.BuddyAllocator.new bases) ds).Pairwise
          (fun a b => a ≠ b)) :=
  ⟨BuddyBitmap.allocsOk_pairwise_ne, BuddyLists.allocsOkL_distinct,
    BuddyRbTree.allocsOkR_distinct⟩

theorem spec_C3_witness :
    (BuddyLists.allocsOkL
      (BuddyLists.registerAll BuddyLists.BuddyAllocator.new [0]) [0, 0]).Pairwise
      (fun a b => a ≠ b) ∧
    (BuddyRbTree.allocsOkR
      (BuddyRbTree.registerAllRb BuddyRbTree.BuddyAllocator.new [0]) [0, 0]).Pairwise
      (fun a b => a ≠ b) :=
  ⟨spec_C3.2.1 [0] (List.pairwise_singleton _ _) [0, 0],
    spec_C3.2.2 [0] (List.pairwise_singleton _ _) [0, 0]⟩

/-- C4 (counterexample): the claim that fixed-order address sequences are
strictly increasing *only* at `desired_order = MAX_ORDER` is wrong: two
successful order-0 allocations on a fresh tree already return the strictly
increasing addresses 0 and 4096 although `0 < MAX_ORDER`. -/
theorem spec_C4_counterexample :
    BuddyBitmap.allocs BuddyBitmap.Tree.new [0, 0] = [some 0, some 4096] ∧
    (0 : Nat) < MAX_ORDER ∧ (0 : Nat) < 4096 := by
  decide

/-- C4 (amended): within a single region (one fresh tree), the successful
addresses of a fixed-order call sequence are strictly increasing both at
`desired_order = 0` (any number of calls) and at `desired_order = MAX_ORDER`
(where at most one call can succeed); strict increase is not exclusive to
`MAX_ORDER`. -/
theorem spec_C4 :
    (∀ n : Nat,
      ((BuddyBitmap.allocsOk BuddyBitmap.Tree.new
        (List.replicate n 0)).map Prod.fst).Pairwise (fun a b => a < b)) ∧
    (∀ ds : List Nat, (∀ d ∈ ds, d = MAX_ORDER) →
      ((BuddyBitmap.allocsOk BuddyBitmap.Tree.new ds).map Prod.fst).Pairwise
        (fun a b => a < b)) :=
  ⟨BuddyBitmap.order0_ascending,
    fun ds h => BuddyBitmap.allocsOk_max_aux ds BuddyBitmap.Tree.new h⟩

theorem spec_C4_witness :
    ((BuddyBitmap.allocsOk BuddyBitmap.Tree.new
      [MAX_ORDER, MAX_ORDER]).map Prod.fst).Pairwise (fun a b => a < b) :=
  spec_C4.2 [MAX_ORDER, MAX_ORDER] (by decide)

/-- C5 (counterexample): after registering one region at 0 and calling
`allocate_exact(MAX_ORDER - 2)`, the record store holds 3 records, not the
claimed 5: each `split` *removes* the block it splits, so of the claimed
`2 + 2 + 1` records the split order-17 buddy and the original order-18 block
are gone. -/
theorem spec_C5_counterexample :
    BuddyLists.allocScenarioCount ≠ some 5 ∧
    BuddyRbTree.rbScenarioCount ≠ some 5 := by
  decide

/-- C5 (amended): in both the list and the tree variant, registering one
top-level region at 0 and calling `allocate_exact(MAX_ORDER - 2)` yields a
block with address 0, order `MAX_ORDER - 2` and state `Used`, and the record
store then contains exactly 3 records (the order-16 `Used` block, its free
order-16 buddy and the free order-17 buddy). -/
theorem spec_C5 :
    BuddyLists.allocScenarioBlock =
      some ⟨0, MAX_ORDER - 2, BuddyLists.BlockState.Used⟩ ∧
    BuddyLists.allocScenarioCount = some 3 ∧
    BuddyRbTree.rbScenarioBlock = some ⟨0, MAX_ORDER - 2, true⟩ ∧
    BuddyRbTree.rbScenarioCount = some 3 := by
  decide

/-- C6: for every order `k > MAX_ORDER`, `allocate_exact(k)` fails with
`OrderTooLarge(k)` in the list and tree variants with the allocator state
returned unchanged, and the bitmap variant's `alloc_exact(k)` returns nothing
(on every reachable tree the feasibility check rejects the request). -/
theorem spec_C6 :
    ∀ k, MAX_ORDER < k →
      (∀ al : BuddyLists.BuddyAllocator, al.allocate_exact k =
        some (al, Except.error (BuddyLists.BlockAllocateError.OrderTooLarge k))) ∧
      (∀ al : BuddyRbTree.BuddyAllocator, al.allocate_exact k =
        some (al, Except.error (BuddyRbTree.BlockAllocateError.OrderTooLarge k))) ∧
      (∀ t : BuddyBitmap.Tree, BuddyBitmap.Reach t → t.alloc_exact k = none) := by
  intro k hk
  refine ⟨?_, ?_, ?_⟩
  · intro al
    rw [BuddyLists.BuddyAllocator.allocate_exact, if_pos hk]
  · intro al
    rw [BuddyRbTree.BuddyAllocator.allocate_exact, if_pos hk]
  · intro t ht
    exact BuddyBitmap.alloc_exact_too_large ht hk

theorem spec_C6_witness :
    (BuddyLists.BuddyAllocator.new.allocate_exact 19 =
      some (BuddyLists.BuddyAllocator.new,
        Except.error (BuddyLists.BlockAllocateError.OrderTooLarge 19))) ∧
    (BuddyRbTree.BuddyAllocator.new.allocate_exact 19 =
      some (BuddyRbTree.BuddyAllocator.new,
        Except.error (BuddyRbTree.BlockAllocateError.OrderTooLarge 19))) ∧
    BuddyBitmap.Tree.new.alloc_exact 19 = none :=
  ⟨(spec_C6 19 (by decide)).1 _, (spec_C6 19 (by decide)).2.1 _,
    (spec_C6 19 (by decide)).2.2 _ ⟨[], rfl⟩⟩

/-- C7: splitting a `Free` block of order `k > 0` at address `a` (through a
valid index / cursor whose stored order matches the block) removes the
original record and produces two `Free` order-`(k-1)` blocks at `a` and
`a + 2^(BASE_ORDER + k - 1)`; the list variant returns the position of the
first buddy (the one at address `a`), the tree variant replaces the record in
place and returns the two buddy pointers. -/
theorem spec_C7 :
    (∀ (al : BuddyLists.BuddyAllocator) (K i : Nat) (b : BuddyLists.Block),
      (al.lists K).get? i = some b → b.order = K →
      b.state = BuddyLists.BlockState.Free → 0 < K →
      al.split ⟨K, i⟩ = some (Except.ok (⟨K - 1, (al.lists (K - 1)).length⟩,
        ⟨BuddyLists.updL (BuddyLists.updL al.lists K ((al.lists K).eraseIdx i)) (K - 1)
          (al.lists (K - 1) ++
            [⟨b.begin_address, K - 1, BuddyLists.BlockState.Free⟩,
             ⟨b.begin_address + 2 ^ (BASE_ORDER + K - 1), K - 1,
               BuddyLists.BlockState.Free⟩])⟩)) ∧
        (al.lists (K - 1) ++
            ([⟨b.begin_address, K - 1, BuddyLists.BlockState.Free⟩,
              ⟨b.begin_address + 2 ^ (BASE_ORDER + K - 1), K - 1,
                BuddyLists.BlockState.Free⟩] : List BuddyLists.Block)).get?
            (al.lists (K - 1)).length =
          some ⟨b.begin_address, K - 1, BuddyLists.BlockState.Free⟩) ∧
    (∀ (tr : List BuddyRbTree.Block) (a : Nat) (b : BuddyRbTree.Block),
      BuddyRbTree.treeFind tr a = some b → b.used = false → 0 < b.order →
      ∃ l1 l2, tr = l1 ++ b :: l2 ∧
        BuddyRbTree.split tr a = some (Except.ok (l1 ++
          (([⟨b.address, b.order - 1, false⟩,
             ⟨b.address + 2 ^ (BASE_ORDER + b.order - 1), b.order - 1, false⟩] :
               List BuddyRbTree.Block) ++ l2),
          b.address, b.address + 2 ^ (BASE_ORDER + b.order - 1)))) := by
  constructor
  · intro al K i b hget hbo hfree hK
    have he : BASE_ORDER + K - 1 = K - 1 + BASE_ORDER := by omega
    rw [he]
    refine ⟨BuddyLists.split_eq hget hbo hfree hK, ?_⟩
    rw [get?_append_ge _ _ _ (le_refl _)]
    simp
  · intro tr a b hfind hused hord
    obtain ⟨l1, l2, he1, hl1, hrep⟩ := BuddyRbTree.treeFind_decomp hfind
    have he : BASE_ORDER + b.order - 1 = b.order - 1 + BASE_ORDER := by omega
    rw [he]
    refine ⟨l1, l2, he1, ?_⟩
    rw [BuddyRbTree.splitR_eq hfind hused hord, hrep]

theorem spec_C7_witness :
    (c7Alloc.split ⟨1, 0⟩ = some (Except.ok (⟨1 - 1, (c7Alloc.lists (1 - 1)).length⟩,
      ⟨BuddyLists.updL (BuddyLists.updL c7Alloc.lists 1 ((c7Alloc.lists 1).eraseIdx 0))
          (1 - 1)
        (c7Alloc.lists (1 - 1) ++
          [⟨0, 1 - 1, BuddyLists.BlockState.Free⟩,
           ⟨0 + 2 ^ (BASE_ORDER + 1 - 1), 1 - 1, BuddyLists.BlockState.Free⟩])⟩)) ∧
      (c7Alloc.lists (1 - 1) ++
          ([⟨0, 1 - 1, BuddyLists.BlockState.Free⟩,
            ⟨0 + 2 ^ (BASE_ORDER + 1 - 1), 1 - 1, BuddyLists.BlockState.Free⟩] :
              List BuddyLists.Block)).get?
        (c7Alloc.lists (1 - 1)).length =
        some ⟨0, 1 - 1, BuddyLists.BlockState.Free⟩) :=
  spec_C7.1 c7Alloc 1 0 ⟨0, 1, BuddyLists.BlockState.Free⟩ (by decide) rfl rfl
    (by decide)

/-- C8: starting from `Tree::new()`, the `k`-th of `2^MAX_ORDER` successive
order-0 allocations succeeds and returns the ascending (hence pairwise
distinct) address `2^BASE_ORDER * k`, and the `(2^MAX_ORDER + 1)`-th call
returns nothing. -/
theorem spec_C8 :
    (∀ k, k < 2 ^ MAX_ORDER →
      (BuddyBitmap.iterAlloc0 k).alloc_exact 0 =
        some (2 ^ BASE_ORDER * k, BuddyBitmap.iterAlloc0 (k + 1))) ∧
    ((BuddyBitmap.allocsOk BuddyBitmap.Tree.new
      (List.replicate (2 ^ MAX_ORDER) 0)).map Prod.fst).Pairwise
      (fun a b => a < b) ∧
    (BuddyBitmap.iterAlloc0 (2 ^ MAX_ORDER)).alloc_exact 0 = none := by
  refine ⟨?_, BuddyBitmap.order0_ascending _, ?_⟩
  · intro k hk
    rw [BuddyBitmap.iterAlloc0_eq k (le_of_lt hk),
      BuddyBitmap.iterAlloc0_eq (k + 1) (by omega)]
    exact BuddyBitmap.treeAfter_step hk
  · rw [BuddyBitmap.iterAlloc0_eq _ le_rfl]
    exact BuddyBitmap.treeAfter_full

theorem spec_C8_witness :
    (BuddyBitmap.iterAlloc0 2).alloc_exact 0 =
      some (2 ^ BASE_ORDER * 2, BuddyBitmap.iterAlloc0 3) :=
  spec_C8.1 2 (by decide)

/-- C9: on every reachable tree and for every requested order, each index
`alloc_exact` passes to `block`/`block_mut` is strictly below
`2^LEVEL_COUNT - 1 = blocks_in_tree(LEVEL_COUNT)`, so the debug assertion
holds and the unchecked flat-array accesses stay in bounds. -/
theorem spec_C9 {t : BuddyBitmap.Tree} (h : BuddyBitmap.Reach t) (d b : Nat)
    (hb : b ∈ t.allocAccesses d) : b < 2 ^ LEVEL_COUNT - 1 :=
  BuddyBitmap.allocAccesses_bound t d b hb

theorem spec_C9_witness : (0 : Nat) < 2 ^ LEVEL_COUNT - 1 :=
  spec_C9 ⟨[], rfl⟩ 19 0 (by decide)

/-- C10: for every `blocks : u32` and block order `≤ MAX_ORDER`,
`top_level_blocks` equals the exact ceiling
`⌈2^(block_order + BASE_ORDER) * blocks / 2^(MAX_ORDER + BASE_ORDER)⌉`,
equivalently the ceiling division in closed form over ℕ. -/
theorem spec_C10 (blocks block_size : Nat) (h1 : block_size ≤ MAX_ORDER)
    (h2 : blocks < 2 ^ 32) :
    top_level_blocks blocks block_size =
      (2 ^ (block_size + BASE_ORDER) * blocks + (2 ^ (MAX_ORDER + BASE_ORDER) - 1)) /
        2 ^ (MAX_ORDER + BASE_ORDER) ∧
    (top_level_blocks blocks block_size : ℤ) =
      ⌈(2 ^ (block_size + BASE_ORDER) * (blocks : ℚ)) / 2 ^ (MAX_ORDER + BASE_ORDER)⌉ :=
  top_level_blocks_eq blocks block_size

theorem spec_C10_witness :
    top_level_blocks 1000 0 =
      (2 ^ (0 + BASE_ORDER) * 1000 + (2 ^ (MAX_ORDER + BASE_ORDER) - 1)) /
        2 ^ (MAX_ORDER + BASE_ORDER) ∧
    (top_level_blocks 1000 0 : ℤ) =
      ⌈(2 ^ (0 + BASE_ORDER) * (1000 : ℚ)) / 2 ^ (MAX_ORDER + BASE_ORDER)⌉ :=
  spec_C10 1000 0 (by decide) (by norm_num)

end BuddyWorkshop
